import Mathlib

/-!
# Red-black tree (`RBTree.c`): embedding and verification

The C program keeps nodes in the heap, linked by `left`, `right` and `parent`
pointers.  Here a tree is an inductive value, and a pointer to a node inside a
tree is a *cursor*: the subtree hanging at that node together with the list of
its ancestors (nearest first), each ancestor recorded as a `Frame` holding the
ancestor's colour, payload and other child.  `node->parent` is the head of that
list, `node == tree->root` means the list is empty, and storing into a field of
a node is rebuilding the cursor.

A function returns `none` where the C code would dereference a `NULL` pointer
(or, for the one loop that is run with fuel, where the fuel is used up).
`compFunc` is a parameter `cmp : α → α → Int`; `freeFunc` is modelled by the log
of the payloads it has been called on.
-/

namespace RB

/-! ## Data model -/

/-- Return value of the public functions (`enum FunctionReturn`). -/
inductive FunctionReturn where
  | FAIL
  | SUCCESS
deriving DecidableEq

/-- Direction of a descent, or position of a node under its parent
(`enum LeftOrRightChild`). -/
inductive LeftOrRightChild where
  | ROOT
  | RIGHT
  | LEFT
deriving DecidableEq

/-- Number of children of a node (`enum Kids`). -/
inductive Kids where
  | ZERO_KIDS
  | ONE_KID
  | TWO_KIDS
deriving DecidableEq

/-- Node colour (`enum Color`). -/
inductive Color where
  | RED
  | BLACK
deriving DecidableEq

/-- A `Node *`: either `NULL` or a node with its colour, left subtree, payload
and right subtree.  The `parent` field is carried by the cursor, see `Frame`. -/
inductive Node (α : Type) where
  | NULL : Node α
  | mk (color : Color) (left : Node α) (data : α) (right : Node α) : Node α
deriving DecidableEq

/-- One ancestor of a cursor.  `Frame.left c d r`: the cursor is the LEFT child
of a node coloured `c` holding `d` whose right subtree is `r`.
`Frame.right c l d`: the cursor is the RIGHT child and `l` is the left subtree. -/
inductive Frame (α : Type) where
  | left (color : Color) (data : α) (right : Node α) : Frame α
  | right (color : Color) (left : Node α) (data : α) : Frame α
deriving DecidableEq

/-- The ancestors of a cursor, the parent first and the root last. -/
abbrev Path (α : Type) := List (Frame α)

/-- The tree record: `root`, `size`, and in place of `freeFunc` the list of
payloads `freeFunc` has been called on so far (oldest first). -/
structure RBTree (α : Type) where
  root : Node α
  size : Nat
  freed : List α
deriving DecidableEq

variable {α : Type}

/-- The whole tree seen from a cursor: plug the subtree `t` back under its
ancestors. -/
def fill : Node α → Path α → Node α
  | t, [] => t
  | t, Frame.left c d r :: rest => fill (Node.mk c t d r) rest
  | t, Frame.right c l d :: rest => fill (Node.mk c l d t) rest

/-- Colour stored in a frame's node. -/
def Frame.color : Frame α → Color
  | Frame.left c _ _ => c
  | Frame.right c _ _ => c

/-- The other child of a frame's node: `setBrother` of the cursor. -/
def Frame.brother : Frame α → Node α
  | Frame.left _ _ r => r
  | Frame.right _ l _ => l

/-! ## General helpers -/

/-- The function `whereToGo`: turn a `compFunc` result into a direction. -/
def whereToGo (num : Int) : LeftOrRightChild :=
  if num < 0 then LeftOrRightChild.LEFT
  else if num > 0 then LeftOrRightChild.RIGHT
  else LeftOrRightChild.ROOT

/-- The function `turnLeft`, on the subtree rooted at `node`; the result is the
subtree that takes the place of `node` (under its parent, or as the root).
`none` when `node` or `node->right` is `NULL`. -/
def turnLeft : Node α → Option (Node α)
  | Node.mk xc xl xd (Node.mk yc yl yd yr) => some (Node.mk yc (Node.mk xc xl xd yl) yd yr)
  | _ => none

/-- The function `turnRight`, on the subtree rooted at `node`.
`none` when `node` or `node->left` is `NULL`. -/
def turnRight : Node α → Option (Node α)
  | Node.mk xc (Node.mk yc yl yd yr) xd xr => some (Node.mk yc yl yd (Node.mk xc yr xd xr))
  | _ => none

/-- The function `newRBTree` (when its allocation succeeds). -/
def newRBTree : RBTree α := { root := Node.NULL, size := 0, freed := [] }

/-! ## Insertion -/

/-- The descent of `insertRegular` from `treeNode`, whose ancestors are `path`.
Reaching an absent child is the place where the new node is linked: the result
is the new node's ancestors.  `none` is the `return FAIL` for an equal payload. -/
def insertRegularLoop (cmp : α → α → Int) (data : α) : Node α → Path α → Option (Path α)
  | Node.NULL, path => some path
  | Node.mk c l d r, path =>
    match whereToGo (cmp data d) with
    | LeftOrRightChild.RIGHT => insertRegularLoop cmp data r (Frame.right c l d :: path)
    | LeftOrRightChild.LEFT => insertRegularLoop cmp data l (Frame.left c d r :: path)
    | LeftOrRightChild.ROOT => none

/-- The function `insertRegular`: the ancestors under which the new node has
been linked (an empty list when it became the root), or `none` for `FAIL`.
The `size++` is done by the caller in this embedding. -/
def insertRegular (cmp : α → α → Int) (tree : RBTree α) (data : α) : Option (Path α) :=
  insertRegularLoop cmp data tree.root []

/-- The four shapes of `redDadBlackUncle`; `new` under `dad` under `grandad`.
The result is the subtree that takes the place of `grandad`. -/
def redDadBlackUncle (new : Node α) (dad grandad : Frame α) : Option (Node α) :=
  let recolour : Node α → Option (Node α) := fun top =>
    -- dad->color = BLACK; grandad->color = RED  (dad on top, grandad its child)
    match grandad, top with
    | Frame.left _ _ _, Node.mk _ tl td (Node.mk _ gl gd gr) =>
      some (Node.mk Color.BLACK tl td (Node.mk Color.RED gl gd gr))
    | Frame.right _ _ _, Node.mk _ (Node.mk _ gl gd gr) td tr =>
      some (Node.mk Color.BLACK (Node.mk Color.RED gl gd gr) td tr)
    | _, _ => none
  match grandad, dad with
  | Frame.left gc gd uncle, Frame.right dc dl dd =>
    -- new == grandad->left->right: turnLeft(dad), then the line grandad->left->left
    (turnLeft (Node.mk dc dl dd new)).bind fun sub =>
      (turnRight (Node.mk gc sub gd uncle)).bind recolour
  | Frame.right gc uncle gd, Frame.left dc dd dr =>
    -- new == grandad->right->left: turnRight(dad), then the line grandad->right->right
    (turnRight (Node.mk dc new dd dr)).bind fun sub =>
      (turnLeft (Node.mk gc uncle gd sub)).bind recolour
  | Frame.left gc gd uncle, Frame.left dc dd dr =>
    -- new == grandad->left->left
    (turnRight (Node.mk gc (Node.mk dc new dd dr) gd uncle)).bind recolour
  | Frame.right gc uncle gd, Frame.right dc dl dd =>
    -- new == grandad->right->right
    (turnLeft (Node.mk gc uncle gd (Node.mk dc dl dd new))).bind recolour

/-- The function `redDadRedUncle`, on the subtree rooted at the grandparent:
`dad` and `uncle` become BLACK, `grandad` RED.  `none` when the uncle is `NULL`. -/
def redDadRedUncle (new : Node α) (dad grandad : Frame α) : Option (Node α) :=
  match grandad, dad with
  | Frame.left _ gd (Node.mk _ ul ud ur), Frame.left _ dd dr =>
    some (Node.mk Color.RED (Node.mk Color.BLACK new dd dr) gd (Node.mk Color.BLACK ul ud ur))
  | Frame.left _ gd (Node.mk _ ul ud ur), Frame.right _ dl dd =>
    some (Node.mk Color.RED (Node.mk Color.BLACK dl dd new) gd (Node.mk Color.BLACK ul ud ur))
  | Frame.right _ (Node.mk _ ul ud ur) gd, Frame.left _ dd dr =>
    some (Node.mk Color.RED (Node.mk Color.BLACK ul ud ur) gd (Node.mk Color.BLACK new dd dr))
  | Frame.right _ (Node.mk _ ul ud ur) gd, Frame.right _ dl dd =>
    some (Node.mk Color.RED (Node.mk Color.BLACK ul ud ur) gd (Node.mk Color.BLACK dl dd new))
  | _, _ => none

/-- The function `fixingAlg`, started at the cursor `(toFix, path)`; the result
is the root of the tree when the loop returns. -/
def fixingAlg : Node α → Path α → Option (Node α)
  | toFix, [] =>
    -- case 1: toFix == tree->root
    match toFix with
    | Node.mk _ l d r => some (Node.mk Color.BLACK l d r)
    | Node.NULL => none
  | toFix, [dad] =>
    match dad.color with
    | Color.BLACK => some (fill toFix [dad])
    | Color.RED => none   -- setBrother(dad) reads dad->parent, which is NULL
  | toFix, dad :: grandad :: rest =>
    match dad.color with
    | Color.BLACK => some (fill toFix (dad :: grandad :: rest))   -- case 2
    | Color.RED =>
      match grandad.brother with
      | Node.mk Color.RED _ _ _ =>
        -- case 3: red uncle; continue from the grandparent
        match redDadRedUncle toFix dad grandad with
        | some g => fixingAlg g rest
        | none => none
      | _ =>
        -- case 4: uncle is NULL or BLACK
        (redDadBlackUncle toFix dad grandad).map fun sub => fill sub rest

/-- The function `insertToRBTree`.  `data = none` is a `NULL` payload;
`mallocOk` tells whether the allocation of the new node succeeds. -/
def insertToRBTree (cmp : α → α → Int) (tree : RBTree α) (data : Option α)
    (mallocOk : Bool) : Option (FunctionReturn × RBTree α) :=
  match data with
  | none => some (FunctionReturn.FAIL, tree)
  | some x =>
    if mallocOk = false then some (FunctionReturn.FAIL, tree)
    else
      match insertRegular cmp tree x with
      | none => some (FunctionReturn.FAIL, tree)
      | some path =>
        (fixingAlg (Node.mk Color.RED Node.NULL x Node.NULL) path).map fun root =>
          (FunctionReturn.SUCCESS, { tree with root := root, size := tree.size + 1 })

/-! ## Deletion -/

/-- The function `findNode`: the cursor of the node whose payload compares equal
to `data`, or `none` for the `NULL` result. -/
def findNode (cmp : α → α → Int) (data : α) : Node α → Path α → Option (Node α × Path α)
  | Node.NULL, _ => none
  | Node.mk c l d r, path =>
    match whereToGo (cmp data d) with
    | LeftOrRightChild.RIGHT => findNode cmp data r (Frame.right c l d :: path)
    | LeftOrRightChild.LEFT => findNode cmp data l (Frame.left c d r :: path)
    | LeftOrRightChild.ROOT => some (Node.mk c l d r, path)

/-- The function `howManyKIds`; `none` when `node` is `NULL`. -/
def howManyKIds : Node α → Option Kids
  | Node.NULL => none
  | Node.mk _ Node.NULL _ Node.NULL => some Kids.ZERO_KIDS
  | Node.mk _ (Node.mk _ _ _ _) _ (Node.mk _ _ _ _) => some Kids.TWO_KIDS
  | Node.mk _ _ _ _ => some Kids.ONE_KID

/-- The loop of `successor`: walk down the `left` links from `successor`, whose
ancestors are `path`.  `none` when `successor` is `NULL`. -/
def successorLoop : Node α → Path α → Option (Node α × Path α)
  | Node.NULL, _ => none
  | Node.mk c Node.NULL d r, path => some (Node.mk c Node.NULL d r, path)
  | Node.mk c (Node.mk lc ll ld lr) d r, path =>
    successorLoop (Node.mk lc ll ld lr) (Frame.left c d r :: path)

/-- The function `successor`: the cursor of the leftmost node of `node->right`,
its ancestors listed up to and excluding `node`. -/
def successor : Node α → Option (Node α × Path α)
  | Node.NULL => none
  | Node.mk _ _ _ r => successorLoop r []

/-- The function `setC`: `M->right` when present, otherwise `M->left`. -/
def setC : Node α → Option (Node α)
  | Node.NULL => none
  | Node.mk _ l _ Node.NULL => some l
  | Node.mk _ _ _ (Node.mk rc rl rd rr) => some (Node.mk rc rl rd rr)

/-- The function `hasTwoBlackKids`; `none` when `node` is `NULL`. -/
def hasTwoBlackKids (node : Node α) : Option Bool :=
  match howManyKIds node, node with
  | some Kids.ZERO_KIDS, _ => some true
  | some Kids.ONE_KID, _ => some false
  | some Kids.TWO_KIDS, Node.mk _ (Node.mk lc _ _ _) _ (Node.mk rc _ _ _) =>
    some (decide (lc = Color.BLACK ∧ rc = Color.BLACK))
  | _, _ => none

/-- The function `redScBlackSf`: the nephew on the deficit's `side` is RED and
the other nephew is BLACK or absent.  `none` when `S` is `NULL`. -/
def redScBlackSf (S : Node α) (side : LeftOrRightChild) : Option Bool :=
  match S, side with
  | Node.NULL, _ => none
  | Node.mk _ _ _ Node.NULL, LeftOrRightChild.RIGHT => some false
  | Node.mk _ l _ (Node.mk rc _ _ _), LeftOrRightChild.RIGHT =>
    match rc, l with
    | Color.RED, Node.NULL => some true
    | Color.RED, Node.mk Color.BLACK _ _ _ => some true
    | _, _ => some false
  | Node.mk _ Node.NULL _ _, LeftOrRightChild.LEFT => some false
  | Node.mk _ (Node.mk lc _ _ _) _ r, LeftOrRightChild.LEFT =>
    match lc, r with
    | Color.RED, Node.NULL => some true
    | Color.RED, Node.mk Color.BLACK _ _ _ => some true
    | _, _ => some false
  | Node.mk _ _ _ _, LeftOrRightChild.ROOT => some false

/-- The function `blackSAndSfRedSc`, on the subtree rooted at `S`, the deficit
being on `side` of the parent (`setCSide(S)`): `S` becomes RED, the near nephew
BLACK, and `S` is rotated away from the deficit.  The result takes the place of
`S`; its root is the old near nephew, which is `S->parent` afterwards. -/
def blackSAndSfRedSc (S : Node α) (side : LeftOrRightChild) : Option (Node α) :=
  match S, side with
  | Node.mk _ sl sd (Node.mk _ cl cd cr), LeftOrRightChild.RIGHT =>
    turnLeft (Node.mk Color.RED sl sd (Node.mk Color.BLACK cl cd cr))
  | Node.mk _ (Node.mk _ cl cd cr) sd sr, LeftOrRightChild.LEFT =>
    turnRight (Node.mk Color.RED (Node.mk Color.BLACK cl cd cr) sd sr)
  | _, _ => none

/-- The function `blackSRedSf`, on the subtree rooted at `P = S->parent`, the
deficit being on `side`: swap the colours of `S` and `P`, rotate `P` toward the
deficit, paint the far nephew BLACK.  `none` when `S` or the far nephew is
`NULL`. -/
def blackSRedSf (P : Node α) (side : LeftOrRightChild) : Option (Node α) :=
  match P, side with
  | Node.mk pc (Node.mk sc sl sd sr) pd C, LeftOrRightChild.RIGHT =>
    -- Sf = S->left, which is the left child of the new top after turnRight(P)
    (turnRight (Node.mk sc (Node.mk pc sl sd sr) pd C)).bind fun top =>
      match top with
      | Node.mk tc (Node.mk _ fl fd fr) td tr =>
        some (Node.mk tc (Node.mk Color.BLACK fl fd fr) td tr)
      | _ => none
  | Node.mk pc C pd (Node.mk sc sl sd sr), LeftOrRightChild.LEFT =>
    -- Sf = S->right, which is the right child of the new top after turnLeft(P)
    (turnLeft (Node.mk sc C pd (Node.mk pc sl sd sr))).bind fun top =>
      match top with
      | Node.mk tc tl td (Node.mk _ fl fd fr) =>
        some (Node.mk tc tl td (Node.mk Color.BLACK fl fd fr))
      | _ => none
  | _, _ => none

/-- The `while (TRUE)` loop of `blackMAndC`.  `P` is the subtree rooted at the
parent of the deficit, `rest` the ancestors of `P`, and `side` (`setCSide(S)`)
the side of `P` on which the deficit lies; the sibling `S` is the child of `P`
on the other side.  The result is the root of the tree when the loop returns.
`none` when `S` (or a node read through it) is `NULL`, or when the fuel, one
unit per iteration, is used up. -/
def blackMAndCLoop : Nat → LeftOrRightChild → Node α → Path α → Option (Node α)
  | 0, _, _, _ => none
  | fuel + 1, LeftOrRightChild.RIGHT, Node.mk pc S pd C, rest =>
    match S with
    | Node.NULL => none
    | Node.mk Color.BLACK sl sd sr =>
      match hasTwoBlackKids S with
      | none => none
      | some true =>
        -- b: S->color = RED
        match pc with
        | Color.RED => some (fill (Node.mk Color.BLACK (Node.mk Color.RED sl sd sr) pd C) rest)
        | Color.BLACK =>
          match rest with
          | [] => some (Node.mk Color.BLACK (Node.mk Color.RED sl sd sr) pd C)
          | Frame.left gc gd gr :: up =>
            blackMAndCLoop fuel LeftOrRightChild.LEFT
              (Node.mk gc (Node.mk Color.BLACK (Node.mk Color.RED sl sd sr) pd C) gd gr) up
          | Frame.right gc gl gd :: up =>
            blackMAndCLoop fuel LeftOrRightChild.RIGHT
              (Node.mk gc gl gd (Node.mk Color.BLACK (Node.mk Color.RED sl sd sr) pd C)) up
      | some false =>
        match redScBlackSf S LeftOrRightChild.RIGHT with
        | none => none
        | some true =>
          -- d: blackSAndSfRedSc, then S = S->parent
          match blackSAndSfRedSc S LeftOrRightChild.RIGHT with
          | some S2 => blackMAndCLoop fuel LeftOrRightChild.RIGHT (Node.mk pc S2 pd C) rest
          | none => none
        | some false =>
          -- e: blackSRedSf
          (blackSRedSf (Node.mk pc S pd C) LeftOrRightChild.RIGHT).map fun top => fill top rest
    | Node.mk Color.RED sl sd sr =>
      -- c: swapColor(S, P); S = S->right; turnRight(tree, P)
      match turnRight (Node.mk Color.RED (Node.mk pc sl sd sr) pd C) with
      | some (Node.mk tc tl td P2) =>
        blackMAndCLoop fuel LeftOrRightChild.RIGHT P2 (Frame.right tc tl td :: rest)
      | _ => none
  | fuel + 1, LeftOrRightChild.LEFT, Node.mk pc C pd S, rest =>
    match S with
    | Node.NULL => none
    | Node.mk Color.BLACK sl sd sr =>
      match hasTwoBlackKids S with
      | none => none
      | some true =>
        -- b: S->color = RED
        match pc with
        | Color.RED => some (fill (Node.mk Color.BLACK C pd (Node.mk Color.RED sl sd sr)) rest)
        | Color.BLACK =>
          match rest with
          | [] => some (Node.mk Color.BLACK C pd (Node.mk Color.RED sl sd sr))
          | Frame.left gc gd gr :: up =>
            blackMAndCLoop fuel LeftOrRightChild.LEFT
              (Node.mk gc (Node.mk Color.BLACK C pd (Node.mk Color.RED sl sd sr)) gd gr) up
          | Frame.right gc gl gd :: up =>
            blackMAndCLoop fuel LeftOrRightChild.RIGHT
              (Node.mk gc gl gd (Node.mk Color.BLACK C pd (Node.mk Color.RED sl sd sr))) up
      | some false =>
        match redScBlackSf S LeftOrRightChild.LEFT with
        | none => none
        | some true =>
          -- d: blackSAndSfRedSc, then S = S->parent
          match blackSAndSfRedSc S LeftOrRightChild.LEFT with
          | some S2 => blackMAndCLoop fuel LeftOrRightChild.LEFT (Node.mk pc C pd S2) rest
          | none => none
        | some false =>
          -- e: blackSRedSf
          (blackSRedSf (Node.mk pc C pd S) LeftOrRightChild.LEFT).map fun top => fill top rest
    | Node.mk Color.RED sl sd sr =>
      -- c: swapColor(S, P); S = S->left; turnLeft(tree, P)
      match turnLeft (Node.mk Color.RED C pd (Node.mk pc sl sd sr)) with
      | some (Node.mk tc P2 td tr) =>
        blackMAndCLoop fuel LeftOrRightChild.LEFT P2 (Frame.left tc td tr :: rest)
      | _ => none
  | _ + 1, _, _, _ => none

/-- Number of nodes of a tree. -/
def numNodes : Node α → Nat
  | Node.NULL => 0
  | Node.mk _ l _ r => numNodes l + numNodes r + 1

/-- The function `blackMAndC` at the cursor `(M, path)`; the result is the root
of the tree afterwards.  The loop is given `fuel` iterations. -/
def blackMAndC (fuel : Nat) (M : Node α) (path : Path α) : Option (Node α) :=
  match setC M, path with
  | none, _ => none
  | some _, [] => some Node.NULL   -- a: M == tree->root
  | some C, Frame.left pc pd S :: rest =>
    blackMAndCLoop fuel LeftOrRightChild.LEFT (Node.mk pc C pd S) rest
  | some C, Frame.right pc S pd :: rest =>
    blackMAndCLoop fuel LeftOrRightChild.RIGHT (Node.mk pc S pd C) rest

/-- The first part of `deleteFromRBTree` after `findNode`: when `M` has two
children its payload is swapped with its successor's and the successor becomes
`M`.  The result is the cursor of the node that will be unlinked. -/
def pickM (M : Node α) (path : Path α) : Option (Node α × Path α) :=
  match howManyKIds M, M with
  | some Kids.TWO_KIDS, Node.mk mc ml md _ =>
    match successor M with
    | some (Node.mk sc sl sd sr, spath) =>
      some (Node.mk sc sl md sr, spath ++ Frame.right mc ml sd :: path)
    | _ => none
  | some _, _ => some (M, path)
  | none, _ => none

/-- The function `deleteFromRBTree`.  `data = none` is a `NULL` payload.  The
fix-up loop is given more iterations than the tree has nodes. -/
def deleteFromRBTree (cmp : α → α → Int) (tree : RBTree α) (data : Option α) :
    Option (FunctionReturn × RBTree α) :=
  match data with
  | none => some (FunctionReturn.FAIL, tree)
  | some x =>
    match findNode cmp x tree.root [] with
    | none => some (FunctionReturn.FAIL, tree)
    | some (M0, path0) =>
      match pickM M0 path0 with
      | some (Node.mk mc ml md mr, path) =>
        let M : Node α := Node.mk mc ml md mr
        let done : Node α → FunctionReturn × RBTree α := fun root =>
          (FunctionReturn.SUCCESS,
            { root := root, size := tree.size - 1, freed := tree.freed ++ [md] })
        match mc, setC M, path with
        | Color.RED, some _, [] => none   -- case 1 at the root: tree->root is left dangling
        | Color.RED, some C, _ :: _ => some (done (fill C path))   -- case 1
        | Color.BLACK, some (Node.mk Color.RED cl cd cr), _ =>
          some (done (fill (Node.mk Color.BLACK cl cd cr) path))   -- case 2
        | Color.BLACK, some _, _ =>
          (blackMAndC (numNodes tree.root + 4) M path).map done   -- case 3
        | _, none, _ => none
      | _ => none

/-! ## Search -/

/-- The loop of `RBTreeContains`, from `treeNode`. -/
def containsLoop (cmp : α → α → Int) (data : α) : Node α → Bool
  | Node.NULL => false
  | Node.mk _ l d r =>
    match whereToGo (cmp data d) with
    | LeftOrRightChild.ROOT => true
    | LeftOrRightChild.RIGHT => containsLoop cmp data r
    | LeftOrRightChild.LEFT => containsLoop cmp data l

/-- The function `RBTreeContains`.  `data = none` is a `NULL` payload. -/
def RBTreeContains (cmp : α → α → Int) (tree : RBTree α) (data : Option α) : Bool :=
  match data with
  | none => false
  | some x => containsLoop cmp x tree.root

/-- In-order traversal of the payloads (left, self, right). -/
def toList : Node α → List α
  | Node.NULL => []
  | Node.mk _ l d r => toList l ++ d :: toList r

/-! ## The properties of section 3 of the specification -/

/-- Colour of a child slot: an absent child counts as BLACK. -/
def colorOf : Node α → Color
  | Node.NULL => Color.BLACK
  | Node.mk c _ _ _ => c

/-- What a node of colour `c` adds to a BLACK count. -/
def blk : Color → Nat
  | Color.RED => 0
  | Color.BLACK => 1

/-- No RED node has a RED child. -/
def noRedRed : Node α → Prop
  | Node.NULL => True
  | Node.mk c l _ r =>
    (c = Color.RED → colorOf l = Color.BLACK ∧ colorOf r = Color.BLACK) ∧ noRedRed l ∧ noRedRed r

/-- The number of BLACK nodes on each path from the root of `t` to an absent
child slot, listed from the leftmost path to the rightmost. -/
def blackCounts : Node α → List Nat
  | Node.NULL => [0]
  | Node.mk c l _ r => (blackCounts l ++ blackCounts r).map fun k => k + blk c

/-- Every root-to-nil path has the same number of BLACK nodes. -/
def sameBlackCount (t : Node α) : Prop :=
  ∀ m ∈ blackCounts t, ∀ n ∈ blackCounts t, m = n

/-- The in-order traversal is strictly increasing under `cmp`. -/
def Ordered (cmp : α → α → Int) (t : Node α) : Prop :=
  (toList t).Pairwise fun a b => cmp a b < 0

/-- The comparison function is a strict total order on payloads, up to
"compares equal": the sign of `cmp a b` is opposite to that of `cmp b a`, and
"not greater" is transitive. -/
structure StrictTotalOrder (cmp : α → α → Int) : Prop where
  flip : ∀ a b, cmp a b < 0 ↔ 0 < cmp b a
  le_trans : ∀ a b c, cmp a b ≤ 0 → cmp b c ≤ 0 → cmp a c ≤ 0

/-- A valid red-black tree: ordered under `cmp`, BLACK (or absent) root, no
red-red edge, equal BLACK counts. -/
structure Valid (cmp : α → α → Int) (tree : RBTree α) : Prop where
  ordered : Ordered cmp tree.root
  rootBlack : colorOf tree.root = Color.BLACK
  noRedRed : noRedRed tree.root
  sameBlackCount : sameBlackCount tree.root

/-- One call of the public interface. -/
inductive Op (α : Type) where
  | insert (data : Option α) (mallocOk : Bool) : Op α
  | delete (data : Option α) : Op α

/-- Run a sequence of calls, threading the tree; `none` as soon as a call has
no defined outcome. -/
def runOps (cmp : α → α → Int) : List (Op α) → RBTree α → Option (RBTree α)
  | [], tree => some tree
  | Op.insert data mallocOk :: ops, tree =>
    match insertToRBTree cmp tree data mallocOk with
    | some (_, tree2) => runOps cmp ops tree2
    | none => none
  | Op.delete data :: ops, tree =>
    match deleteFromRBTree cmp tree data with
    | some (_, tree2) => runOps cmp ops tree2
    | none => none

/-- Integer order as a `compFunc`. -/
def intCmp (a b : Int) : Int := a - b

/-- The tree built by inserting 5, 3, 8, 1, 4, 7, 9 into the empty tree. -/
def sampleTree : RBTree Int :=
  { root := Node.mk Color.BLACK
      (Node.mk Color.BLACK (Node.mk Color.RED Node.NULL 1 Node.NULL) 3
        (Node.mk Color.RED Node.NULL 4 Node.NULL)) 5
      (Node.mk Color.BLACK (Node.mk Color.RED Node.NULL 7 Node.NULL) 8
        (Node.mk Color.RED Node.NULL 9 Node.NULL)),
    size := 7, freed := [] }

/-! ## Proof-side invariants -/

/-- BLACK count along the leftmost path. -/
def blackHeight : Node α → Nat
  | Node.NULL => 0
  | Node.mk c l _ _ => blackHeight l + blk c

/-- Colour invariants in recursive form: at every node the two subtrees have
the same `blackHeight`, and a RED node has BLACK children. -/
def wf : Node α → Prop
  | Node.NULL => True
  | Node.mk c l _ r =>
    wf l ∧ wf r ∧ blackHeight l = blackHeight r ∧
      (c = Color.RED → colorOf l = Color.BLACK ∧ colorOf r = Color.BLACK)

/-- Colour invariants of the ancestors of a cursor whose subtree has root colour
`c` and `blackHeight` `n`: the whole tree is `wf` with a BLACK root. -/
def pathWf : Path α → Color → Nat → Prop
  | [], c, _ => c = Color.BLACK
  | Frame.left pc _ r :: rest, c, n =>
    wf r ∧ blackHeight r = n ∧ (pc = Color.RED → c = Color.BLACK ∧ colorOf r = Color.BLACK) ∧
      pathWf rest pc (n + blk pc)
  | Frame.right pc l _ :: rest, c, n =>
    wf l ∧ blackHeight l = n ∧ (pc = Color.RED → c = Color.BLACK ∧ colorOf l = Color.BLACK) ∧
      pathWf rest pc (n + blk pc)

/-- Payloads before the cursor in the in-order traversal. -/
def pathBefore : Path α → List α
  | [] => []
  | Frame.left _ _ _ :: rest => pathBefore rest
  | Frame.right _ l d :: rest => pathBefore rest ++ toList l ++ [d]

/-- Payloads after the cursor in the in-order traversal. -/
def pathAfter : Path α → List α
  | [] => []
  | Frame.left _ d r :: rest => d :: toList r ++ pathAfter rest
  | Frame.right _ _ _ :: rest => pathAfter rest

/-- The cursor at the parent of `t` when `t` hangs under frame `f`: the side on
which `t` lies and the parent's subtree. -/
def up1 (t : Node α) : Frame α → LeftOrRightChild × Node α
  | Frame.left c d r => (LeftOrRightChild.LEFT, Node.mk c t d r)
  | Frame.right c l d => (LeftOrRightChild.RIGHT, Node.mk c l d t)

/-- State of the delete fix-up loop on a valid tree with one BLACK node missing
below the parent `P` on `side`. -/
def deficit (side : LeftOrRightChild) (P : Node α) (rest : Path α) : Prop :=
  match side, P with
  | LeftOrRightChild.LEFT, Node.mk pc C _ S =>
    wf C ∧ colorOf C = Color.BLACK ∧ wf S ∧ blackHeight S = blackHeight C + 1 ∧
      (pc = Color.RED → colorOf S = Color.BLACK) ∧ pathWf rest pc (blackHeight C + 1 + blk pc)
  | LeftOrRightChild.RIGHT, Node.mk pc S _ C =>
    wf C ∧ colorOf C = Color.BLACK ∧ wf S ∧ blackHeight S = blackHeight C + 1 ∧
      (pc = Color.RED → colorOf S = Color.BLACK) ∧ pathWf rest pc (blackHeight C + 1 + blk pc)
  | _, _ => False

/-! ## Traversal and teardown -/

/-- The function `forEachHelper`.  The visitor `func` gets a payload and the
current `args` and gives back its return code (0 is `FAIL`) and the new `args`.
The third component records the calls of `func` made so far, each with the
payload passed and the code returned, oldest first. -/
def forEachHelper {σ : Type} (func : α → σ → Int × σ) :
    Node α → σ → List (α × Int) → FunctionReturn × σ × List (α × Int)
  | Node.NULL, args, calls => (FunctionReturn.SUCCESS, args, calls)
  | Node.mk _ l d r, args, calls =>
    match forEachHelper func l args calls with
    | (FunctionReturn.FAIL, args1, calls1) => (FunctionReturn.FAIL, args1, calls1)
    | (FunctionReturn.SUCCESS, args1, calls1) =>
      if (func d args1).1 = 0 then
        (FunctionReturn.FAIL, (func d args1).2, calls1 ++ [(d, (func d args1).1)])
      else
        forEachHelper func r (func d args1).2 (calls1 ++ [(d, (func d args1).1)])

/-- The function `forEachRBTree`; `tree = none` is a `NULL` tree. -/
def forEachRBTree {σ : Type} (tree : Option (RBTree α)) (func : α → σ → Int × σ) (args : σ) :
    FunctionReturn × σ × List (α × Int) :=
  match tree with
  | none => (FunctionReturn.FAIL, args, [])
  | some t => forEachHelper func t.root args []

/-- The fold of section 4.5 of the specification over a sequence of payloads:
call the visitor on each payload in turn, threading `args`, and stop with
failure at the first call that reports failure. -/
def visitInOrder {σ : Type} (func : α → σ → Int × σ) :
    List α → σ → List (α × Int) → FunctionReturn × σ × List (α × Int)
  | [], args, calls => (FunctionReturn.SUCCESS, args, calls)
  | x :: xs, args, calls =>
    if (func x args).1 = 0 then
      (FunctionReturn.FAIL, (func x args).2, calls ++ [(x, (func x args).1)])
    else visitInOrder func xs (func x args).2 (calls ++ [(x, (func x args).1)])

/-- The function `freeHelper`, with the log of `freeFunc` calls threaded through:
left subtree, right subtree, then `deleteNode` on the node itself. -/
def freeHelper : Node α → List α → List α
  | Node.NULL, log => log
  | Node.mk _ l d r, log => freeHelper r (freeHelper l log) ++ [d]

/-- The function `freeRBTree` on a tree reference (`none` when `*tree` is
`NULL`): the reference afterwards and the payloads `freeFunc` was called on
during the call, in call order. -/
def freeRBTree (tree : Option (RBTree α)) : Option (RBTree α) × List α :=
  match tree with
  | none => (none, [])
  | some t => (none, freeHelper t.root [])

/-- Post-order sequence of the payloads: those of the children before the
parent's. -/
def postOrder : Node α → List α
  | Node.NULL => []
  | Node.mk _ l d r => postOrder l ++ postOrder r ++ [d]

/-- Height of a tree: the number of nodes on the longest path from the root to
an absent child slot. -/
def height : Node α → Nat
  | Node.NULL => 0
  | Node.mk _ l _ r => max (height l) (height r) + 1

/-- Number of nodes whose payload the loop of `RBTreeContains` compares with
`data`, from `treeNode` on. -/
def containsVisits (cmp : α → α → Int) (data : α) : Node α → Nat
  | Node.NULL => 0
  | Node.mk _ l d r =>
    match whereToGo (cmp data d) with
    | LeftOrRightChild.ROOT => 1
    | LeftOrRightChild.RIGHT => containsVisits cmp data r + 1
    | LeftOrRightChild.LEFT => containsVisits cmp data l + 1

/-! ## The vector comparator of `Structs.c` -/

/-- Return value `LESS` of the compare functions. -/
def LESS : Int := -1

/-- Return value `EQUAL` of the compare functions. -/
def EQUAL : Int := 0

/-- Return value `GREATER` of the compare functions. -/
def GREATER : Int := 1

/-- The `for` loop of `vectorCompare1By1`, walking the two coordinate arrays
together until the shorter one ends (`i < minLen`): `some` of the value returned
inside the loop, `none` when the loop runs to its end.  Coordinates are exact
rationals. -/
def vectorCompareLoop : List ℚ → List ℚ → Option Int
  | x :: xs, y :: ys =>
    if x - y < 0 then some LESS
    else if x - y > 0 then some GREATER
    else vectorCompareLoop xs ys
  | _, _ => none

/-- The function `vectorCompare1By1` on two vectors given by their coordinate
sequences, `len` being the length of the sequence. -/
def vectorCompare1By1 (first second : List ℚ) : Int :=
  match vectorCompareLoop first second with
  | some res => res
  | none =>
    if first.length < second.length then LESS
    else if first.length > second.length then GREATER
    else EQUAL

/-! ## The loop of `blackMAndC`, one iteration at a time -/

/-- The labelled branches of the loop of `blackMAndC`. -/
inductive FixCase where
  | b
  | c
  | d
  | e
deriving DecidableEq

/-- What one iteration of the loop does: return, the tree having root `root`, or
go on with the deficit on `side` of `P`, whose ancestors are `rest`. -/
inductive StepResult (α : Type) where
  | returned (root : Node α) : StepResult α
  | continues (side : LeftOrRightChild) (P : Node α) (rest : Path α) : StepResult α

/-- The sibling `S`: the child of `P` on the side opposite to the deficit. -/
def siblingOf : LeftOrRightChild → Node α → Option (Node α)
  | LeftOrRightChild.RIGHT, Node.mk _ S _ _ => some S
  | LeftOrRightChild.LEFT, Node.mk _ _ _ S => some S
  | _, _ => none

/-- The nephew on the deficit's side. -/
def nearNephew : LeftOrRightChild → Node α → Option (Node α)
  | LeftOrRightChild.RIGHT, Node.mk _ _ _ sr => some sr
  | LeftOrRightChild.LEFT, Node.mk _ sl _ _ => some sl
  | _, _ => none

/-- The nephew on the side opposite to the deficit. -/
def farNephew : LeftOrRightChild → Node α → Option (Node α)
  | LeftOrRightChild.RIGHT, Node.mk _ sl _ _ => some sl
  | LeftOrRightChild.LEFT, Node.mk _ _ _ sr => some sr
  | _, _ => none

/-- The branch taken by an iteration of the loop of `blackMAndC`, by the tests
of the source in their order: `S->color`, `hasTwoBlackKids(S)`,
`redScBlackSf(S, side)`.  `none` when a test reads through `NULL`. -/
def whichCase (side : LeftOrRightChild) (P : Node α) : Option FixCase :=
  match siblingOf side P with
  | some (Node.mk Color.RED _ _ _) => some FixCase.c
  | some (Node.mk Color.BLACK sl sd sr) =>
    match hasTwoBlackKids (Node.mk Color.BLACK sl sd sr) with
    | some true => some FixCase.b
    | some false =>
      match redScBlackSf (Node.mk Color.BLACK sl sd sr) side with
      | some true => some FixCase.d
      | some false => some FixCase.e
      | none => none
    | none => none
  | _ => none

/-- Body of branch b: `S` becomes RED; under a RED parent the parent becomes
BLACK and the loop returns; under a BLACK parent the deficit moves to the parent,
unless that is the root. -/
def caseB (side : LeftOrRightChild) (P : Node α) (rest : Path α) : Option (StepResult α) :=
  let go : Color → Node α → Option (StepResult α) := fun pc P2 =>
    -- P2 is P with S painted RED
    match pc, rest with
    | Color.RED, _ =>
      match P2 with
      | Node.mk _ l d r => some (StepResult.returned (fill (Node.mk Color.BLACK l d r) rest))
      | Node.NULL => none
    | Color.BLACK, [] => some (StepResult.returned P2)
    | Color.BLACK, f :: up => some (StepResult.continues (up1 P2 f).1 (up1 P2 f).2 up)
  match side, P with
  | LeftOrRightChild.RIGHT, Node.mk pc (Node.mk _ sl sd sr) pd C =>
    go pc (Node.mk pc (Node.mk Color.RED sl sd sr) pd C)
  | LeftOrRightChild.LEFT, Node.mk pc C pd (Node.mk _ sl sd sr) =>
    go pc (Node.mk pc C pd (Node.mk Color.RED sl sd sr))
  | _, _ => none

/-- Body of branch c: swap the colours of `S` and `P`, take the near nephew as
the new `S`, rotate `P` toward the deficit. -/
def caseC (side : LeftOrRightChild) (P : Node α) (rest : Path α) : Option (StepResult α) :=
  match side, P with
  | LeftOrRightChild.RIGHT, Node.mk pc (Node.mk sc sl sd sr) pd C =>
    match turnRight (Node.mk sc (Node.mk pc sl sd sr) pd C) with
    | some (Node.mk tc tl td P2) =>
      some (StepResult.continues LeftOrRightChild.RIGHT P2 (Frame.right tc tl td :: rest))
    | _ => none
  | LeftOrRightChild.LEFT, Node.mk pc C pd (Node.mk sc sl sd sr) =>
    match turnLeft (Node.mk sc C pd (Node.mk pc sl sd sr)) with
    | some (Node.mk tc P2 td tr) =>
      some (StepResult.continues LeftOrRightChild.LEFT P2 (Frame.left tc td tr :: rest))
    | _ => none
  | _, _ => none

/-- Body of branch d: `blackSAndSfRedSc(tree, S)`, then `S = S->parent`. -/
def caseD (side : LeftOrRightChild) (P : Node α) (rest : Path α) : Option (StepResult α) :=
  match side, P with
  | LeftOrRightChild.RIGHT, Node.mk pc S pd C =>
    (blackSAndSfRedSc S LeftOrRightChild.RIGHT).map fun S2 =>
      StepResult.continues LeftOrRightChild.RIGHT (Node.mk pc S2 pd C) rest
  | LeftOrRightChild.LEFT, Node.mk pc C pd S =>
    (blackSAndSfRedSc S LeftOrRightChild.LEFT).map fun S2 =>
      StepResult.continues LeftOrRightChild.LEFT (Node.mk pc C pd S2) rest
  | _, _ => none

/-- Body of branch e: `blackSRedSf(tree, S)`, then return. -/
def caseE (side : LeftOrRightChild) (P : Node α) (rest : Path α) : Option (StepResult α) :=
  (blackSRedSf P side).map fun top => StepResult.returned (fill top rest)

/-- One iteration of the loop of `blackMAndC`. -/
def loopStep (side : LeftOrRightChild) (P : Node α) (rest : Path α) : Option (StepResult α) :=
  match whichCase side P with
  | some FixCase.b => caseB side P rest
  | some FixCase.c => caseC side P rest
  | some FixCase.d => caseD side P rest
  | some FixCase.e => caseE side P rest
  | none => none

/-! ## Rotations on the tree record, and the states the fix-up loops go through -/

/-- The function `turnLeft(tree, node)` on the tree record, `node` being at the
cursor `(node, path)`: the rotated subtree is hung where `node` was, under its
parent or as `tree->root`.  Nothing else of the record is touched. -/
def turnLeftAt (tree : RBTree α) (node : Node α) (path : Path α) : Option (RBTree α) :=
  (turnLeft node).map fun y => { tree with root := fill y path }

/-- The function `turnRight(tree, node)` on the tree record. -/
def turnRightAt (tree : RBTree α) (node : Node α) (path : Path α) : Option (RBTree α) :=
  (turnRight node).map fun y => { tree with root := fill y path }

/-- In-order sequence of the nodes, each with its colour and payload. -/
def nodeList : Node α → List (Color × α)
  | Node.NULL => []
  | Node.mk c l d r => nodeList l ++ (c, d) :: nodeList r

/-- Side of its parent on which the cursor of a frame lies
(`isRightLeftChildOrRoot`). -/
def Frame.side : Frame α → LeftOrRightChild
  | Frame.left _ _ _ => LeftOrRightChild.LEFT
  | Frame.right _ _ _ => LeftOrRightChild.RIGHT

/-- The last two statements of `redDadBlackUncle`, `dad->color = BLACK;
grandad->color = RED`, on the subtree `top` rooted at `dad` after the rotation of
the grandparent.  `side` is the side of the grandparent on which `dad` was: the
old grandparent is now the child of `top` on the other side. -/
def paintDadAndGrandad (side : LeftOrRightChild) (top : Node α) : Option (Node α) :=
  match side, top with
  | LeftOrRightChild.LEFT, Node.mk _ tl td (Node.mk _ gl gd gr) =>
    some (Node.mk Color.BLACK tl td (Node.mk Color.RED gl gd gr))
  | LeftOrRightChild.RIGHT, Node.mk _ (Node.mk _ gl gd gr) td tr =>
    some (Node.mk Color.BLACK (Node.mk Color.RED gl gd gr) td tr)
  | _, _ => none

/-- `LoopVisits side P rest side2 P2 rest2`: the loop of `blackMAndC` entered in
the state `(side, P, rest)` has an iteration that starts in the state
`(side2, P2, rest2)`. -/
inductive LoopVisits : LeftOrRightChild → Node α → Path α →
    LeftOrRightChild → Node α → Path α → Prop where
  | start (side : LeftOrRightChild) (P : Node α) (rest : Path α) :
    LoopVisits side P rest side P rest
  | next {side side1 side2 : LeftOrRightChild} {P P1 P2 : Node α} {rest rest1 rest2 : Path α} :
    loopStep side P rest = some (StepResult.continues side1 P1 rest1) →
    LoopVisits side1 P1 rest1 side2 P2 rest2 → LoopVisits side P rest side2 P2 rest2

/-- `FixVisits toFix path toFix2 path2`: the loop of `fixingAlg` entered at the
cursor `(toFix, path)` has an iteration that starts at the cursor
`(toFix2, path2)`; the loop goes on only through its red-uncle case. -/
inductive FixVisits : Node α → Path α → Node α → Path α → Prop where
  | start (toFix : Node α) (path : Path α) : FixVisits toFix path toFix path
  | next {toFix g toFix2 : Node α} {dad grandad : Frame α} {rest path2 : Path α}
    {ul : Node α} {ud : α} {ur : Node α} :
    dad.color = Color.RED → grandad.brother = Node.mk Color.RED ul ud ur →
    redDadRedUncle toFix dad grandad = some g →
    FixVisits g rest toFix2 path2 → FixVisits toFix (dad :: grandad :: rest) toFix2 path2

/-! ## Basic facts -/

section Basics

variable {cmp : α → α → Int}

theorem whereToGo_left {n : Int} : whereToGo n = LeftOrRightChild.LEFT ↔ n < 0 := by
  unfold whereToGo; split_ifs <;> simp <;> omega

theorem whereToGo_right {n : Int} : whereToGo n = LeftOrRightChild.RIGHT ↔ 0 < n := by
  unfold whereToGo; split_ifs <;> simp <;> omega

theorem whereToGo_root {n : Int} : whereToGo n = LeftOrRightChild.ROOT ↔ n = 0 := by
  unfold whereToGo; split_ifs <;> simp <;> omega

theorem StrictTotalOrder.le_lt (h : StrictTotalOrder cmp) {a b c : α}
    (hab : cmp a b ≤ 0) (hbc : cmp b c < 0) : cmp a c < 0 := by
  by_contra hac
  have h1 : cmp c a ≤ 0 := by
    by_contra h2
    exact hac ((h.flip a c).2 (by omega))
  have h2 := h.le_trans c a b h1 hab
  have h3 := (h.flip b c).1 hbc
  omega

theorem StrictTotalOrder.lt_le (h : StrictTotalOrder cmp) {a b c : α}
    (hab : cmp a b < 0) (hbc : cmp b c ≤ 0) : cmp a c < 0 := by
  by_contra hac
  have h1 : cmp c a ≤ 0 := by
    by_contra h2
    exact hac ((h.flip a c).2 (by omega))
  have h2 := h.le_trans b c a hbc h1
  have h3 := (h.flip a b).1 hab
  omega

theorem StrictTotalOrder.lt_trans (h : StrictTotalOrder cmp) {a b c : α}
    (hab : cmp a b < 0) (hbc : cmp b c < 0) : cmp a c < 0 :=
  h.le_lt (by omega) hbc

theorem StrictTotalOrder.gt_flip (h : StrictTotalOrder cmp) {a b : α}
    (hab : 0 < cmp a b) : cmp b a < 0 := (h.flip b a).2 hab

theorem StrictTotalOrder.eq_flip (h : StrictTotalOrder cmp) {a b : α}
    (hab : cmp a b = 0) : cmp b a = 0 := by
  have h1 := h.flip a b
  have h2 := h.flip b a
  omega

theorem intCmp_strictTotalOrder : StrictTotalOrder intCmp :=
  ⟨fun a b => by unfold intCmp; omega, fun a b c => by unfold intCmp; omega⟩

@[simp]
theorem toList_fill (t : Node α) (path : Path α) :
    toList (fill t path) = pathBefore path ++ toList t ++ pathAfter path := by
  induction path generalizing t with
  | nil => simp [fill, pathBefore, pathAfter]
  | cons f rest ih => cases f <;> simp [fill, pathBefore, pathAfter, ih, toList]

theorem numNodes_fill (t : Node α) (path : Path α) :
    path.length + numNodes t ≤ numNodes (fill t path) := by
  induction path generalizing t with
  | nil => simp [fill]
  | cons f rest ih =>
    cases f with
    | left c d r => have := ih (Node.mk c t d r); simp [fill, numNodes] at *; omega
    | right c l d => have := ih (Node.mk c l d t); simp [fill, numNodes] at *; omega

/-- The BLACK counts of all paths of a `wf` tree are its `blackHeight`. -/
theorem blackCounts_of_wf (t : Node α) (h : wf t) : ∀ m ∈ blackCounts t, m = blackHeight t := by
  induction t with
  | NULL => simp [blackCounts, blackHeight]
  | mk c l d r ihl ihr =>
    simp only [wf] at h
    intro m hm
    simp only [blackCounts, List.mem_map, List.mem_append] at hm
    obtain ⟨k, hk, rfl⟩ := hm
    rcases hk with hk | hk
    · rw [ihl h.1 k hk]; simp [blackHeight]
    · rw [ihr h.2.1 k hk]; simp [blackHeight, h.2.2.1]

theorem blackHeight_mem_blackCounts (t : Node α) : blackHeight t ∈ blackCounts t := by
  induction t with
  | NULL => simp [blackCounts, blackHeight]
  | mk c l d r ihl _ =>
    simp only [blackCounts, List.mem_map, List.mem_append, blackHeight]
    exact ⟨blackHeight l, Or.inl ihl, rfl⟩

theorem blackCounts_ne_nil (t : Node α) : ∃ k, k ∈ blackCounts t :=
  ⟨_, blackHeight_mem_blackCounts t⟩

/-- The recursive form of the colour invariants is the conjunction of the two
properties of the specification. -/
theorem wf_iff (t : Node α) : wf t ↔ noRedRed t ∧ sameBlackCount t := by
  induction t with
  | NULL => simp [wf, noRedRed, sameBlackCount, blackCounts]
  | mk c l d r ihl ihr =>
    constructor
    · intro h
      have hall := blackCounts_of_wf _ h
      simp only [wf] at h
      refine ⟨?_, ?_⟩
      · simp only [noRedRed]
        exact ⟨h.2.2.2, (ihl.1 h.1).1, (ihr.1 h.2.1).1⟩
      · intro m hm n hn
        rw [hall m hm, hall n hn]
    · rintro ⟨hn, hs⟩
      simp only [noRedRed] at hn
      have hsub : ∀ m ∈ blackCounts l ++ blackCounts r, ∀ n ∈ blackCounts l ++ blackCounts r,
          m = n := by
        intro m hm n hn
        have := hs (m + blk c) (by simp only [blackCounts, List.mem_map]; exact ⟨m, hm, rfl⟩)
          (n + blk c) (by simp only [blackCounts, List.mem_map]; exact ⟨n, hn, rfl⟩)
        omega
      have hl : sameBlackCount l := fun m hm n hn =>
        hsub m (List.mem_append_left _ hm) n (List.mem_append_left _ hn)
      have hr : sameBlackCount r := fun m hm n hn =>
        hsub m (List.mem_append_right _ hm) n (List.mem_append_right _ hn)
      simp only [wf]
      refine ⟨ihl.2 ⟨hn.2.1, hl⟩, ihr.2 ⟨hn.2.2, hr⟩, ?_, hn.1⟩
      exact hsub _ (List.mem_append_left _ (blackHeight_mem_blackCounts l)) _
        (List.mem_append_right _ (blackHeight_mem_blackCounts r))

/-- A cursor splits the colour invariants of the whole tree into those of the
subtree and those of the ancestors. -/
theorem fill_wf (t : Node α) (path : Path α) :
    (wf (fill t path) ∧ colorOf (fill t path) = Color.BLACK) ↔
      (wf t ∧ pathWf path (colorOf t) (blackHeight t)) := by
  induction path generalizing t with
  | nil => simp [fill, pathWf]
  | cons f rest ih =>
    cases f with
    | left c d r =>
      rw [fill, ih]
      simp only [wf, pathWf, colorOf, blackHeight]
      constructor
      · rintro ⟨⟨h1, h2, h3, h4⟩, h5⟩
        exact ⟨h1, h2, h3.symm, h4, h5⟩
      · rintro ⟨h1, h2, h3, h4, h5⟩
        exact ⟨⟨h1, h2, h3.symm, h4⟩, h5⟩
    | right c l d =>
      rw [fill, ih]
      simp only [wf, pathWf, colorOf, blackHeight]
      constructor
      · rintro ⟨⟨h1, h2, h3, h4⟩, h5⟩
        refine ⟨h2, h1, h3, ?_, h3 ▸ h5⟩
        intro hc; exact ⟨(h4 hc).2, (h4 hc).1⟩
      · rintro ⟨h1, h2, h3, h4, h5⟩
        refine ⟨⟨h2, h1, h3, ?_⟩, h3 ▸ h5⟩
        intro hc; exact ⟨(h4 hc).2, (h4 hc).1⟩

/-- Ancestors that accept a RED subtree also accept a BLACK one. -/
theorem pathWf_black {path : Path α} {c : Color} {n : Nat} (h : pathWf path c n) :
    pathWf path Color.BLACK n := by
  cases path with
  | nil => simp [pathWf]
  | cons f rest => cases f <;> simp_all [pathWf]

end Basics

/-! ## The three descents -/

section Descent

variable {cmp : α → α → Int}

theorem insertRegularLoop_none_iff (cmp : α → α → Int) (x : α) (t : Node α) (path : Path α) :
    insertRegularLoop cmp x t path = none ↔ containsLoop cmp x t = true := by
  induction t generalizing path with
  | NULL => simp [insertRegularLoop, containsLoop]
  | mk c l d r ihl ihr =>
    simp only [insertRegularLoop, containsLoop]
    cases whereToGo (cmp x d) <;> simp [ihl, ihr]

theorem findNode_none_iff (cmp : α → α → Int) (x : α) (t : Node α) (path : Path α) :
    findNode cmp x t path = none ↔ containsLoop cmp x t = false := by
  induction t generalizing path with
  | NULL => simp [findNode, containsLoop]
  | mk c l d r ihl ihr =>
    simp only [findNode, containsLoop]
    cases whereToGo (cmp x d) <;> simp [ihl, ihr]

/-- On an ordered tree the descent finds a payload comparing equal to `x`
exactly when one is stored. -/
theorem containsLoop_iff (h : StrictTotalOrder cmp) (x : α) (t : Node α)
    (ho : Ordered cmp t) : containsLoop cmp x t = true ↔ ∃ y ∈ toList t, cmp x y = 0 := by
  induction t with
  | NULL => simp [containsLoop, toList]
  | mk c l d r ihl ihr =>
    simp only [Ordered, toList, List.pairwise_append, List.pairwise_cons, List.mem_cons] at ho
    obtain ⟨hl, ⟨hdr, hr⟩, hlr⟩ := ho
    simp only [containsLoop, toList, List.mem_append, List.mem_cons]
    cases hw : whereToGo (cmp x d) with
    | ROOT =>
      simp only [true_iff]
      exact ⟨d, Or.inr (Or.inl rfl), whereToGo_root.1 hw⟩
    | RIGHT =>
      have hxd := whereToGo_right.1 hw
      simp only [ihr hr]
      constructor
      · rintro ⟨y, hy, hxy⟩; exact ⟨y, Or.inr (Or.inr hy), hxy⟩
      · rintro ⟨y, hy | rfl | hy, hxy⟩
        · have := h.le_lt (le_of_eq hxy) (hlr y hy d (Or.inl rfl)); omega
        · omega
        · exact ⟨y, hy, hxy⟩
    | LEFT =>
      have hxd := whereToGo_left.1 hw
      simp only [ihl hl]
      constructor
      · rintro ⟨y, hy, hxy⟩; exact ⟨y, Or.inl hy, hxy⟩
      · rintro ⟨y, hy | rfl | hy, hxy⟩
        · exact ⟨y, hy, hxy⟩
        · omega
        · have h1 := h.le_lt (le_of_eq (h.eq_flip hxy)) hxd
          have h2 := (h.flip y d).1 h1
          have h3 := hdr y hy
          omega

/-- The descent of `insertRegular` leaves the tree as it is and stops at an
absent slot with every earlier payload below `x` and every later one above. -/
theorem insertRegularLoop_some (h : StrictTotalOrder cmp) (x : α) (t : Node α) (path p : Path α)
    (hp : insertRegularLoop cmp x t path = some p) (ho : Ordered cmp t)
    (hb : ∀ a ∈ pathBefore path, cmp a x < 0) (ha : ∀ b ∈ pathAfter path, cmp x b < 0) :
    fill Node.NULL p = fill t path ∧ (∀ a ∈ pathBefore p, cmp a x < 0) ∧
      (∀ b ∈ pathAfter p, cmp x b < 0) := by
  induction t generalizing path with
  | NULL =>
    simp only [insertRegularLoop, Option.some.injEq] at hp
    subst hp; exact ⟨rfl, hb, ha⟩
  | mk c l d r ihl ihr =>
    simp only [Ordered, toList, List.pairwise_append, List.pairwise_cons, List.mem_cons] at ho
    obtain ⟨hl, ⟨hdr, hr⟩, hlr⟩ := ho
    simp only [insertRegularLoop] at hp
    cases hw : whereToGo (cmp x d) with
    | ROOT => simp [hw] at hp
    | RIGHT =>
      simp only [hw] at hp
      have hdx := h.gt_flip (whereToGo_right.1 hw)
      refine ihr _ hp hr ?_ ha
      intro a hmem
      simp only [pathBefore, List.mem_append, List.mem_singleton] at hmem
      rcases hmem with (hmem | hmem) | rfl
      · exact hb a hmem
      · exact h.lt_trans (hlr a hmem d (Or.inl rfl)) hdx
      · exact hdx
    | LEFT =>
      simp only [hw] at hp
      have hxd := whereToGo_left.1 hw
      refine ihl _ hp hl hb ?_
      intro b hmem
      simp only [pathAfter, List.mem_append, List.mem_cons] at hmem
      rcases hmem with (rfl | hmem) | hmem
      · exact hxd
      · exact h.lt_trans hxd (hdr b hmem)
      · exact ha b hmem

/-- The shape part of `insertRegularLoop_some`, without any order. -/
theorem insertRegularLoop_fill (x : α) (t : Node α) (path p : Path α)
    (hp : insertRegularLoop cmp x t path = some p) : fill Node.NULL p = fill t path := by
  induction t generalizing path with
  | NULL =>
    simp only [insertRegularLoop, Option.some.injEq] at hp
    subst hp; rfl
  | mk c l d r ihl ihr =>
    simp only [insertRegularLoop] at hp
    cases hw : whereToGo (cmp x d) with
    | ROOT => simp [hw] at hp
    | RIGHT => simp only [hw] at hp; exact ihr _ hp
    | LEFT => simp only [hw] at hp; exact ihl _ hp

/-- The cursor returned by `findNode` is a cursor of the tree, at a node whose
payload compares equal to `x`. -/
theorem findNode_some (x : α) (t : Node α) (path : Path α) (M : Node α) (p : Path α)
    (hp : findNode cmp x t path = some (M, p)) :
    fill M p = fill t path ∧ ∃ c l d r, M = Node.mk c l d r ∧ cmp x d = 0 := by
  induction t generalizing path with
  | NULL => simp [findNode] at hp
  | mk c l d r ihl ihr =>
    simp only [findNode] at hp
    cases hw : whereToGo (cmp x d) with
    | ROOT =>
      simp only [hw, Option.some.injEq, Prod.mk.injEq] at hp
      obtain ⟨rfl, rfl⟩ := hp
      exact ⟨rfl, c, l, d, r, rfl, whereToGo_root.1 hw⟩
    | RIGHT => simp only [hw] at hp; exact ihr _ hp
    | LEFT => simp only [hw] at hp; exact ihl _ hp

end Descent

/-! ## Insert fix-up -/

section InsertFix

theorem redDadBlackUncle_toList (new : Node α) (dad grandad : Frame α) (sub : Node α)
    (h : redDadBlackUncle new dad grandad = some sub) :
    toList sub = toList (fill new [dad, grandad]) := by
  obtain ⟨dc, dd, dr⟩ | ⟨dc, dl, dd⟩ := dad <;>
  obtain ⟨gc, gd, gu⟩ | ⟨gc, gu, gd⟩ := grandad <;>
  rcases new with _ | ⟨nc, nl, nd, nr⟩ <;>
  simp [redDadBlackUncle, turnLeft, turnRight] at h <;>
  subst h <;>
  simp [fill, toList]

theorem redDadRedUncle_toList (new : Node α) (dad grandad : Frame α) (sub : Node α)
    (h : redDadRedUncle new dad grandad = some sub) :
    toList sub = toList (fill new [dad, grandad]) := by
  obtain ⟨dc, dd, dr⟩ | ⟨dc, dl, dd⟩ := dad <;>
  obtain ⟨gc, gd, gu⟩ | ⟨gc, gu, gd⟩ := grandad <;>
  rcases gu with _ | ⟨uc, ul, ud, ur⟩ <;>
  simp [redDadRedUncle] at h <;>
  subst h <;>
  simp [fill, toList]

theorem fill_two (t : Node α) (a b : Frame α) (rest : Path α) :
    fill t (a :: b :: rest) = fill (fill t [a, b]) rest := by
  cases a <;> cases b <;> rfl

theorem toList_fill_congr {s t : Node α} (h : toList s = toList t) (path : Path α) :
    toList (fill s path) = toList (fill t path) := by
  simp [h]

theorem fixingAlg_toList (toFix : Node α) (path : Path α) (t : Node α)
    (h : fixingAlg toFix path = some t) : toList t = toList (fill toFix path) := by
  induction toFix, path using fixingAlg.induct generalizing t with
  | case1 c l d r => simp [fixingAlg] at h; subst h; simp [toList, fill, pathBefore, pathAfter]
  | case2 => simp [fixingAlg] at h
  | case3 toFix dad hd => simp [fixingAlg, hd] at h; subst h; rfl
  | case4 toFix dad hd => simp [fixingAlg, hd] at h
  | case5 toFix dad grandad rest hd => simp [fixingAlg, hd] at h; subst h; rfl
  | case6 toFix dad grandad rest hd ul ud ur hu g hg ih =>
    simp only [fixingAlg, hd, hu, hg] at h
    rw [ih t h, fill_two]
    exact toList_fill_congr (redDadRedUncle_toList _ _ _ _ hg) rest
  | case7 toFix dad grandad rest hd ul ud ur hu hg =>
    simp [fixingAlg, hd, hu, hg] at h
  | case8 toFix dad grandad rest hd hu =>
    rw [fixingAlg] at h
    simp only [hd] at h
    simp only [Option.map_eq_some'] at h
    obtain ⟨sub, hsub, rfl⟩ := h
    rw [fill_two]
    exact toList_fill_congr (redDadBlackUncle_toList _ _ _ _ hsub) rest

/-- The restructuring of `redDadBlackUncle` on a RED node under a RED parent
under a BLACK grandparent whose other child is BLACK or absent. -/
theorem redDadBlackUncle_wf (new : Node α) (dad grandad : Frame α)
    (hn : wf new) (hc : colorOf new = Color.RED) (hd : dad.color = Color.RED)
    (hg : grandad.color = Color.BLACK) (hu : colorOf grandad.brother = Color.BLACK)
    (hdb : wf dad.brother) (hub : wf grandad.brother)
    (h1 : blackHeight dad.brother = blackHeight new)
    (h2 : blackHeight grandad.brother = blackHeight new)
    (h3 : colorOf dad.brother = Color.BLACK) :
    ∃ sub, redDadBlackUncle new dad grandad = some sub ∧ wf sub ∧
      colorOf sub = Color.BLACK ∧ blackHeight sub = blackHeight new + 1 := by
  obtain ⟨dc, dd, dr⟩ | ⟨dc, dl, dd⟩ := dad <;>
  obtain ⟨gc, gd, gu⟩ | ⟨gc, gu, gd⟩ := grandad <;>
  rcases new with _ | ⟨nc, nl, nd, nr⟩ <;>
  simp_all [redDadBlackUncle, turnLeft, turnRight, Frame.color, Frame.brother, wf, colorOf,
    blackHeight, blk]

/-- The recolouring of `redDadRedUncle` under the same parent and grandparent
when the grandparent's other child is RED. -/
theorem redDadRedUncle_wf (new : Node α) (dad grandad : Frame α)
    (hn : wf new) (hc : colorOf new = Color.RED) (hd : dad.color = Color.RED)
    (hu : colorOf grandad.brother = Color.RED)
    (hdb : wf dad.brother) (hub : wf grandad.brother)
    (h1 : blackHeight dad.brother = blackHeight new)
    (h2 : blackHeight grandad.brother = blackHeight new)
    (h3 : colorOf dad.brother = Color.BLACK) :
    ∃ sub, redDadRedUncle new dad grandad = some sub ∧ wf sub ∧
      colorOf sub = Color.RED ∧ blackHeight sub = blackHeight new + 1 := by
  obtain ⟨dc, dd, dr⟩ | ⟨dc, dl, dd⟩ := dad <;>
  obtain ⟨gc, gd, gu⟩ | ⟨gc, gu, gd⟩ := grandad <;>
  rcases gu with _ | ⟨uc, ul, ud, ur⟩ <;>
  simp_all [redDadRedUncle, Frame.color, Frame.brother, wf, colorOf, blackHeight, blk]

end InsertFix

section InsertFixWf

theorem pathWf_cons (f : Frame α) (rest : Path α) (c : Color) (n : Nat) :
    pathWf (f :: rest) c n ↔
      (wf f.brother ∧ blackHeight f.brother = n ∧
        (f.color = Color.RED → c = Color.BLACK ∧ colorOf f.brother = Color.BLACK) ∧
        pathWf rest f.color (n + blk f.color)) := by
  cases f <;> simp [pathWf, Frame.brother, Frame.color]

theorem color_cases (c : Color) : c = Color.RED ∨ c = Color.BLACK := by
  cases c <;> simp

theorem pathWf_red_top {f : Frame α} {rest : Path α} {n : Nat}
    (h : pathWf (f :: rest) Color.RED n) : f.color = Color.BLACK := by
  rw [pathWf_cons] at h
  rcases color_cases f.color with hc | hc
  · have := (h.2.2.1 hc).1; cases this
  · exact hc

theorem fill_wf_of (t : Node α) (path : Path α) (ht : wf t)
    (hp : pathWf path (colorOf t) (blackHeight t)) :
    wf (fill t path) ∧ colorOf (fill t path) = Color.BLACK :=
  (fill_wf t path).2 ⟨ht, hp⟩

theorem pathWf_any_of_black {f : Frame α} {rest : Path α} {c : Color} {n : Nat}
    (hf : f.color = Color.BLACK) (h : pathWf (f :: rest) c n) (c2 : Color) :
    pathWf (f :: rest) c2 n := by
  rw [pathWf_cons] at h ⊢
  refine ⟨h.1, h.2.1, ?_, h.2.2.2⟩
  intro hr; rw [hf] at hr; cases hr

/-- The insert fix-up started at a RED node whose ancestors are those of a
valid tree returns a tree satisfying the colour invariants, with a BLACK root. -/
theorem fixingAlg_wf (toFix : Node α) (path : Path α) (hn : wf toFix)
    (hc : colorOf toFix = Color.RED) (hp : pathWf path Color.BLACK (blackHeight toFix)) :
    ∃ t, fixingAlg toFix path = some t ∧ wf t ∧ colorOf t = Color.BLACK := by
  induction toFix, path using fixingAlg.induct with
  | case1 c l d r =>
    refine ⟨Node.mk Color.BLACK l d r, by simp [fixingAlg], ?_, rfl⟩
    simp only [wf, colorOf] at hn hc ⊢
    exact ⟨hn.1, hn.2.1, hn.2.2.1, by simp⟩
  | case2 => simp [colorOf] at hc
  | case3 toFix dad hd =>
    refine ⟨fill toFix [dad], by simp [fixingAlg, hd], ?_⟩
    exact fill_wf_of _ _ hn (pathWf_any_of_black hd hp _)
  | case4 toFix dad hd =>
    rw [pathWf_cons] at hp
    have := hp.2.2.2
    rw [hd] at this
    simp [pathWf] at this
  | case5 toFix dad grandad rest hd =>
    refine ⟨fill toFix (dad :: grandad :: rest), by simp [fixingAlg, hd], ?_⟩
    exact fill_wf_of _ _ hn (pathWf_any_of_black hd hp _)
  | case6 toFix dad grandad rest hd ul ud ur hu g hg ih =>
    rw [pathWf_cons] at hp
    obtain ⟨h1, h2, h3, h4⟩ := hp
    rw [hd] at h4
    have hgc := pathWf_red_top h4
    rw [pathWf_cons] at h4
    obtain ⟨h5, h6, -, h8⟩ := h4
    obtain ⟨sub, hsub, hw, hcol, hbh⟩ := redDadRedUncle_wf toFix dad grandad hn hc hd
      (by rw [hu]; rfl) h1 h5 h2 (by simpa [blk] using h6) (h3 hd).2
    rw [hg] at hsub
    cases hsub
    simp only [fixingAlg, hd, hu, hg]
    apply ih hw hcol
    rw [hbh]
    simpa [hgc, blk] using h8
  | case7 toFix dad grandad rest hd ul ud ur hu hg =>
    rw [pathWf_cons] at hp
    obtain ⟨h1, h2, h3, h4⟩ := hp
    rw [hd] at h4
    rw [pathWf_cons] at h4
    obtain ⟨h5, h6, -, h8⟩ := h4
    obtain ⟨sub, hsub, -⟩ := redDadRedUncle_wf toFix dad grandad hn hc hd
      (by rw [hu]; rfl) h1 h5 h2 (by simpa [blk] using h6) (h3 hd).2
    rw [hg] at hsub
    cases hsub
  | case8 toFix dad grandad rest hd hu =>
    rw [pathWf_cons] at hp
    obtain ⟨h1, h2, h3, h4⟩ := hp
    rw [hd] at h4
    have hgc := pathWf_red_top h4
    rw [pathWf_cons] at h4
    obtain ⟨h5, h6, -, h8⟩ := h4
    have hub : colorOf grandad.brother = Color.BLACK := by
      cases hb : grandad.brother with
      | NULL => rfl
      | mk uc ul ud ur =>
        cases uc with
        | RED => exact absurd hb (fun hb => hu _ _ _ hb)
        | BLACK => rfl
    obtain ⟨sub, hsub, hw, hcol, hbh⟩ := redDadBlackUncle_wf toFix dad grandad hn hc hd hgc
      hub h1 h5 h2 (by simpa [blk] using h6) (h3 hd).2
    rw [fixingAlg]
    · simp only [hd, hsub, Option.map_some', Option.some.injEq, exists_eq_left']
      apply fill_wf_of _ _ hw
      rw [hcol, hbh]
      simpa [hgc, blk] using h8

end InsertFixWf

/-! ## Delete fix-up: one iteration at a time -/

section DeleteSteps

/-- Case e with the deficit on the left: the far (right) nephew is RED. -/
theorem loop_e_left (fuel : Nat) (pc : Color) (C : Node α) (pd : α) (sl : Node α) (sd : α)
    (fl : Node α) (fd : α) (fr : Node α) (rest : Path α) :
    blackMAndCLoop (fuel + 1) LeftOrRightChild.LEFT
        (Node.mk pc C pd (Node.mk Color.BLACK sl sd (Node.mk Color.RED fl fd fr))) rest =
      some (fill (Node.mk pc (Node.mk Color.BLACK C pd sl) sd (Node.mk Color.BLACK fl fd fr))
        rest) := by
  rcases sl with _ | ⟨_ | _, nl, nd, nr⟩ <;>
  simp [blackMAndCLoop, hasTwoBlackKids, howManyKIds, redScBlackSf, blackSRedSf, turnLeft]

/-- Case e with the deficit on the right: the far (left) nephew is RED. -/
theorem loop_e_right (fuel : Nat) (pc : Color) (C : Node α) (pd : α) (sr : Node α) (sd : α)
    (fl : Node α) (fd : α) (fr : Node α) (rest : Path α) :
    blackMAndCLoop (fuel + 1) LeftOrRightChild.RIGHT
        (Node.mk pc (Node.mk Color.BLACK (Node.mk Color.RED fl fd fr) sd sr) pd C) rest =
      some (fill (Node.mk pc (Node.mk Color.BLACK fl fd fr) sd (Node.mk Color.BLACK sr pd C))
        rest) := by
  rcases sr with _ | ⟨_ | _, nl, nd, nr⟩ <;>
  simp [blackMAndCLoop, hasTwoBlackKids, howManyKIds, redScBlackSf, blackSRedSf, turnRight]

/-- Case d with the deficit on the left: the near (left) nephew is RED, the far
one BLACK or absent. -/
theorem loop_d_left (fuel : Nat) (pc : Color) (C : Node α) (pd : α) (nl : Node α) (nd : α)
    (nr : Node α) (sd : α) (sr : Node α) (rest : Path α) (hf : colorOf sr = Color.BLACK) :
    blackMAndCLoop (fuel + 1) LeftOrRightChild.LEFT
        (Node.mk pc C pd (Node.mk Color.BLACK (Node.mk Color.RED nl nd nr) sd sr)) rest =
      blackMAndCLoop fuel LeftOrRightChild.LEFT
        (Node.mk pc C pd (Node.mk Color.BLACK nl nd (Node.mk Color.RED nr sd sr))) rest := by
  rcases sr with _ | ⟨_ | _, fl, fd, fr⟩ <;>
  simp_all [blackMAndCLoop, hasTwoBlackKids, howManyKIds, redScBlackSf, blackSAndSfRedSc,
    turnRight, colorOf]

/-- Case d with the deficit on the right: the near (right) nephew is RED, the
far one BLACK or absent. -/
theorem loop_d_right (fuel : Nat) (pc : Color) (C : Node α) (pd : α) (nl : Node α) (nd : α)
    (nr : Node α) (sd : α) (sl : Node α) (rest : Path α) (hf : colorOf sl = Color.BLACK) :
    blackMAndCLoop (fuel + 1) LeftOrRightChild.RIGHT
        (Node.mk pc (Node.mk Color.BLACK sl sd (Node.mk Color.RED nl nd nr)) pd C) rest =
      blackMAndCLoop fuel LeftOrRightChild.RIGHT
        (Node.mk pc (Node.mk Color.BLACK (Node.mk Color.RED sl sd nl) nd nr) pd C) rest := by
  rcases sl with _ | ⟨_ | _, fl, fd, fr⟩ <;>
  simp_all [blackMAndCLoop, hasTwoBlackKids, howManyKIds, redScBlackSf, blackSAndSfRedSc,
    turnLeft, colorOf]

/-- Case c with the deficit on the left: the sibling is RED. -/
theorem loop_c_left (fuel : Nat) (pc : Color) (C : Node α) (pd : α) (sl : Node α) (sd : α)
    (sr : Node α) (rest : Path α) :
    blackMAndCLoop (fuel + 1) LeftOrRightChild.LEFT
        (Node.mk pc C pd (Node.mk Color.RED sl sd sr)) rest =
      blackMAndCLoop fuel LeftOrRightChild.LEFT (Node.mk Color.RED C pd sl)
        (Frame.left pc sd sr :: rest) := by
  simp [blackMAndCLoop, turnLeft]

/-- Case c with the deficit on the right: the sibling is RED. -/
theorem loop_c_right (fuel : Nat) (pc : Color) (C : Node α) (pd : α) (sl : Node α) (sd : α)
    (sr : Node α) (rest : Path α) :
    blackMAndCLoop (fuel + 1) LeftOrRightChild.RIGHT
        (Node.mk pc (Node.mk Color.RED sl sd sr) pd C) rest =
      blackMAndCLoop fuel LeftOrRightChild.RIGHT (Node.mk Color.RED sr pd C)
        (Frame.right pc sl sd :: rest) := by
  simp [blackMAndCLoop, turnRight]

/-- On a BLACK sibling whose subtrees have equal BLACK heights, `hasTwoBlackKids`
tells whether both nephews are BLACK or absent. -/
theorem hasTwoBlackKids_of_black (sl : Node α) (sd : α) (sr : Node α)
    (h1 : colorOf sl = Color.BLACK) (h2 : colorOf sr = Color.BLACK)
    (h3 : blackHeight sl = blackHeight sr) :
    hasTwoBlackKids (Node.mk Color.BLACK sl sd sr) = some true := by
  rcases sl with _ | ⟨_ | _, a, b, c⟩ <;> rcases sr with _ | ⟨_ | _, d, e, f⟩ <;>
  simp_all [hasTwoBlackKids, howManyKIds, colorOf, blackHeight, blk]

/-- Case b under a RED parent. -/
theorem loop_b_red_left (fuel : Nat) (C : Node α) (pd : α) (sl : Node α) (sd : α)
    (sr : Node α) (rest : Path α)
    (h : hasTwoBlackKids (Node.mk Color.BLACK sl sd sr) = some true) :
    blackMAndCLoop (fuel + 1) LeftOrRightChild.LEFT
        (Node.mk Color.RED C pd (Node.mk Color.BLACK sl sd sr)) rest =
      some (fill (Node.mk Color.BLACK C pd (Node.mk Color.RED sl sd sr)) rest) := by
  simp [blackMAndCLoop, h]

theorem loop_b_red_right (fuel : Nat) (C : Node α) (pd : α) (sl : Node α) (sd : α)
    (sr : Node α) (rest : Path α)
    (h : hasTwoBlackKids (Node.mk Color.BLACK sl sd sr) = some true) :
    blackMAndCLoop (fuel + 1) LeftOrRightChild.RIGHT
        (Node.mk Color.RED (Node.mk Color.BLACK sl sd sr) pd C) rest =
      some (fill (Node.mk Color.BLACK (Node.mk Color.RED sl sd sr) pd C) rest) := by
  simp [blackMAndCLoop, h]

/-- Case b under a BLACK parent: the deficit moves to the parent. -/
theorem loop_b_black_left (fuel : Nat) (C : Node α) (pd : α) (sl : Node α) (sd : α)
    (sr : Node α) (h : hasTwoBlackKids (Node.mk Color.BLACK sl sd sr) = some true) :
    blackMAndCLoop (fuel + 1) LeftOrRightChild.LEFT
        (Node.mk Color.BLACK C pd (Node.mk Color.BLACK sl sd sr)) [] =
      some (Node.mk Color.BLACK C pd (Node.mk Color.RED sl sd sr)) ∧
    ∀ f rest, blackMAndCLoop (fuel + 1) LeftOrRightChild.LEFT
        (Node.mk Color.BLACK C pd (Node.mk Color.BLACK sl sd sr)) (f :: rest) =
      blackMAndCLoop fuel (up1 (Node.mk Color.BLACK C pd (Node.mk Color.RED sl sd sr)) f).1
        (up1 (Node.mk Color.BLACK C pd (Node.mk Color.RED sl sd sr)) f).2 rest := by
  refine ⟨by simp [blackMAndCLoop, h], ?_⟩
  intro f rest
  cases f <;> simp [blackMAndCLoop, h, up1]

theorem loop_b_black_right (fuel : Nat) (C : Node α) (pd : α) (sl : Node α) (sd : α)
    (sr : Node α) (h : hasTwoBlackKids (Node.mk Color.BLACK sl sd sr) = some true) :
    blackMAndCLoop (fuel + 1) LeftOrRightChild.RIGHT
        (Node.mk Color.BLACK (Node.mk Color.BLACK sl sd sr) pd C) [] =
      some (Node.mk Color.BLACK (Node.mk Color.RED sl sd sr) pd C) ∧
    ∀ f rest, blackMAndCLoop (fuel + 1) LeftOrRightChild.RIGHT
        (Node.mk Color.BLACK (Node.mk Color.BLACK sl sd sr) pd C) (f :: rest) =
      blackMAndCLoop fuel (up1 (Node.mk Color.BLACK (Node.mk Color.RED sl sd sr) pd C) f).1
        (up1 (Node.mk Color.BLACK (Node.mk Color.RED sl sd sr) pd C) f).2 rest := by
  refine ⟨by simp [blackMAndCLoop, h], ?_⟩
  intro f rest
  cases f <;> simp [blackMAndCLoop, h, up1]

end DeleteSteps

section DeleteFixWf

theorem pathWf_congr {path : Path α} {c : Color} {m n : Nat} (h : pathWf path c m)
    (e : m = n) : pathWf path c n := e ▸ h

/-- Cases d and e: a BLACK sibling with a RED nephew, deficit on the left. -/
theorem loop_de_left (fuel : Nat) (pc : Color) (C : Node α) (pd : α) (sl : Node α) (sd : α)
    (sr : Node α) (rest : Path α)
    (hd : deficit LeftOrRightChild.LEFT (Node.mk pc C pd (Node.mk Color.BLACK sl sd sr)) rest)
    (hne : colorOf sl = Color.RED ∨ colorOf sr = Color.RED) :
    ∃ t, blackMAndCLoop (fuel + 2) LeftOrRightChild.LEFT
        (Node.mk pc C pd (Node.mk Color.BLACK sl sd sr)) rest = some t ∧
      wf t ∧ colorOf t = Color.BLACK := by
  simp only [deficit, wf, blackHeight, blk] at hd
  obtain ⟨h1, h2, ⟨h3, h4, h5, -⟩, h6, -, h7⟩ := hd
  rcases sr with _ | ⟨_ | _, fl, fd, fr⟩
  · -- far nephew absent: the near one is RED
    rcases sl with _ | ⟨_ | _, nl, nd, nr⟩
    · simp [colorOf] at hne
    · rw [loop_d_left _ _ _ _ _ _ _ _ _ _ (by rfl), loop_e_left]
      refine ⟨_, rfl, fill_wf_of _ _ ?_ ?_⟩
      · simp_all [wf, colorOf, blackHeight, blk]
      · refine pathWf_congr h7 ?_
        simp_all [wf, colorOf, blackHeight, blk]
    · simp [colorOf] at hne
  · rw [loop_e_left]
    refine ⟨_, rfl, fill_wf_of _ _ ?_ ?_⟩
    · simp_all [wf, colorOf, blackHeight, blk]
    · refine pathWf_congr h7 ?_
      simp_all [wf, colorOf, blackHeight, blk]
  · rcases sl with _ | ⟨_ | _, nl, nd, nr⟩
    · simp [colorOf] at hne
    · rw [loop_d_left _ _ _ _ _ _ _ _ _ _ (by rfl), loop_e_left]
      refine ⟨_, rfl, fill_wf_of _ _ ?_ ?_⟩
      · simp_all [wf, colorOf, blackHeight, blk]
      · refine pathWf_congr h7 ?_
        simp_all [wf, colorOf, blackHeight, blk]
    · simp [colorOf] at hne

/-- Cases d and e: a BLACK sibling with a RED nephew, deficit on the right. -/
theorem loop_de_right (fuel : Nat) (pc : Color) (C : Node α) (pd : α) (sl : Node α) (sd : α)
    (sr : Node α) (rest : Path α)
    (hd : deficit LeftOrRightChild.RIGHT (Node.mk pc (Node.mk Color.BLACK sl sd sr) pd C) rest)
    (hne : colorOf sl = Color.RED ∨ colorOf sr = Color.RED) :
    ∃ t, blackMAndCLoop (fuel + 2) LeftOrRightChild.RIGHT
        (Node.mk pc (Node.mk Color.BLACK sl sd sr) pd C) rest = some t ∧
      wf t ∧ colorOf t = Color.BLACK := by
  simp only [deficit, wf, blackHeight, blk] at hd
  obtain ⟨h1, h2, ⟨h3, h4, h5, -⟩, h6, -, h7⟩ := hd
  rcases sl with _ | ⟨_ | _, fl, fd, fr⟩
  · rcases sr with _ | ⟨_ | _, nl, nd, nr⟩
    · simp [colorOf] at hne
    · rw [loop_d_right _ _ _ _ _ _ _ _ _ _ (by rfl), loop_e_right]
      refine ⟨_, rfl, fill_wf_of _ _ ?_ ?_⟩
      · simp_all [wf, colorOf, blackHeight, blk]
      · refine pathWf_congr h7 ?_
        simp_all [wf, colorOf, blackHeight, blk]
    · simp [colorOf] at hne
  · rw [loop_e_right]
    refine ⟨_, rfl, fill_wf_of _ _ ?_ ?_⟩
    · simp_all [wf, colorOf, blackHeight, blk]
    · refine pathWf_congr h7 ?_
      simp_all [wf, colorOf, blackHeight, blk]
  · rcases sr with _ | ⟨_ | _, nl, nd, nr⟩
    · simp [colorOf] at hne
    · rw [loop_d_right _ _ _ _ _ _ _ _ _ _ (by rfl), loop_e_right]
      refine ⟨_, rfl, fill_wf_of _ _ ?_ ?_⟩
      · simp_all [wf, colorOf, blackHeight, blk]
      · refine pathWf_congr h7 ?_
        simp_all [wf, colorOf, blackHeight, blk]
    · simp [colorOf] at hne

theorem colorOf_black_of_not_red {t : Node α} (h : ¬ colorOf t = Color.RED) :
    colorOf t = Color.BLACK := by
  rcases color_cases (colorOf t) with h1 | h1
  · exact absurd h1 h
  · exact h1

/-- Under a RED parent the loop returns within two iterations. -/
theorem loop_redP_left (fuel : Nat) (C : Node α) (pd : α) (S : Node α) (rest : Path α)
    (hd : deficit LeftOrRightChild.LEFT (Node.mk Color.RED C pd S) rest) :
    ∃ t, blackMAndCLoop (fuel + 2) LeftOrRightChild.LEFT (Node.mk Color.RED C pd S) rest =
        some t ∧ wf t ∧ colorOf t = Color.BLACK := by
  have hd2 := hd
  simp only [deficit] at hd2
  obtain ⟨h1, h2, h3, h4, h5, h6⟩ := hd2
  rcases S with _ | ⟨_ | _, sl, sd, sr⟩
  · simp [blackHeight] at h4
  · simp [colorOf] at h5
  · by_cases hne : colorOf sl = Color.RED ∨ colorOf sr = Color.RED
    · exact loop_de_left fuel _ _ _ _ _ _ _ hd hne
    · simp only [not_or] at hne
      simp only [wf] at h3
      rw [loop_b_red_left _ _ _ _ _ _ _ (hasTwoBlackKids_of_black _ _ _
        (colorOf_black_of_not_red hne.1) (colorOf_black_of_not_red hne.2) h3.2.2.1)]
      refine ⟨_, rfl, fill_wf_of _ _ ?_ ?_⟩
      · simp_all [wf, colorOf, blackHeight, blk]
        exact ⟨colorOf_black_of_not_red hne.1, colorOf_black_of_not_red hne.2⟩
      · refine pathWf_congr (pathWf_black h6) ?_
        simp_all [wf, colorOf, blackHeight, blk]

theorem loop_redP_right (fuel : Nat) (C : Node α) (pd : α) (S : Node α) (rest : Path α)
    (hd : deficit LeftOrRightChild.RIGHT (Node.mk Color.RED S pd C) rest) :
    ∃ t, blackMAndCLoop (fuel + 2) LeftOrRightChild.RIGHT (Node.mk Color.RED S pd C) rest =
        some t ∧ wf t ∧ colorOf t = Color.BLACK := by
  have hd2 := hd
  simp only [deficit] at hd2
  obtain ⟨h1, h2, h3, h4, h5, h6⟩ := hd2
  rcases S with _ | ⟨_ | _, sl, sd, sr⟩
  · simp [blackHeight] at h4
  · simp [colorOf] at h5
  · by_cases hne : colorOf sl = Color.RED ∨ colorOf sr = Color.RED
    · exact loop_de_right fuel _ _ _ _ _ _ _ hd hne
    · simp only [not_or] at hne
      simp only [wf] at h3
      rw [loop_b_red_right _ _ _ _ _ _ _ (hasTwoBlackKids_of_black _ _ _
        (colorOf_black_of_not_red hne.1) (colorOf_black_of_not_red hne.2) h3.2.2.1)]
      refine ⟨_, rfl, fill_wf_of _ _ ?_ ?_⟩
      · simp_all [wf, colorOf, blackHeight, blk]
        exact ⟨colorOf_black_of_not_red hne.1, colorOf_black_of_not_red hne.2⟩
      · refine pathWf_congr (pathWf_black h6) ?_
        simp_all [wf, colorOf, blackHeight, blk]

/-- Moving the deficit from a BLACK parent, now one BLACK node short, to the
grandparent keeps the loop state. -/
theorem deficit_up1 (P : Node α) (f : Frame α) (rest : Path α) (n : Nat) (hP : wf P)
    (hc : colorOf P = Color.BLACK) (hn : blackHeight P = n)
    (hp : pathWf (f :: rest) Color.BLACK (n + 1)) :
    deficit (up1 P f).1 (up1 P f).2 rest := by
  cases f <;> simp_all [up1, deficit, pathWf]

/-- The delete fix-up loop, started in a state left by unlinking a BLACK node of
a valid tree, returns a tree satisfying the colour invariants with a BLACK
root; three iterations more than the number of ancestors of `P` suffice. -/
theorem blackMAndCLoop_wf (fuel : Nat) (side : LeftOrRightChild) (P : Node α) (rest : Path α)
    (hd : deficit side P rest) (hf : rest.length + 3 ≤ fuel) :
    ∃ t, blackMAndCLoop fuel side P rest = some t ∧ wf t ∧ colorOf t = Color.BLACK := by
  induction fuel generalizing side P rest with
  | zero => omega
  | succ k ih =>
    obtain ⟨j, rfl⟩ : ∃ j, k = j + 2 := ⟨k - 2, by omega⟩
    cases side with
    | ROOT => cases P <;> simp [deficit] at hd
    | LEFT =>
      rcases P with _ | ⟨pc, C, pd, S⟩
      · simp [deficit] at hd
      have hd2 := hd
      simp only [deficit] at hd2
      obtain ⟨h1, h2, h3, h4, h5, h6⟩ := hd2
      rcases S with _ | ⟨_ | _, sl, sd, sr⟩
      · simp [blackHeight] at h4
      · -- c: RED sibling, so the parent is BLACK
        have hpc : pc = Color.BLACK := by
          rcases color_cases pc with h | h
          · simp [h, colorOf] at h5
          · exact h
        subst hpc
        rw [loop_c_left]
        apply loop_redP_left
        simp_all [deficit, wf, colorOf, blackHeight, blk, pathWf]
      · by_cases hne : colorOf sl = Color.RED ∨ colorOf sr = Color.RED
        · exact loop_de_left (j + 1) _ _ _ _ _ _ _ hd hne
        · simp only [not_or] at hne
          have hk := hasTwoBlackKids_of_black sl sd sr (colorOf_black_of_not_red hne.1)
            (colorOf_black_of_not_red hne.2) (by simp only [wf] at h3; exact h3.2.2.1)
          cases pc with
          | RED => exact loop_redP_left (j + 1) _ _ _ _ hd
          | BLACK =>
            have hP : wf (Node.mk Color.BLACK C pd (Node.mk Color.RED sl sd sr)) ∧
                blackHeight (Node.mk Color.BLACK C pd (Node.mk Color.RED sl sd sr)) =
                  blackHeight C + 1 := by
              simp_all [wf, colorOf, blackHeight, blk]
              exact ⟨colorOf_black_of_not_red hne.1, colorOf_black_of_not_red hne.2⟩
            cases rest with
            | nil =>
              rw [(loop_b_black_left _ _ _ _ _ _ hk).1]
              exact ⟨_, rfl, hP.1, rfl⟩
            | cons f up =>
              rw [(loop_b_black_left _ _ _ _ _ _ hk).2]
              apply ih
              · exact deficit_up1 _ _ _ _ hP.1 rfl hP.2 (by simpa [blk] using h6)
              · simp at hf ⊢; omega
    | RIGHT =>
      rcases P with _ | ⟨pc, S, pd, C⟩
      · simp [deficit] at hd
      have hd2 := hd
      simp only [deficit] at hd2
      obtain ⟨h1, h2, h3, h4, h5, h6⟩ := hd2
      rcases S with _ | ⟨_ | _, sl, sd, sr⟩
      · simp [blackHeight] at h4
      · have hpc : pc = Color.BLACK := by
          rcases color_cases pc with h | h
          · simp [h, colorOf] at h5
          · exact h
        subst hpc
        rw [loop_c_right]
        apply loop_redP_right
        simp_all [deficit, wf, colorOf, blackHeight, blk, pathWf]
      · by_cases hne : colorOf sl = Color.RED ∨ colorOf sr = Color.RED
        · exact loop_de_right (j + 1) _ _ _ _ _ _ _ hd hne
        · simp only [not_or] at hne
          have hk := hasTwoBlackKids_of_black sl sd sr (colorOf_black_of_not_red hne.1)
            (colorOf_black_of_not_red hne.2) (by simp only [wf] at h3; exact h3.2.2.1)
          cases pc with
          | RED => exact loop_redP_right (j + 1) _ _ _ _ hd
          | BLACK =>
            have hP : wf (Node.mk Color.BLACK (Node.mk Color.RED sl sd sr) pd C) ∧
                blackHeight (Node.mk Color.BLACK (Node.mk Color.RED sl sd sr) pd C) =
                  blackHeight C + 1 := by
              simp_all [wf, colorOf, blackHeight, blk]
              exact ⟨colorOf_black_of_not_red hne.1, colorOf_black_of_not_red hne.2⟩
            cases rest with
            | nil =>
              rw [(loop_b_black_right _ _ _ _ _ _ hk).1]
              exact ⟨_, rfl, hP.1, rfl⟩
            | cons f up =>
              rw [(loop_b_black_right _ _ _ _ _ _ hk).2]
              apply ih
              · exact deficit_up1 _ _ _ _ hP.1 rfl hP.2 (by simpa [blk] using h6)
              · simp at hf ⊢; omega

end DeleteFixWf

section DeleteFixList

theorem turnLeft_toList (x y : Node α) (h : turnLeft x = some y) : toList y = toList x := by
  rcases x with _ | ⟨xc, xl, xd, _ | ⟨yc, yl, yd, yr⟩⟩ <;> simp [turnLeft] at h
  subst h; simp [toList]

theorem turnRight_toList (x y : Node α) (h : turnRight x = some y) : toList y = toList x := by
  rcases x with _ | ⟨xc, _ | ⟨yc, yl, yd, yr⟩, xd, xr⟩ <;> simp [turnRight] at h
  subst h; simp [toList]

theorem blackSAndSfRedSc_toList (S : Node α) (side : LeftOrRightChild) (g : Node α)
    (h : blackSAndSfRedSc S side = some g) : toList g = toList S := by
  unfold blackSAndSfRedSc at h
  split at h
  · rw [turnLeft_toList _ _ h]; simp [toList]
  · rw [turnRight_toList _ _ h]; simp [toList]
  · cases h

theorem blackSRedSf_toList (P : Node α) (side : LeftOrRightChild) (top : Node α)
    (h : blackSRedSf P side = some top) : toList top = toList P := by
  unfold blackSRedSf at h
  split at h
  · rename_i pc sc sl sd sr pd C
    rcases sl with _ | ⟨fc, fl, fd, fr⟩ <;> simp [turnRight] at h
    subst h; simp [toList]
  · rename_i pc C pd sc sl sd sr
    rcases sr with _ | ⟨fc, fl, fd, fr⟩ <;> simp [turnLeft] at h
    subst h; simp [toList]
  · cases h

/-- The delete fix-up loop keeps the in-order sequence of payloads. -/
theorem blackMAndCLoop_toList (fuel : Nat) (side : LeftOrRightChild) (P : Node α)
    (rest : Path α) (t : Node α) (h : blackMAndCLoop fuel side P rest = some t) :
    toList t = toList (fill P rest) := by
  induction fuel generalizing side P rest with
  | zero => simp [blackMAndCLoop] at h
  | succ k ih =>
    cases side with
    | ROOT => cases P <;> simp [blackMAndCLoop] at h
    | LEFT =>
      rcases P with _ | ⟨pc, C, pd, S⟩
      · simp [blackMAndCLoop] at h
      rcases S with _ | ⟨_ | _, sl, sd, sr⟩
      · simp [blackMAndCLoop] at h
      · rw [loop_c_left] at h
        rw [ih _ _ _ h]; simp [toList, pathBefore, pathAfter]
      · simp only [blackMAndCLoop] at h
        split at h
        · cases h
        · split at h
          · cases h; simp [toList]
          · split at h
            · cases h; simp [toList, pathBefore, pathAfter]
            · rw [ih _ _ _ h]; simp [toList, pathBefore, pathAfter]
            · rw [ih _ _ _ h]; simp [toList, pathBefore, pathAfter]
        · split at h
          · cases h
          · split at h
            · rename_i S2 hS2
              rw [ih _ _ _ h]; simp [toList, blackSAndSfRedSc_toList _ _ _ hS2]
            · cases h
          · simp only [Option.map_eq_some'] at h
            obtain ⟨top, htop, rfl⟩ := h
            simp [blackSRedSf_toList _ _ _ htop]
    | RIGHT =>
      rcases P with _ | ⟨pc, S, pd, C⟩
      · simp [blackMAndCLoop] at h
      rcases S with _ | ⟨_ | _, sl, sd, sr⟩
      · simp [blackMAndCLoop] at h
      · rw [loop_c_right] at h
        rw [ih _ _ _ h]; simp [toList, pathBefore, pathAfter]
      · simp only [blackMAndCLoop] at h
        split at h
        · cases h
        · split at h
          · cases h; simp [toList]
          · split at h
            · cases h; simp [toList, pathBefore, pathAfter]
            · rw [ih _ _ _ h]; simp [toList, pathBefore, pathAfter]
            · rw [ih _ _ _ h]; simp [toList, pathBefore, pathAfter]
        · split at h
          · cases h
          · split at h
            · rename_i S2 hS2
              rw [ih _ _ _ h]; simp [toList, blackSAndSfRedSc_toList _ _ _ hS2]
            · cases h
          · simp only [Option.map_eq_some'] at h
            obtain ⟨top, htop, rfl⟩ := h
            simp [blackSRedSf_toList _ _ _ htop]

end DeleteFixList

/-! ## Choosing the node to unlink -/

section PickM

theorem fill_append (t : Node α) (p q : Path α) : fill t (p ++ q) = fill (fill t p) q := by
  induction p generalizing t with
  | nil => rfl
  | cons f rest ih => cases f <;> simp [fill, ih]

theorem pathBefore_append (p q : Path α) :
    pathBefore (p ++ q) = pathBefore q ++ pathBefore p := by
  induction p with
  | nil => simp [pathBefore]
  | cons f rest ih => cases f <;> simp [pathBefore, ih]

theorem pathAfter_append (p q : Path α) :
    pathAfter (p ++ q) = pathAfter p ++ pathAfter q := by
  induction p with
  | nil => simp [pathAfter]
  | cons f rest ih => cases f <;> simp [pathAfter, ih]

theorem numNodes_fill_congr {s t : Node α} (h : numNodes s = numNodes t) (p : Path α) :
    numNodes (fill s p) = numNodes (fill t p) := by
  induction p generalizing s t with
  | nil => exact h
  | cons f rest ih => cases f <;> exact ih (by simp [numNodes, h])

/-- Colour, BLACK height and colour invariants of a tree depend on the subtree
at a cursor only through these three. -/
theorem shape_congr {s t : Node α} (hc : colorOf s = colorOf t)
    (hb : blackHeight s = blackHeight t) (hs : wf s ↔ wf t) (p : Path α) :
    colorOf (fill s p) = colorOf (fill t p) ∧ blackHeight (fill s p) = blackHeight (fill t p) ∧
      (wf (fill s p) ↔ wf (fill t p)) := by
  induction p generalizing s t with
  | nil => exact ⟨hc, hb, hs⟩
  | cons f rest ih =>
    cases f <;> exact ih rfl (by simp [blackHeight, hb]) (by simp [wf, hs, hb, hc])

/-- The walk of `successor` ends at a node without a left child, reached through
left links only. -/
theorem successorLoop_some (t : Node α) (path : Path α) (S : Node α) (sp : Path α)
    (h : successorLoop t path = some (S, sp)) :
    fill S sp = fill t path ∧ pathBefore sp = pathBefore path ∧
      ∃ sc sd sr, S = Node.mk sc Node.NULL sd sr := by
  induction t generalizing path with
  | NULL => simp [successorLoop] at h
  | mk c l d r ihl _ =>
    cases l with
    | NULL =>
      simp only [successorLoop, Option.some.injEq, Prod.mk.injEq] at h
      obtain ⟨rfl, rfl⟩ := h
      exact ⟨rfl, rfl, c, d, r, rfl⟩
    | mk lc ll ld lr =>
      simp only [successorLoop] at h
      obtain ⟨h1, h2, h3⟩ := ihl _ h
      exact ⟨h1, h2, h3⟩

theorem successorLoop_isSome (c : Color) (l : Node α) (d : α) (r : Node α) (path : Path α) :
    ∃ S sp, successorLoop (Node.mk c l d r) path = some (S, sp) := by
  induction l generalizing c d r path with
  | NULL => exact ⟨Node.mk c Node.NULL d r, path, by simp [successorLoop]⟩
  | mk lc ll ld lr ihl _ =>
    obtain ⟨S, sp, h⟩ := ihl lc ld lr (Frame.left c d r :: path)
    exact ⟨S, sp, by simp [successorLoop, h]⟩

/-- What `pickM` returns at a node `M` of a tree: the node to unlink holds the
payload of `M`, lacks a child, and splicing its child in removes exactly that
payload from the in-order sequence; shape and colours are those of the tree. -/
theorem pickM_spec (c : Color) (l : Node α) (d : α) (r : Node α) (path : Path α) :
    ∃ mc ml mr p, pickM (Node.mk c l d r) path = some (Node.mk mc ml d mr, p) ∧
      (ml = Node.NULL ∨ mr = Node.NULL) ∧
      (∃ L R, toList (fill (Node.mk c l d r) path) = L ++ d :: R ∧
        pathBefore p ++ (toList ml ++ toList mr) ++ pathAfter p = L ++ R) ∧
      numNodes (fill (Node.mk mc ml d mr) p) = numNodes (fill (Node.mk c l d r) path) ∧
      ((wf (fill (Node.mk c l d r) path) ∧ colorOf (fill (Node.mk c l d r) path) = Color.BLACK) →
        (wf (fill (Node.mk mc ml d mr) p) ∧
          colorOf (fill (Node.mk mc ml d mr) p) = Color.BLACK)) := by
  rcases l with _ | ⟨lc, ll, ld, lr⟩
  · have hp : pickM (Node.mk c Node.NULL d r) path = some (Node.mk c Node.NULL d r, path) := by
      cases r <;> simp [pickM, howManyKIds]
    exact ⟨c, Node.NULL, r, path, hp, Or.inl rfl, ⟨pathBefore path, toList r ++ pathAfter path,
      by simp [toList], by simp [toList]⟩, rfl, id⟩
  rcases r with _ | ⟨rc, rl, rd, rr⟩
  · have hp : pickM (Node.mk c (Node.mk lc ll ld lr) d Node.NULL) path =
        some (Node.mk c (Node.mk lc ll ld lr) d Node.NULL, path) := by
      simp [pickM, howManyKIds]
    exact ⟨c, Node.mk lc ll ld lr, Node.NULL, path, hp, Or.inr rfl,
      ⟨pathBefore path ++ toList (Node.mk lc ll ld lr), pathAfter path,
      by simp [toList], by simp [toList]⟩, rfl, id⟩
  obtain ⟨S, sp, hs⟩ := successorLoop_isSome rc rl rd rr []
  obtain ⟨h1, h2, sc, sd, sr, rfl⟩ := successorLoop_some _ _ _ _ hs
  simp only [fill] at h1
  have hp : pickM (Node.mk c (Node.mk lc ll ld lr) d (Node.mk rc rl rd rr)) path =
      some (Node.mk sc Node.NULL d sr, sp ++ Frame.right c (Node.mk lc ll ld lr) sd :: path) := by
    simp [pickM, howManyKIds, successor, hs]
  have hin := shape_congr (s := Node.mk sc Node.NULL d sr) (t := Node.mk sc Node.NULL sd sr)
    rfl rfl (by simp [wf]) sp
  refine ⟨sc, Node.NULL, sr, sp ++ Frame.right c (Node.mk lc ll ld lr) sd :: path,
    hp, Or.inl rfl, ?_, ?_, ?_⟩
  · refine ⟨pathBefore path ++ toList (Node.mk lc ll ld lr),
      toList (Node.mk rc rl rd rr) ++ pathAfter path, by simp [toList], ?_⟩
    rw [← h1]
    simp [pathBefore_append, pathAfter_append, pathBefore, pathAfter, h2, toList]
  · rw [fill_append, ← h1]
    simp only [fill]
    apply numNodes_fill_congr
    simp only [numNodes]
    rw [numNodes_fill_congr (s := Node.mk sc Node.NULL d sr)
      (t := Node.mk sc Node.NULL sd sr) (by simp [numNodes]) sp]
  · rw [fill_append, ← h1]
    simp only [fill]
    intro hw
    have hout := shape_congr
      (s := Node.mk c (Node.mk lc ll ld lr) sd (fill (Node.mk sc Node.NULL d sr) sp))
      (t := Node.mk c (Node.mk lc ll ld lr) d (fill (Node.mk sc Node.NULL sd sr) sp))
      rfl rfl (by simp [wf, hin]) path
    rw [hout.1, hout.2.2]
    exact hw

end PickM

/-! ## Deletion as a whole -/

section DeleteMain

variable {cmp : α → α → Int}

/-- A node of a `wf` tree that lacks a child has only absent or RED-leaf
children. -/
theorem blackHeight_zero_cases (t : Node α) (hw : wf t) (hb : blackHeight t = 0) :
    t = Node.NULL ∨ ∃ d, t = Node.mk Color.RED Node.NULL d Node.NULL := by
  rcases t with _ | ⟨_ | _, l, d, r⟩
  · exact Or.inl rfl
  · right
    simp only [wf, blackHeight, blk, colorOf] at hw hb
    rcases l with _ | ⟨_ | _, a, b, c⟩ <;> rcases r with _ | ⟨_ | _, e, f, g⟩ <;>
      simp_all [colorOf, blackHeight, blk]
  · simp [blackHeight, blk] at hb

/-- Deleting a payload that `findNode` locates, in a tree satisfying the colour
invariants with a BLACK root: the call succeeds, frees the located payload,
removes exactly it from the in-order sequence, and restores the invariants. -/
theorem deleteFromRBTree_found (tree : RBTree α) (x : α) (M0 : Node α) (path0 : Path α)
    (hf : findNode cmp x tree.root [] = some (M0, path0))
    (hw : wf tree.root) (hc : colorOf tree.root = Color.BLACK) :
    ∃ root2 d L R, deleteFromRBTree cmp tree (some x) =
        some (FunctionReturn.SUCCESS,
          { root := root2, size := tree.size - 1, freed := tree.freed ++ [d] }) ∧
      cmp x d = 0 ∧ toList tree.root = L ++ d :: R ∧ toList root2 = L ++ R ∧
      wf root2 ∧ colorOf root2 = Color.BLACK := by
  obtain ⟨hfill, c, l, d, r, rfl, hxd⟩ := findNode_some _ _ _ _ _ hf
  simp only [fill] at hfill
  obtain ⟨mc, ml, mr, p, hpick, hnull, ⟨L, R, hL, hLR⟩, hnum, hwf⟩ := pickM_spec c l d r path0
  rw [hfill] at hL hnum hwf
  have hM := (fill_wf _ _).1 (hwf ⟨hw, hc⟩)
  obtain ⟨hwM, hpM⟩ := hM
  have hlen := numNodes_fill (Node.mk mc ml d mr) p
  rw [hnum] at hlen
  simp only [wf] at hwM
  obtain ⟨hwl, hwr, hbh, hred⟩ := hwM
  have hz : blackHeight ml = 0 ∧ blackHeight mr = 0 := by
    rcases hnull with h | h <;> subst h <;> simp_all [blackHeight]
  have hlist : ∀ C, toList C = toList ml ++ toList mr → toList (fill C p) = L ++ R := by
    intro C hC; rw [toList_fill, hC, hLR]
  rcases blackHeight_zero_cases ml hwl hz.1 with rfl | ⟨ld, rfl⟩ <;>
    rcases blackHeight_zero_cases mr hwr hz.2 with rfl | ⟨rd, rfl⟩
  · -- M is a leaf
    cases mc with
    | RED =>
      cases p with
      | nil => simp [pathWf, colorOf] at hpM
      | cons f rest =>
        refine ⟨fill Node.NULL (f :: rest), d, L, R, ?_, hxd, hL, hlist _ rfl, ?_⟩
        · simp [deleteFromRBTree, hf, hpick, setC]
        · exact fill_wf_of _ _ trivial (pathWf_black hpM)
    | BLACK =>
      cases p with
      | nil =>
        refine ⟨Node.NULL, d, L, R, ?_, hxd, hL, ?_, trivial, rfl⟩
        · simp [deleteFromRBTree, hf, hpick, setC, blackMAndC]
        · simpa [fill] using hlist Node.NULL rfl
      | cons f rest =>
        have hfuel : rest.length + 3 ≤ numNodes tree.root + 4 := by
          simp at hlen; omega
        have hdef : deficit (up1 Node.NULL f).1 (up1 Node.NULL f).2 rest :=
          deficit_up1 _ _ _ 0 trivial rfl rfl (by simpa [blackHeight, blk, colorOf] using hpM)
        obtain ⟨t, ht, hwt, hct⟩ := blackMAndCLoop_wf _ _ _ _ hdef hfuel
        have hl := blackMAndCLoop_toList _ _ _ _ _ ht
        refine ⟨t, d, L, R, ?_, hxd, hL, ?_, hwt, hct⟩
        · cases f <;> simp_all [deleteFromRBTree, setC, blackMAndC, up1]
        · rw [hl, ← hlist Node.NULL rfl]
          cases f <;> rfl
  · -- only a right child, which is a RED leaf
    cases mc with
    | RED => simp [colorOf] at hred
    | BLACK =>
      refine ⟨fill (Node.mk Color.BLACK Node.NULL rd Node.NULL) p, d, L, R, ?_, hxd, hL, ?_, ?_⟩
      · simp [deleteFromRBTree, hf, hpick, setC]
      · rw [← hlist (Node.mk Color.RED Node.NULL rd Node.NULL) (by simp [toList])]
        simp [toList]
      · exact fill_wf_of _ _ (by simp [wf, blackHeight]) (by simpa [blackHeight, blk, colorOf] using hpM)
  · -- only a left child, which is a RED leaf
    cases mc with
    | RED => simp [colorOf] at hred
    | BLACK =>
      refine ⟨fill (Node.mk Color.BLACK Node.NULL ld Node.NULL) p, d, L, R, ?_, hxd, hL, ?_, ?_⟩
      · simp [deleteFromRBTree, hf, hpick, setC]
      · rw [← hlist (Node.mk Color.RED Node.NULL ld Node.NULL) (by simp [toList])]
        simp [toList]
      · exact fill_wf_of _ _ (by simp [wf, blackHeight]) (by simpa [blackHeight, blk, colorOf] using hpM)
  · rcases hnull with h | h <;> cases h


/-- The two outcomes of `deleteFromRBTree` on a tree satisfying the colour
invariants with a BLACK root. -/
theorem deleteFromRBTree_spec (cmp : α → α → Int) (tree : RBTree α) (x : α) (hw : wf tree.root)
    (hc : colorOf tree.root = Color.BLACK) :
    (containsLoop cmp x tree.root = false ∧
      deleteFromRBTree cmp tree (some x) = some (FunctionReturn.FAIL, tree)) ∨
    (containsLoop cmp x tree.root = true ∧
      ∃ root2 d L R, deleteFromRBTree cmp tree (some x) =
        some (FunctionReturn.SUCCESS,
          { root := root2, size := tree.size - 1, freed := tree.freed ++ [d] }) ∧
      cmp x d = 0 ∧ toList tree.root = L ++ d :: R ∧ toList root2 = L ++ R ∧
      wf root2 ∧ colorOf root2 = Color.BLACK) := by
  cases hfind : findNode cmp x tree.root [] with
  | none =>
    left
    exact ⟨(findNode_none_iff cmp x _ _).1 hfind, by simp [deleteFromRBTree, hfind]⟩
  | some res =>
    obtain ⟨M0, path0⟩ := res
    right
    refine ⟨?_, deleteFromRBTree_found tree x M0 path0 hfind hw hc⟩
    by_contra hcon
    have := (findNode_none_iff cmp x tree.root []).2 (by simpa using hcon)
    rw [hfind] at this
    cases this

/-- The two outcomes of `insertToRBTree` on a tree satisfying the colour
invariants with a BLACK root. -/
theorem insertToRBTree_spec (cmp : α → α → Int) (tree : RBTree α) (x : α) (mallocOk : Bool)
    (hw : wf tree.root) (hc : colorOf tree.root = Color.BLACK) :
    ((mallocOk = false ∨ containsLoop cmp x tree.root = true) ∧
      insertToRBTree cmp tree (some x) mallocOk = some (FunctionReturn.FAIL, tree)) ∨
    (mallocOk = true ∧ containsLoop cmp x tree.root = false ∧
      ∃ root2 path, insertRegular cmp tree x = some path ∧
        insertToRBTree cmp tree (some x) mallocOk =
          some (FunctionReturn.SUCCESS, { tree with root := root2, size := tree.size + 1 }) ∧
        toList tree.root = pathBefore path ++ pathAfter path ∧
        toList root2 = pathBefore path ++ x :: pathAfter path ∧
        wf root2 ∧ colorOf root2 = Color.BLACK) := by
  cases mallocOk with
  | false => left; exact ⟨Or.inl rfl, by simp [insertToRBTree]⟩
  | true =>
    cases hins : insertRegularLoop cmp x tree.root [] with
    | none =>
      left
      exact ⟨Or.inr ((insertRegularLoop_none_iff cmp x _ _).1 hins),
        by simp [insertToRBTree, insertRegular, hins]⟩
    | some path =>
      right
      have hcl : containsLoop cmp x tree.root = false := by
        by_contra hcon
        have := (insertRegularLoop_none_iff cmp x tree.root []).2 (by simpa using hcon)
        rw [hins] at this
        cases this
      have hfill := insertRegularLoop_fill x _ _ _ hins
      simp only [fill] at hfill
      have hpw : wf (Node.NULL : Node α) ∧ pathWf path Color.BLACK 0 := by
        have := (fill_wf Node.NULL path).1 (by rw [hfill]; exact ⟨hw, hc⟩)
        simpa [colorOf, blackHeight] using this
      obtain ⟨t, ht, hwt, hct⟩ := fixingAlg_wf (Node.mk Color.RED Node.NULL x Node.NULL) path
        (by simp [wf, blackHeight, colorOf]) rfl (by simpa [blackHeight, blk] using hpw.2)
      have hl := fixingAlg_toList _ _ _ ht
      refine ⟨rfl, hcl, t, path, hins, by simp [insertToRBTree, insertRegular, hins, ht], ?_, ?_,
        hwt, hct⟩
      · rw [← hfill]; simp [toList]
      · rw [hl]; simp [toList]

end DeleteMain

/-! ## Preservation of validity -/

section Preservation

variable {cmp : α → α → Int}

theorem valid_iff (tree : RBTree α) :
    Valid cmp tree ↔
      (Ordered cmp tree.root ∧ wf tree.root ∧ colorOf tree.root = Color.BLACK) := by
  constructor
  · intro h
    exact ⟨h.ordered, (wf_iff _).2 ⟨h.noRedRed, h.sameBlackCount⟩, h.rootBlack⟩
  · rintro ⟨h1, h2, h3⟩
    exact ⟨h1, h3, ((wf_iff _).1 h2).1, ((wf_iff _).1 h2).2⟩

theorem pairwise_insert_mid {L R : List α} {x : α}
    (h : (L ++ R).Pairwise fun a b => cmp a b < 0) (hl : ∀ a ∈ L, cmp a x < 0)
    (hr : ∀ b ∈ R, cmp x b < 0) : (L ++ x :: R).Pairwise fun a b => cmp a b < 0 := by
  rw [List.pairwise_append] at h ⊢
  refine ⟨h.1, List.pairwise_cons.2 ⟨hr, h.2.1⟩, ?_⟩
  intro a ha b hb
  rcases List.mem_cons.1 hb with rfl | hb
  · exact hl a ha
  · exact h.2.2 a ha b hb

theorem pairwise_remove_mid {L R : List α} {d : α}
    (h : (L ++ d :: R).Pairwise fun a b => cmp a b < 0) :
    (L ++ R).Pairwise fun a b => cmp a b < 0 :=
  h.sublist (List.Sublist.append_left (List.sublist_cons_self d R) L)

/-- In an ordered sequence only the payload comparing equal to `x` does so. -/
theorem no_other_equal (hcmp : StrictTotalOrder cmp) {L R : List α} {d x : α}
    (h : (L ++ d :: R).Pairwise fun a b => cmp a b < 0) (hxd : cmp x d = 0) :
    ∀ z ∈ L ++ R, cmp x z ≠ 0 := by
  rw [List.pairwise_append] at h
  obtain ⟨-, h2, h3⟩ := h
  rw [List.pairwise_cons] at h2
  intro z hz
  rcases List.mem_append.1 hz with hz | hz
  · have h4 := hcmp.lt_le (h3 z hz d (List.mem_cons_self _ _)) (le_of_eq (hcmp.eq_flip hxd))
    have := (hcmp.flip z x).1 h4
    omega
  · have := hcmp.le_lt (le_of_eq hxd) (h2.1 z hz)
    omega

/-- The colour invariants, the BLACK root and the `size` count survive every
call of `insertToRBTree`, whatever the comparison function. -/
theorem insertToRBTree_inv (cmp : α → α → Int) (tree : RBTree α) (data : Option α)
    (mallocOk : Bool) (hw : wf tree.root) (hc : colorOf tree.root = Color.BLACK)
    (hs : tree.size = (toList tree.root).length) :
    ∃ r t2, insertToRBTree cmp tree data mallocOk = some (r, t2) ∧ wf t2.root ∧
      colorOf t2.root = Color.BLACK ∧ t2.size = (toList t2.root).length := by
  cases data with
  | none => exact ⟨_, _, rfl, hw, hc, hs⟩
  | some x =>
    rcases insertToRBTree_spec cmp tree x mallocOk hw hc with
      ⟨-, h⟩ | ⟨-, -, root2, path, -, h, h1, h2, h3, h4⟩
    · exact ⟨_, _, h, hw, hc, hs⟩
    · refine ⟨_, _, h, h3, h4, ?_⟩
      simp [h2, hs, h1]; omega

/-- The same for `deleteFromRBTree`. -/
theorem deleteFromRBTree_inv (cmp : α → α → Int) (tree : RBTree α) (data : Option α)
    (hw : wf tree.root) (hc : colorOf tree.root = Color.BLACK)
    (hs : tree.size = (toList tree.root).length) :
    ∃ r t2, deleteFromRBTree cmp tree data = some (r, t2) ∧ wf t2.root ∧
      colorOf t2.root = Color.BLACK ∧ t2.size = (toList t2.root).length := by
  cases data with
  | none => exact ⟨_, _, rfl, hw, hc, hs⟩
  | some x =>
    rcases deleteFromRBTree_spec cmp tree x hw hc with
      ⟨-, h⟩ | ⟨-, root2, d, L, R, h, -, h1, h2, h3, h4⟩
    · exact ⟨_, _, h, hw, hc, hs⟩
    · refine ⟨_, _, h, h3, h4, ?_⟩
      simp [h2, hs, h1]

/-- A valid tree stays valid under `insertToRBTree`. -/
theorem insertToRBTree_valid (hcmp : StrictTotalOrder cmp) (tree : RBTree α)
    (hv : Valid cmp tree) (data : Option α) (mallocOk : Bool) :
    ∃ r t2, insertToRBTree cmp tree data mallocOk = some (r, t2) ∧ Valid cmp t2 := by
  obtain ⟨ho, hw, hc⟩ := (valid_iff tree).1 hv
  cases data with
  | none => exact ⟨_, _, rfl, hv⟩
  | some x =>
    rcases insertToRBTree_spec cmp tree x mallocOk hw hc with
      ⟨-, h⟩ | ⟨-, -, root2, path, hp, h, h1, h2, h3, h4⟩
    · exact ⟨_, _, h, hv⟩
    · refine ⟨_, _, h, (valid_iff _).2 ⟨?_, h3, h4⟩⟩
      obtain ⟨-, hb, ha⟩ := insertRegularLoop_some hcmp x tree.root [] path hp ho
        (by simp [pathBefore]) (by simp [pathAfter])
      simp only [Ordered, h2]
      exact pairwise_insert_mid (by simpa [Ordered, h1] using ho) hb ha

/-- A valid tree stays valid under `deleteFromRBTree`. -/
theorem deleteFromRBTree_valid (tree : RBTree α) (hv : Valid cmp tree) (data : Option α) :
    ∃ r t2, deleteFromRBTree cmp tree data = some (r, t2) ∧ Valid cmp t2 := by
  obtain ⟨ho, hw, hc⟩ := (valid_iff tree).1 hv
  cases data with
  | none => exact ⟨_, _, rfl, hv⟩
  | some x =>
    rcases deleteFromRBTree_spec cmp tree x hw hc with
      ⟨-, h⟩ | ⟨-, root2, d, L, R, h, -, h1, h2, h3, h4⟩
    · exact ⟨_, _, h, hv⟩
    · refine ⟨_, _, h, (valid_iff _).2 ⟨?_, h3, h4⟩⟩
      simp only [Ordered, h2]
      exact pairwise_remove_mid (by simpa [Ordered, h1] using ho)

theorem newRBTree_valid : Valid cmp (newRBTree : RBTree α) :=
  (valid_iff _).2 ⟨by simp [Ordered, newRBTree, toList], trivial, rfl⟩

/-- Every sequence of calls runs to the end and keeps the tree valid. -/
theorem runOps_valid (hcmp : StrictTotalOrder cmp) (ops : List (Op α)) (tree : RBTree α)
    (hv : Valid cmp tree) : ∃ t, runOps cmp ops tree = some t ∧ Valid cmp t := by
  induction ops generalizing tree with
  | nil => exact ⟨tree, rfl, hv⟩
  | cons op ops ih =>
    cases op with
    | insert data mallocOk =>
      obtain ⟨r, t2, h, hv2⟩ := insertToRBTree_valid hcmp tree hv data mallocOk
      obtain ⟨t, ht, hvt⟩ := ih t2 hv2
      exact ⟨t, by simp [runOps, h, ht], hvt⟩
    | delete data =>
      obtain ⟨r, t2, h, hv2⟩ := deleteFromRBTree_valid tree hv data
      obtain ⟨t, ht, hvt⟩ := ih t2 hv2
      exact ⟨t, by simp [runOps, h, ht], hvt⟩

/-- Every sequence of calls runs to the end and keeps the colour invariants, the
BLACK root and the `size` count, whatever the comparison function. -/
theorem runOps_inv (cmp : α → α → Int) (ops : List (Op α)) (tree : RBTree α)
    (hw : wf tree.root) (hc : colorOf tree.root = Color.BLACK)
    (hs : tree.size = (toList tree.root).length) :
    ∃ t, runOps cmp ops tree = some t ∧ wf t.root ∧ colorOf t.root = Color.BLACK ∧
      t.size = (toList t.root).length := by
  induction ops generalizing tree with
  | nil => exact ⟨tree, rfl, hw, hc, hs⟩
  | cons op ops ih =>
    cases op with
    | insert data mallocOk =>
      obtain ⟨r, t2, h, h1, h2, h3⟩ := insertToRBTree_inv cmp tree data mallocOk hw hc hs
      obtain ⟨t, ht, hvt⟩ := ih t2 h1 h2 h3
      exact ⟨t, by simp [runOps, h, ht], hvt⟩
    | delete data =>
      obtain ⟨r, t2, h, h1, h2, h3⟩ := deleteFromRBTree_inv cmp tree data hw hc hs
      obtain ⟨t, ht, hvt⟩ := ih t2 h1 h2 h3
      exact ⟨t, by simp [runOps, h, ht], hvt⟩

end Preservation

/-! ## The claims -/

section Claims

variable {cmp : α → α → Int}

theorem sampleTree_valid : Valid intCmp sampleTree := by
  refine ⟨?_, rfl, ?_, ?_⟩
  · simp [Ordered, sampleTree, toList, intCmp]
  · simp [sampleTree, noRedRed, colorOf]
  · simp [sampleTree, sameBlackCount, blackCounts, blk]

/-- C1: after any finite sequence of `insertToRBTree` and `deleteFromRBTree`
calls on the empty tree, `compFunc` being a strict total order, every call has
returned and the in-order traversal of the stored payloads is strictly
increasing; in particular no two stored payloads compare equal. -/
theorem inorder_strictly_increasing (cmp : α → α → Int) (hcmp : StrictTotalOrder cmp)
    (ops : List (Op α)) :
    ∃ t, runOps cmp ops newRBTree = some t ∧ Ordered cmp t.root ∧
      (toList t.root).Pairwise fun a b => cmp a b ≠ 0 := by
  obtain ⟨t, ht, hv⟩ := runOps_valid hcmp ops newRBTree newRBTree_valid
  refine ⟨t, ht, hv.ordered, ?_⟩
  exact List.Pairwise.imp (fun h => by omega) hv.ordered

theorem inorder_strictly_increasing_witness :
    StrictTotalOrder intCmp ∧
    ∃ t, runOps intCmp [Op.insert (some 5) true, Op.insert (some 3) true,
        Op.insert (some 8) true, Op.insert (some 3) true, Op.delete (some 5),
        Op.insert none true, Op.insert (some 4) false, Op.delete (some 7)] newRBTree = some t ∧
      Ordered intCmp t.root ∧ (toList t.root).Pairwise fun a b => intCmp a b ≠ 0 :=
  ⟨intCmp_strictTotalOrder, inorder_strictly_increasing intCmp intCmp_strictTotalOrder _⟩

/-- C2: `deleteFromRBTree` preserves the colour invariants.  On a tree with a
BLACK root, no RED node with a RED child and the same number of BLACK nodes on
every root-to-nil path, the call returns for every payload (in each of its
cases, the `blackMAndC` fix-up included) and the tree afterwards again has no
RED node with a RED child and the same number of BLACK nodes on every
root-to-nil path.  The order of the payloads is not needed. -/
theorem delete_preserves_colour_invariants (cmp : α → α → Int) (tree : RBTree α)
    (data : Option α) (hroot : colorOf tree.root = Color.BLACK) (hred : noRedRed tree.root)
    (hblack : sameBlackCount tree.root) :
    ∃ r t2, deleteFromRBTree cmp tree data = some (r, t2) ∧ noRedRed t2.root ∧
      sameBlackCount t2.root := by
  obtain ⟨r, t2, h, hw, -, -⟩ : ∃ r t2, deleteFromRBTree cmp tree data = some (r, t2) ∧
      wf t2.root ∧ colorOf t2.root = Color.BLACK ∧ True := by
    cases data with
    | none => exact ⟨_, _, rfl, (wf_iff _).2 ⟨hred, hblack⟩, hroot, trivial⟩
    | some x =>
      rcases deleteFromRBTree_spec cmp tree x ((wf_iff _).2 ⟨hred, hblack⟩) hroot with
        ⟨-, h⟩ | ⟨-, root2, d, L, R, h, -, -, -, h3, h4⟩
      · exact ⟨_, _, h, (wf_iff _).2 ⟨hred, hblack⟩, hroot, trivial⟩
      · exact ⟨_, _, h, h3, h4, trivial⟩
  exact ⟨r, t2, h, (wf_iff _).1 hw⟩

theorem delete_preserves_colour_invariants_witness :
    colorOf sampleTree.root = Color.BLACK ∧ noRedRed sampleTree.root ∧
    sameBlackCount sampleTree.root ∧
    ∃ r t2, deleteFromRBTree intCmp sampleTree (some 3) = some (r, t2) ∧ noRedRed t2.root ∧
      sameBlackCount t2.root :=
  ⟨sampleTree_valid.rootBlack, sampleTree_valid.noRedRed, sampleTree_valid.sameBlackCount,
    delete_preserves_colour_invariants intCmp sampleTree (some 3) sampleTree_valid.rootBlack
      sampleTree_valid.noRedRed sampleTree_valid.sameBlackCount⟩

/-- C3: `insertToRBTree` preserves the colour invariants.  On a tree with a
BLACK root (or empty), no RED node with a RED child and the same number of
BLACK nodes on every root-to-nil path, the call returns for every payload and
every outcome of the node allocation, and the tree afterwards (the new RED leaf
followed by `fixingAlg`) again has no RED node with a RED child and the same
number of BLACK nodes on every root-to-nil path.  The order of the payloads is
not needed. -/
theorem insert_preserves_colour_invariants (cmp : α → α → Int) (tree : RBTree α)
    (data : Option α) (mallocOk : Bool) (hroot : colorOf tree.root = Color.BLACK)
    (hred : noRedRed tree.root) (hblack : sameBlackCount tree.root) :
    ∃ r t2, insertToRBTree cmp tree data mallocOk = some (r, t2) ∧ noRedRed t2.root ∧
      sameBlackCount t2.root := by
  obtain ⟨r, t2, h, hw, -, -⟩ : ∃ r t2, insertToRBTree cmp tree data mallocOk = some (r, t2) ∧
      wf t2.root ∧ colorOf t2.root = Color.BLACK ∧ True := by
    cases data with
    | none => exact ⟨_, _, rfl, (wf_iff _).2 ⟨hred, hblack⟩, hroot, trivial⟩
    | some x =>
      rcases insertToRBTree_spec cmp tree x mallocOk ((wf_iff _).2 ⟨hred, hblack⟩) hroot with
        ⟨-, h⟩ | ⟨-, -, root2, path, -, h, -, -, h3, h4⟩
      · exact ⟨_, _, h, (wf_iff _).2 ⟨hred, hblack⟩, hroot, trivial⟩
      · exact ⟨_, _, h, h3, h4, trivial⟩
  exact ⟨r, t2, h, (wf_iff _).1 hw⟩

theorem insert_preserves_colour_invariants_witness :
    colorOf sampleTree.root = Color.BLACK ∧ noRedRed sampleTree.root ∧
    sameBlackCount sampleTree.root ∧
    ∃ r t2, insertToRBTree intCmp sampleTree (some 2) true = some (r, t2) ∧ noRedRed t2.root ∧
      sameBlackCount t2.root :=
  ⟨sampleTree_valid.rootBlack, sampleTree_valid.noRedRed, sampleTree_valid.sameBlackCount,
    insert_preserves_colour_invariants intCmp sampleTree (some 2) true
      sampleTree_valid.rootBlack sampleTree_valid.noRedRed sampleTree_valid.sameBlackCount⟩

/-- C4: a successful `deleteFromRBTree(tree, x)` removes exactly the stored
payload that compares equal to `x`.  On a valid red-black tree holding a payload
equal to `x` the call returns success, and the in-order sequence afterwards is
the sequence before with that one payload `y` taken out, everything else kept in
order (also when the payload was first swapped with the successor's); no payload
left compares equal to `x`. -/
theorem delete_removes_exactly (cmp : α → α → Int) (hcmp : StrictTotalOrder cmp)
    (tree : RBTree α) (hv : Valid cmp tree) (x : α)
    (hx : ∃ y ∈ toList tree.root, cmp x y = 0) :
    ∃ t2 L y R, deleteFromRBTree cmp tree (some x) = some (FunctionReturn.SUCCESS, t2) ∧
      cmp x y = 0 ∧ toList tree.root = L ++ y :: R ∧ toList t2.root = L ++ R ∧
      ∀ z ∈ L ++ R, cmp x z ≠ 0 := by
  obtain ⟨ho, hw, hc⟩ := (valid_iff tree).1 hv
  rcases deleteFromRBTree_spec cmp tree x hw hc with
    ⟨hn, -⟩ | ⟨-, root2, d, L, R, h, hxd, h1, h2, -, -⟩
  · have := (containsLoop_iff hcmp x tree.root ho).2 hx
    rw [hn] at this
    cases this
  · refine ⟨_, L, d, R, h, hxd, h1, h2, ?_⟩
    exact no_other_equal hcmp (by simpa [Ordered, h1] using ho) hxd

theorem delete_removes_exactly_witness :
    StrictTotalOrder intCmp ∧ Valid intCmp sampleTree ∧
    (∃ y ∈ toList sampleTree.root, intCmp 3 y = 0) ∧
    ∃ t2 L y R, deleteFromRBTree intCmp sampleTree (some 3) =
        some (FunctionReturn.SUCCESS, t2) ∧
      intCmp 3 y = 0 ∧ toList sampleTree.root = L ++ y :: R ∧ toList t2.root = L ++ R ∧
      ∀ z ∈ L ++ R, intCmp 3 z ≠ 0 :=
  ⟨intCmp_strictTotalOrder, sampleTree_valid, ⟨3, by simp [sampleTree, toList], rfl⟩,
    delete_removes_exactly intCmp intCmp_strictTotalOrder sampleTree sampleTree_valid 3
      ⟨3, by simp [sampleTree, toList], rfl⟩⟩

/-- C5, as amended: on a valid red-black tree and a non-null payload `x`,
`insertToRBTree` returns, and it reports success if and only if the allocation
of the new node succeeds and no stored payload compares equal to `x`; on success
the in-order sequence afterwards is the sequence before with `x` put in at its
sorted position, every earlier payload kept and nothing else added. -/
theorem insert_succeeds_iff (cmp : α → α → Int) (hcmp : StrictTotalOrder cmp)
    (tree : RBTree α) (hv : Valid cmp tree) (x : α) (mallocOk : Bool) :
    ∃ r t2, insertToRBTree cmp tree (some x) mallocOk = some (r, t2) ∧
      (r = FunctionReturn.SUCCESS ↔
        (mallocOk = true ∧ ¬ ∃ y ∈ toList tree.root, cmp x y = 0)) ∧
      (r = FunctionReturn.SUCCESS → ∃ L R, toList tree.root = L ++ R ∧
        toList t2.root = L ++ x :: R ∧ (∀ a ∈ L, cmp a x < 0) ∧ ∀ b ∈ R, cmp x b < 0) := by
  obtain ⟨ho, hw, hc⟩ := (valid_iff tree).1 hv
  have hiff := containsLoop_iff hcmp x tree.root ho
  rcases insertToRBTree_spec cmp tree x mallocOk hw hc with
    ⟨hcause, h⟩ | ⟨hm, hn, root2, path, hp, h, h1, h2, -, -⟩
  · refine ⟨_, _, h, ?_, ?_⟩
    · constructor
      · intro hr; cases hr
      · rintro ⟨hm, hno⟩
        rcases hcause with hcause | hcause
        · rw [hm] at hcause; cases hcause
        · exact absurd (hiff.1 hcause) hno
    · intro hr; cases hr
  · refine ⟨_, _, h, ?_, ?_⟩
    · refine ⟨fun _ => ⟨hm, ?_⟩, fun _ => rfl⟩
      intro hex
      rw [hiff.2 hex] at hn
      cases hn
    · intro _
      obtain ⟨-, hb, ha⟩ := insertRegularLoop_some hcmp x tree.root [] path hp ho
        (by simp [pathBefore]) (by simp [pathAfter])
      exact ⟨pathBefore path, pathAfter path, h1, h2, hb, ha⟩

theorem insert_succeeds_iff_witness :
    StrictTotalOrder intCmp ∧ Valid intCmp sampleTree ∧
    ∃ r t2, insertToRBTree intCmp sampleTree (some 6) true = some (r, t2) ∧
      (r = FunctionReturn.SUCCESS ↔
        (true = true ∧ ¬ ∃ y ∈ toList sampleTree.root, intCmp 6 y = 0)) ∧
      (r = FunctionReturn.SUCCESS → ∃ L R, toList sampleTree.root = L ++ R ∧
        toList t2.root = L ++ 6 :: R ∧ (∀ a ∈ L, intCmp a 6 < 0) ∧ ∀ b ∈ R, intCmp 6 b < 0) :=
  ⟨intCmp_strictTotalOrder, sampleTree_valid,
    insert_succeeds_iff intCmp intCmp_strictTotalOrder sampleTree sampleTree_valid 6 true⟩

/-- C5 as stated fails when the allocation of the new node fails: on the empty
tree no stored payload compares equal to `1`, yet the call does not succeed. -/
theorem insert_succeeds_iff_counterexample :
    Valid intCmp (newRBTree : RBTree Int) ∧
    ¬ ((∃ t2, insertToRBTree intCmp (newRBTree : RBTree Int) (some 1) false =
          some (FunctionReturn.SUCCESS, t2)) ↔
        ¬ ∃ y ∈ toList (newRBTree : RBTree Int).root, intCmp 1 y = 0) := by
  refine ⟨newRBTree_valid, ?_⟩
  simp [insertToRBTree, newRBTree, toList]

/-- C6: on a tree ordered under `compFunc`, a strict total order, and for a
non-null payload `x`, `RBTreeContains(tree, x)` returns true if and only if some
stored payload compares equal to `x`. -/
theorem contains_iff_stored (cmp : α → α → Int) (hcmp : StrictTotalOrder cmp)
    (tree : RBTree α) (ho : Ordered cmp tree.root) (x : α) :
    RBTreeContains cmp tree (some x) = true ↔ ∃ y ∈ toList tree.root, cmp x y = 0 :=
  containsLoop_iff hcmp x tree.root ho

theorem contains_iff_stored_witness :
    StrictTotalOrder intCmp ∧ Ordered intCmp sampleTree.root ∧
    (RBTreeContains intCmp sampleTree (some 4) = true ↔
      ∃ y ∈ toList sampleTree.root, intCmp 4 y = 0) :=
  ⟨intCmp_strictTotalOrder, sampleTree_valid.ordered,
    contains_iff_stored intCmp intCmp_strictTotalOrder sampleTree sampleTree_valid.ordered 4⟩

theorem toList_eq_nil (t : Node α) : toList t = [] ↔ t = Node.NULL := by
  cases t <;> simp [toList]

/-- C7: after any sequence of `insertToRBTree` and `deleteFromRBTree` calls on
the empty tree, successful or failed, every call has returned and the `size`
field equals the number of payloads in the in-order traversal; in particular
`size` is 0 exactly when the root is absent.  No property of the comparison
function is needed. -/
theorem size_eq_count (cmp : α → α → Int) (ops : List (Op α)) :
    ∃ t, runOps cmp ops newRBTree = some t ∧ t.size = (toList t.root).length ∧
      (t.size = 0 ↔ t.root = Node.NULL) := by
  obtain ⟨t, ht, -, -, hs⟩ := runOps_inv cmp ops newRBTree trivial rfl rfl
  refine ⟨t, ht, hs, ?_⟩
  rw [hs, List.length_eq_zero, toList_eq_nil]

/-- C9: on a valid red-black tree and a non-null payload `x`,
`deleteFromRBTree(tree, x)` returns, and afterwards `RBTreeContains(tree, x)`
returns false. -/
theorem delete_then_contains (cmp : α → α → Int) (hcmp : StrictTotalOrder cmp)
    (tree : RBTree α) (hv : Valid cmp tree) (x : α) :
    ∃ r t2, deleteFromRBTree cmp tree (some x) = some (r, t2) ∧
      RBTreeContains cmp t2 (some x) = false := by
  obtain ⟨ho, hw, hc⟩ := (valid_iff tree).1 hv
  obtain ⟨r, t2, h, hv2⟩ := deleteFromRBTree_valid tree hv (some x)
  refine ⟨r, t2, h, ?_⟩
  rcases deleteFromRBTree_spec cmp tree x hw hc with
    ⟨hn, h'⟩ | ⟨-, root2, d, L, R, h', hxd, h1, h2, -, -⟩
  · rw [h'] at h
    cases h
    exact hn
  · rw [h'] at h
    cases h
    have hno := no_other_equal hcmp (by simpa [Ordered, h1] using ho) hxd
    cases hcl : RBTreeContains cmp
        { root := root2, size := tree.size - 1, freed := tree.freed ++ [d] } (some x) with
    | false => rfl
    | true =>
      obtain ⟨z, hz, hxz⟩ := (containsLoop_iff hcmp x _ hv2.ordered).1 hcl
      simp only [h2] at hz
      exact absurd hxz (hno z hz)

theorem delete_then_contains_witness :
    StrictTotalOrder intCmp ∧ Valid intCmp sampleTree ∧
    ∃ r t2, deleteFromRBTree intCmp sampleTree (some 5) = some (r, t2) ∧
      RBTreeContains intCmp t2 (some 5) = false :=
  ⟨intCmp_strictTotalOrder, sampleTree_valid,
    delete_then_contains intCmp intCmp_strictTotalOrder sampleTree sampleTree_valid 5⟩

/-- C10: duplicate rejection is atomic.  On a tree ordered under `compFunc`, a
strict total order, and for a payload `x` that compares equal to a stored
payload, `insertToRBTree(tree, x)` reports failure and leaves the whole tree
(structure, colours, payloads, root), `size` and the record of disposed payloads
exactly as they were, whatever the outcome of the node allocation. -/
theorem duplicate_insert_rejected (cmp : α → α → Int) (hcmp : StrictTotalOrder cmp)
    (tree : RBTree α) (ho : Ordered cmp tree.root) (x : α)
    (hx : ∃ y ∈ toList tree.root, cmp x y = 0) (mallocOk : Bool) :
    insertToRBTree cmp tree (some x) mallocOk = some (FunctionReturn.FAIL, tree) := by
  have hnone := (insertRegularLoop_none_iff cmp x tree.root []).2
    ((containsLoop_iff hcmp x tree.root ho).2 hx)
  cases mallocOk <;> simp [insertToRBTree, insertRegular, hnone]

theorem duplicate_insert_rejected_witness :
    StrictTotalOrder intCmp ∧ Ordered intCmp sampleTree.root ∧
    (∃ y ∈ toList sampleTree.root, intCmp 8 y = 0) ∧
    insertToRBTree intCmp sampleTree (some 8) true = some (FunctionReturn.FAIL, sampleTree) :=
  ⟨intCmp_strictTotalOrder, sampleTree_valid.ordered, ⟨8, by simp [sampleTree, toList], rfl⟩,
    duplicate_insert_rejected intCmp intCmp_strictTotalOrder sampleTree
      sampleTree_valid.ordered 8 ⟨8, by simp [sampleTree, toList], rfl⟩ true⟩

end Claims

section Claims2

variable {cmp : α → α → Int}

/-- A successful descent has met a payload comparing equal to `x`. -/
theorem containsLoop_sound (cmp : α → α → Int) (x : α) (t : Node α)
    (h : containsLoop cmp x t = true) : ∃ y ∈ toList t, cmp x y = 0 := by
  induction t with
  | NULL => simp [containsLoop] at h
  | mk c l d r ihl ihr =>
    simp only [containsLoop] at h
    simp only [toList, List.mem_append, List.mem_cons]
    cases hw : whereToGo (cmp x d) with
    | ROOT => exact ⟨d, Or.inr (Or.inl rfl), whereToGo_root.1 hw⟩
    | RIGHT =>
      rw [hw] at h
      obtain ⟨y, hy, hxy⟩ := ihr h
      exact ⟨y, Or.inr (Or.inr hy), hxy⟩
    | LEFT =>
      rw [hw] at h
      obtain ⟨y, hy, hxy⟩ := ihl h
      exact ⟨y, Or.inl hy, hxy⟩

/-- C11: deleting an absent payload is atomic.  When `x` compares equal to no
stored payload, `deleteFromRBTree(tree, x)` reports failure and leaves the whole
tree (structure, colours, payloads, root), `size` and the record of disposed
payloads exactly as they were.  Neither the order of the tree nor any property
of the comparison function is needed. -/
theorem delete_absent_atomic (cmp : α → α → Int) (tree : RBTree α) (x : α)
    (hx : ∀ y ∈ toList tree.root, cmp x y ≠ 0) :
    deleteFromRBTree cmp tree (some x) = some (FunctionReturn.FAIL, tree) := by
  have hnone : findNode cmp x tree.root [] = none := by
    rw [findNode_none_iff]
    cases hc : containsLoop cmp x tree.root with
    | false => rfl
    | true =>
      obtain ⟨y, hy, hxy⟩ := containsLoop_sound cmp x tree.root hc
      exact absurd hxy (hx y hy)
  simp [deleteFromRBTree, hnone]

theorem delete_absent_atomic_witness :
    (∀ y ∈ toList sampleTree.root, intCmp 6 y ≠ 0) ∧
    deleteFromRBTree intCmp sampleTree (some 6) = some (FunctionReturn.FAIL, sampleTree) :=
  ⟨by simp [sampleTree, toList, intCmp],
    delete_absent_atomic intCmp sampleTree 6 (by simp [sampleTree, toList, intCmp])⟩

end Claims2

section Claims3

variable {σ : Type}

theorem visitInOrder_append (func : α → σ → Int × σ) (xs ys : List α) (args : σ)
    (calls : List (α × Int)) :
    visitInOrder func (xs ++ ys) args calls =
      match visitInOrder func xs args calls with
      | (FunctionReturn.FAIL, args1, calls1) => (FunctionReturn.FAIL, args1, calls1)
      | (FunctionReturn.SUCCESS, args1, calls1) => visitInOrder func ys args1 calls1 := by
  induction xs generalizing args calls with
  | nil => simp [visitInOrder]
  | cons x xs ih =>
    simp only [List.cons_append, visitInOrder]
    split_ifs with h
    · rfl
    · exact ih _ _

/-- The recursion of `forEachHelper` is the fold over the in-order sequence. -/
theorem forEachHelper_eq (func : α → σ → Int × σ) (t : Node α) (args : σ)
    (calls : List (α × Int)) :
    forEachHelper func t args calls = visitInOrder func (toList t) args calls := by
  induction t generalizing args calls with
  | NULL => simp [forEachHelper, toList, visitInOrder]
  | mk c l d r ihl ihr =>
    simp only [forEachHelper, toList, visitInOrder_append, ihl]
    rcases hres : visitInOrder func (toList l) args calls with ⟨res, args1, calls1⟩
    cases res with
    | FAIL => rfl
    | SUCCESS =>
      simp only [visitInOrder]
      split_ifs with h
      · rfl
      · exact ihr _ _

/-- What the fold records: the payloads passed are a prefix of the sequence, a
success means every call succeeded and the whole sequence was passed, a failure
means the last call recorded is the first that failed. -/
theorem visitInOrder_calls (func : α → σ → Int × σ) (xs : List α) (args : σ)
    (calls : List (α × Int)) :
    ∃ new, (visitInOrder func xs args calls).2.2 = calls ++ new ∧
      new.map Prod.fst = xs.take new.length ∧
      ((visitInOrder func xs args calls).1 = FunctionReturn.SUCCESS →
        new.map Prod.fst = xs ∧ ∀ e ∈ new, e.2 ≠ 0) ∧
      ((visitInOrder func xs args calls).1 = FunctionReturn.FAIL →
        ∃ init e, new = init ++ [e] ∧ e.2 = 0 ∧ ∀ e2 ∈ init, e2.2 ≠ 0) := by
  induction xs generalizing args calls with
  | nil => exact ⟨[], by simp [visitInOrder]⟩
  | cons x xs ih =>
    simp only [visitInOrder]
    split_ifs with h
    · refine ⟨[(x, (func x args).1)], rfl, by simp, ?_, ?_⟩
      · intro hc; cases hc
      · intro _; exact ⟨[], _, rfl, h, by simp⟩
    · obtain ⟨new, h1, h2, h3, h4⟩ := ih (func x args).2 (calls ++ [(x, (func x args).1)])
      refine ⟨(x, (func x args).1) :: new, by simp [h1], by simp [h2], ?_, ?_⟩
      · intro hs
        obtain ⟨h5, h6⟩ := h3 hs
        refine ⟨by simp [h5], ?_⟩
        intro e he
        rcases List.mem_cons.1 he with rfl | he
        · exact h
        · exact h6 e he
      · intro hf
        obtain ⟨init, e, h5, h6, h7⟩ := h4 hf
        refine ⟨(x, (func x args).1) :: init, e, by simp [h5], h6, ?_⟩
        intro e2 he
        rcases List.mem_cons.1 he with rfl | he
        · exact h
        · exact h7 e2 he

/-- C12: `forEachRBTree` is an in-order fold with short-circuit.  For every tree,
visitor and `args`, the run equals the fold of the visitor over the in-order
sequence of the payloads, stopping at the first call that reports failure.  The
payloads passed to the visitor are the first k of the in-order sequence, k being
the number of calls made; the result is success iff no call failed, and then
every payload was passed exactly once; and on failure the last call made is the
first that failed, the k-1 calls before it having succeeded, and no payload
after the k-th is passed. -/
theorem forEach_inorder_short_circuit (tree : RBTree α) (func : α → σ → Int × σ) (args : σ) :
    forEachRBTree (some tree) func args = visitInOrder func (toList tree.root) args [] ∧
    ∃ r s calls, forEachRBTree (some tree) func args = (r, s, calls) ∧
      calls.map Prod.fst = (toList tree.root).take calls.length ∧
      (r = FunctionReturn.SUCCESS ↔ ∀ e ∈ calls, e.2 ≠ 0) ∧
      (r = FunctionReturn.SUCCESS → calls.map Prod.fst = toList tree.root) ∧
      (r = FunctionReturn.FAIL →
        ∃ init e, calls = init ++ [e] ∧ e.2 = 0 ∧ ∀ e2 ∈ init, e2.2 ≠ 0) := by
  have heq : forEachRBTree (some tree) func args =
      visitInOrder func (toList tree.root) args [] := forEachHelper_eq func tree.root args []
  refine ⟨heq, ?_⟩
  obtain ⟨new, h1, h2, h3, h4⟩ := visitInOrder_calls func (toList tree.root) args []
  rw [heq]
  rcases hres : visitInOrder func (toList tree.root) args [] with ⟨r, s, calls⟩
  rw [hres] at h1 h3 h4
  simp only [List.nil_append] at h1
  subst h1
  refine ⟨r, s, calls, rfl, h2, ⟨fun hr => (h3 hr).2, ?_⟩, fun hr => (h3 hr).1, h4⟩
  intro hall
  cases r with
  | SUCCESS => rfl
  | FAIL =>
    obtain ⟨init, e, h5, h6, -⟩ := h4 rfl
    exact absurd h6 (hall e (by simp [h5]))

end Claims3

section Claims4

/-- The teardown recursion appends the post-order sequence to the log. -/
theorem freeHelper_eq (t : Node α) (log : List α) : freeHelper t log = log ++ postOrder t := by
  induction t generalizing log with
  | NULL => simp [freeHelper, postOrder]
  | mk c l d r ihl ihr => simp [freeHelper, postOrder, ihl, ihr]

theorem postOrder_perm (t : Node α) : (postOrder t).Perm (toList t) := by
  induction t with
  | NULL => simp [postOrder, toList]
  | mk c l d r ihl ihr =>
    simp only [postOrder, toList]
    have h1 : (postOrder l ++ postOrder r ++ [d]).Perm (postOrder l ++ (d :: postOrder r)) := by
      rw [List.append_assoc]
      exact List.Perm.append_left _ (List.perm_append_singleton d (postOrder r))
    exact h1.trans (List.Perm.append ihl (List.Perm.cons d ihr))

/-- An insertion never calls `freeFunc`. -/
theorem insertToRBTree_freed (cmp : α → α → Int) (tree : RBTree α) (data : Option α)
    (mallocOk : Bool) (r : FunctionReturn) (t2 : RBTree α)
    (h : insertToRBTree cmp tree data mallocOk = some (r, t2)) : t2.freed = tree.freed := by
  unfold insertToRBTree at h
  split at h
  · cases h; rfl
  · split_ifs at h
    · cases h; rfl
    · split at h
      · cases h; rfl
      · simp only [Option.map_eq_some'] at h
        obtain ⟨root, -, h⟩ := h
        cases h; rfl

/-- C13: the disposal function is invoked exactly once per payload, when it
leaves the tree.  With the calls of `freeFunc` recorded as a log: on a tree
satisfying the colour invariants with a BLACK root, `deleteFromRBTree` returns,
a successful call appends exactly one entry, a stored payload that compares equal
to the argument (also after the swap with the successor), and a failed call
appends nothing; `insertToRBTree` appends nothing, whatever its outcome;
`freeRBTree` passes to `freeFunc` the payloads still stored in post-order
(children before their parent), each exactly once, and leaves the tree
reference empty; a second `freeRBTree` on that reference passes nothing. -/
theorem dispose_once (cmp : α → α → Int) (tree : RBTree α)
    (hroot : colorOf tree.root = Color.BLACK) (hred : noRedRed tree.root)
    (hblack : sameBlackCount tree.root) :
    (∀ data, ∃ r t2, deleteFromRBTree cmp tree data = some (r, t2) ∧
      (r = FunctionReturn.SUCCESS →
        ∃ x y, data = some x ∧ y ∈ toList tree.root ∧ cmp x y = 0 ∧
          t2.freed = tree.freed ++ [y]) ∧
      (r = FunctionReturn.FAIL → t2.freed = tree.freed)) ∧
    (∀ data mallocOk r t2, insertToRBTree cmp tree data mallocOk = some (r, t2) →
      t2.freed = tree.freed) ∧
    freeRBTree (some tree) = (none, postOrder tree.root) ∧
    (postOrder tree.root).Perm (toList tree.root) ∧
    (∀ log, freeHelper tree.root log = log ++ postOrder tree.root) ∧
    freeRBTree (freeRBTree (some tree)).1 = (none, []) := by
  refine ⟨?_, insertToRBTree_freed cmp tree, ?_, postOrder_perm _, freeHelper_eq _, rfl⟩
  · intro data
    cases data with
    | none =>
      refine ⟨FunctionReturn.FAIL, tree, rfl, ?_, fun _ => rfl⟩
      intro h; cases h
    | some x =>
      rcases deleteFromRBTree_spec cmp tree x ((wf_iff _).2 ⟨hred, hblack⟩) hroot with
        ⟨-, h⟩ | ⟨-, root2, d, L, R, h, hxd, h1, -, -, -⟩
      · refine ⟨_, _, h, ?_, fun _ => rfl⟩
        intro h; cases h
      · refine ⟨_, _, h, ?_, ?_⟩
        · intro _
          exact ⟨x, d, rfl, by simp [h1], hxd, rfl⟩
        · intro h; cases h
  · simp [freeRBTree, freeHelper_eq]

theorem dispose_once_witness :
    colorOf sampleTree.root = Color.BLACK ∧ noRedRed sampleTree.root ∧
    sameBlackCount sampleTree.root ∧
    ((∀ data, ∃ r t2, deleteFromRBTree intCmp sampleTree data = some (r, t2) ∧
      (r = FunctionReturn.SUCCESS →
        ∃ x y, data = some x ∧ y ∈ toList sampleTree.root ∧ intCmp x y = 0 ∧
          t2.freed = sampleTree.freed ++ [y]) ∧
      (r = FunctionReturn.FAIL → t2.freed = sampleTree.freed)) ∧
    (∀ data mallocOk r t2, insertToRBTree intCmp sampleTree data mallocOk = some (r, t2) →
      t2.freed = sampleTree.freed) ∧
    freeRBTree (some sampleTree) = (none, postOrder sampleTree.root) ∧
    (postOrder sampleTree.root).Perm (toList sampleTree.root) ∧
    (∀ log, freeHelper sampleTree.root log = log ++ postOrder sampleTree.root) ∧
    freeRBTree (freeRBTree (some sampleTree)).1 = (none, [])) :=
  ⟨sampleTree_valid.rootBlack, sampleTree_valid.noRedRed, sampleTree_valid.sameBlackCount,
    dispose_once intCmp sampleTree sampleTree_valid.rootBlack sampleTree_valid.noRedRed
      sampleTree_valid.sameBlackCount⟩

end Claims4

section Claims5

theorem numNodes_eq_length (t : Node α) : numNodes t = (toList t).length := by
  induction t with
  | NULL => rfl
  | mk c l d r ihl ihr => simp [numNodes, toList, ihl, ihr]; omega

/-- A tree satisfying the colour invariants has at least `2 ^ blackHeight - 1`
nodes. -/
theorem pow_blackHeight_le (t : Node α) (h : wf t) : 2 ^ blackHeight t ≤ numNodes t + 1 := by
  induction t with
  | NULL => simp [blackHeight, numNodes]
  | mk c l d r ihl ihr =>
    simp only [wf] at h
    have h1 := ihl h.1
    have h2 := ihr h.2.1
    rw [← h.2.2.1] at h2
    simp only [blackHeight, numNodes]
    cases c with
    | RED => simp only [blk, Nat.add_zero]; omega
    | BLACK => simp only [blk, pow_succ]; omega

/-- In a tree satisfying the colour invariants the height is at most twice the
BLACK height, plus one under a RED root. -/
theorem height_le (t : Node α) (h : wf t) :
    height t + blk (colorOf t) ≤ 2 * blackHeight t + 1 := by
  induction t with
  | NULL => simp [height, blackHeight, colorOf, blk]
  | mk c l d r ihl ihr =>
    simp only [wf] at h
    have h1 := ihl h.1
    have h2 := ihr h.2.1
    rw [← h.2.2.1] at h2
    simp only [height, blackHeight, colorOf]
    cases c with
    | RED =>
      obtain ⟨h3, h4⟩ := h.2.2.2 rfl
      rw [h3] at h1
      rw [h4] at h2
      simp only [blk] at h1 h2 ⊢
      omega
    | BLACK =>
      have := Nat.zero_le (blk (colorOf l))
      have := Nat.zero_le (blk (colorOf r))
      simp only [blk] at h1 h2 ⊢
      omega

theorem insertRegularLoop_length (cmp : α → α → Int) (x : α) (t : Node α) (path p : Path α)
    (h : insertRegularLoop cmp x t path = some p) : p.length ≤ path.length + height t := by
  induction t generalizing path with
  | NULL => simp only [insertRegularLoop, Option.some.injEq] at h; subst h; simp
  | mk c l d r ihl ihr =>
    simp only [insertRegularLoop] at h
    cases hw : whereToGo (cmp x d) with
    | ROOT => simp [hw] at h
    | RIGHT =>
      simp only [hw] at h
      have := ihr _ h
      simp only [List.length_cons, height] at this ⊢
      omega
    | LEFT =>
      simp only [hw] at h
      have := ihl _ h
      simp only [List.length_cons, height] at this ⊢
      omega

theorem findNode_length (cmp : α → α → Int) (x : α) (t : Node α) (path : Path α) (M : Node α)
    (p : Path α) (h : findNode cmp x t path = some (M, p)) :
    p.length < path.length + height t := by
  induction t generalizing path with
  | NULL => simp [findNode] at h
  | mk c l d r ihl ihr =>
    simp only [findNode] at h
    cases hw : whereToGo (cmp x d) with
    | ROOT =>
      simp only [hw, Option.some.injEq, Prod.mk.injEq] at h
      obtain ⟨-, rfl⟩ := h
      simp only [height]; omega
    | RIGHT =>
      simp only [hw] at h
      have := ihr _ h
      simp only [List.length_cons, height] at this ⊢
      omega
    | LEFT =>
      simp only [hw] at h
      have := ihl _ h
      simp only [List.length_cons, height] at this ⊢
      omega

theorem containsVisits_le (cmp : α → α → Int) (x : α) (t : Node α) :
    containsVisits cmp x t ≤ height t := by
  induction t with
  | NULL => simp [containsVisits, height]
  | mk c l d r ihl ihr =>
    simp only [containsVisits, height]
    cases whereToGo (cmp x d) <;> simp only <;> omega

/-- C14: logarithmic height.  After any sequence of `insertToRBTree` and
`deleteFromRBTree` calls on the empty tree, every call has returned and the tree,
holding n = `size` payloads, has height (nodes on the longest root-to-nil path)
at most 2*log2(n+1): the height is at most twice the integer part of
log2(n+1), equivalently 2^height is at most (n+1)^2.  Hence the descent of
`RBTreeContains` compares at most that many nodes, the node linked by
`insertRegular` has at most that many ancestors, and the node returned by
`findNode` fewer; the recursions of `forEachHelper` and `freeHelper` follow the
structure of the tree, so their depth is its height. -/
theorem height_logarithmic (cmp : α → α → Int) (ops : List (Op α)) :
    ∃ t, runOps cmp ops newRBTree = some t ∧ t.size = (toList t.root).length ∧
      height t.root ≤ 2 * Nat.log 2 (t.size + 1) ∧
      2 ^ height t.root ≤ (t.size + 1) ^ 2 ∧
      (∀ x, containsVisits cmp x t.root ≤ 2 * Nat.log 2 (t.size + 1)) ∧
      (∀ x path, insertRegular cmp t x = some path →
        path.length ≤ 2 * Nat.log 2 (t.size + 1)) ∧
      (∀ x M path, findNode cmp x t.root [] = some (M, path) →
        path.length < 2 * Nat.log 2 (t.size + 1)) := by
  obtain ⟨t, ht, hw, hc, hs⟩ := runOps_inv cmp ops newRBTree trivial rfl rfl
  have h1 := height_le t.root hw
  rw [hc] at h1
  simp only [blk] at h1
  have h2 := pow_blackHeight_le t.root hw
  rw [numNodes_eq_length, ← hs] at h2
  have h3 : blackHeight t.root ≤ Nat.log 2 (t.size + 1) :=
    Nat.le_log_of_pow_le (by omega) h2
  have hh : height t.root ≤ 2 * Nat.log 2 (t.size + 1) := by omega
  refine ⟨t, ht, hs, hh, ?_, ?_, ?_, ?_⟩
  · calc 2 ^ height t.root ≤ 2 ^ (2 * blackHeight t.root) :=
          Nat.pow_le_pow_right (by omega) (by omega)
      _ = (2 ^ blackHeight t.root) ^ 2 := by rw [pow_mul']
      _ ≤ (t.size + 1) ^ 2 := Nat.pow_le_pow_left h2 2
  · intro x
    exact le_trans (containsVisits_le cmp x t.root) hh
  · intro x path hp
    have := insertRegularLoop_length cmp x t.root [] path hp
    simp only [List.length_nil] at this
    omega
  · intro x M path hp
    have := findNode_length cmp x t.root [] M path hp
    simp only [List.length_nil] at this
    omega

end Claims5

section Claims6

/-- C15: inserting 1, 2, 3 in that order (integer order) into the empty tree
yields the tree whose root holds 2 and is BLACK, whose left child holds 1 and is
RED, whose right child holds 3 and is RED, with `size` 3.  The third insertion
links 3 under the RED node 2 under the BLACK root 1, whose other child is absent,
and `redDadBlackUncle` performs one left rotation, at the old root, followed by
the recolouring. -/
theorem scenario_insert_1_2_3 :
    runOps intCmp [Op.insert (some 1) true, Op.insert (some 2) true, Op.insert (some 3) true]
        newRBTree =
      some { root := Node.mk Color.BLACK (Node.mk Color.RED Node.NULL 1 Node.NULL) 2
                (Node.mk Color.RED Node.NULL 3 Node.NULL),
             size := 3, freed := [] } ∧
    runOps intCmp [Op.insert (some 1) true, Op.insert (some 2) true] newRBTree =
      some { root := Node.mk Color.BLACK Node.NULL 1 (Node.mk Color.RED Node.NULL 2 Node.NULL),
             size := 2, freed := [] } ∧
    insertRegular intCmp
        { root := Node.mk Color.BLACK Node.NULL 1 (Node.mk Color.RED Node.NULL 2 Node.NULL),
          size := 2, freed := [] } 3 =
      some [Frame.right Color.RED Node.NULL 2, Frame.right Color.BLACK Node.NULL 1] ∧
    turnLeft (Node.mk Color.BLACK Node.NULL 1
        (Node.mk Color.RED Node.NULL 2 (Node.mk Color.RED Node.NULL 3 Node.NULL))) =
      some (Node.mk Color.RED (Node.mk Color.BLACK Node.NULL 1 Node.NULL) 2
        (Node.mk Color.RED Node.NULL 3 Node.NULL)) ∧
    redDadBlackUncle (Node.mk Color.RED Node.NULL 3 Node.NULL)
        (Frame.right Color.RED Node.NULL 2) (Frame.right Color.BLACK Node.NULL 1) =
      some (Node.mk Color.BLACK (Node.mk Color.RED Node.NULL 1 Node.NULL) 2
        (Node.mk Color.RED Node.NULL 3 Node.NULL)) := by
  refine ⟨by decide, by decide, by decide, rfl, rfl⟩

/-- C16: in the tree built by inserting 5, 3, 8, 1, 4, 7, 9 in that order
(integer order), the node holding 3 has two children; `deleteFromRBTree` of 3
succeeds, that node, at the same place and of the same colour, now holds the
successor 4, the in-order sequence is 1, 4, 5, 7, 8, 9, `size` is 6, the payload
3 has been disposed of, and every root-to-nil path of the result has the same
number of BLACK nodes. -/
theorem scenario_delete_3 :
    runOps intCmp [Op.insert (some 5) true, Op.insert (some 3) true, Op.insert (some 8) true,
        Op.insert (some 1) true, Op.insert (some 4) true, Op.insert (some 7) true,
        Op.insert (some 9) true] newRBTree = some sampleTree ∧
    findNode intCmp 3 sampleTree.root [] =
      some (Node.mk Color.BLACK (Node.mk Color.RED Node.NULL 1 Node.NULL) 3
          (Node.mk Color.RED Node.NULL 4 Node.NULL),
        [Frame.left Color.BLACK 5 (Node.mk Color.BLACK (Node.mk Color.RED Node.NULL 7 Node.NULL) 8
          (Node.mk Color.RED Node.NULL 9 Node.NULL))]) ∧
    howManyKIds (Node.mk Color.BLACK (Node.mk Color.RED Node.NULL 1 Node.NULL) (3 : Int)
        (Node.mk Color.RED Node.NULL 4 Node.NULL)) = some Kids.TWO_KIDS ∧
    ∃ t2, deleteFromRBTree intCmp sampleTree (some 3) = some (FunctionReturn.SUCCESS, t2) ∧
      t2.root = fill (Node.mk Color.BLACK (Node.mk Color.RED Node.NULL 1 Node.NULL) 4 Node.NULL)
        [Frame.left Color.BLACK 5 (Node.mk Color.BLACK (Node.mk Color.RED Node.NULL 7 Node.NULL) 8
          (Node.mk Color.RED Node.NULL 9 Node.NULL))] ∧
      toList t2.root = [1, 4, 5, 7, 8, 9] ∧ t2.size = 6 ∧ t2.freed = [3] ∧
      sameBlackCount t2.root := by
  refine ⟨by decide, by decide, rfl,
    { root := Node.mk Color.BLACK
        (Node.mk Color.BLACK (Node.mk Color.RED Node.NULL 1 Node.NULL) 4 Node.NULL) 5
        (Node.mk Color.BLACK (Node.mk Color.RED Node.NULL 7 Node.NULL) 8
          (Node.mk Color.RED Node.NULL 9 Node.NULL)),
      size := 6, freed := [3] }, by decide, rfl, rfl, rfl, rfl, ?_⟩
  simp [sameBlackCount, blackCounts, blk]

end Claims6

section Claims7

theorem vectorCompareLoop_less (a b : List ℚ) (i : Nat) (hi : i < min a.length b.length)
    (heq : ∀ j, j < i → a.getD j 0 = b.getD j 0) (hlt : a.getD i 0 < b.getD i 0) :
    vectorCompareLoop a b = some LESS := by
  induction a generalizing b i with
  | nil => simp at hi
  | cons x xs ih =>
    cases b with
    | nil => simp at hi
    | cons y ys =>
      cases i with
      | zero =>
        simp only [List.getD_cons_zero] at hlt
        simp only [vectorCompareLoop]
        rw [if_pos (by linarith)]
      | succ k =>
        have h0 := heq 0 (Nat.succ_pos k)
        simp only [List.getD_cons_zero] at h0
        simp only [vectorCompareLoop]
        rw [if_neg (by rw [h0]; simp), if_neg (by rw [h0]; simp)]
        refine ih ys k ?_ ?_ ?_
        · simp only [List.length_cons] at hi; omega
        · intro j hj
          have := heq (j + 1) (by omega)
          simpa only [List.getD_cons_succ] using this
        · simpa only [List.getD_cons_succ] using hlt

theorem vectorCompareLoop_greater (a b : List ℚ) (i : Nat) (hi : i < min a.length b.length)
    (heq : ∀ j, j < i → a.getD j 0 = b.getD j 0) (hgt : b.getD i 0 < a.getD i 0) :
    vectorCompareLoop a b = some GREATER := by
  induction a generalizing b i with
  | nil => simp at hi
  | cons x xs ih =>
    cases b with
    | nil => simp at hi
    | cons y ys =>
      cases i with
      | zero =>
        simp only [List.getD_cons_zero] at hgt
        simp only [vectorCompareLoop]
        rw [if_neg (by linarith), if_pos (by linarith)]
      | succ k =>
        have h0 := heq 0 (Nat.succ_pos k)
        simp only [List.getD_cons_zero] at h0
        simp only [vectorCompareLoop]
        rw [if_neg (by rw [h0]; simp), if_neg (by rw [h0]; simp)]
        refine ih ys k ?_ ?_ ?_
        · simp only [List.length_cons] at hi; omega
        · intro j hj
          have := heq (j + 1) (by omega)
          simpa only [List.getD_cons_succ] using this
        · simpa only [List.getD_cons_succ] using hgt

theorem vectorCompareLoop_none_iff (a b : List ℚ) :
    vectorCompareLoop a b = none ↔
      ∀ i, i < min a.length b.length → a.getD i 0 = b.getD i 0 := by
  induction a generalizing b with
  | nil => simp [vectorCompareLoop]
  | cons x xs ih =>
    cases b with
    | nil => simp [vectorCompareLoop]
    | cons y ys =>
      simp only [vectorCompareLoop]
      constructor
      · intro h i hi
        split_ifs at h with h1 h2
        have hxy : x = y := by linarith
        cases i with
        | zero => simpa using hxy
        | succ k =>
          simp only [List.getD_cons_succ]
          exact (ih ys).1 h k (by simp only [List.length_cons] at hi; omega)
      · intro h
        have h0 := h 0 (by simp)
        simp only [List.getD_cons_zero] at h0
        rw [if_neg (by rw [h0]; simp), if_neg (by rw [h0]; simp)]
        refine (ih ys).2 ?_
        intro i hi
        have := h (i + 1) (by simp only [List.length_cons]; omega)
        simpa only [List.getD_cons_succ] using this

theorem vectorCompareLoop_values (a b : List ℚ) (res : Int)
    (h : vectorCompareLoop a b = some res) : res = LESS ∨ res = GREATER := by
  induction a generalizing b with
  | nil => simp [vectorCompareLoop] at h
  | cons x xs ih =>
    cases b with
    | nil => simp [vectorCompareLoop] at h
    | cons y ys =>
      simp only [vectorCompareLoop] at h
      split_ifs at h
      · left; cases h; rfl
      · right; cases h; rfl
      · exact ih ys h

theorem eq_of_getD_eq (a b : List ℚ) (hl : a.length = b.length)
    (h : ∀ i, i < min a.length b.length → a.getD i 0 = b.getD i 0) : a = b := by
  induction a generalizing b with
  | nil => cases b with
    | nil => rfl
    | cons y ys => simp at hl
  | cons x xs ih =>
    cases b with
    | nil => simp at hl
    | cons y ys =>
      have h0 := h 0 (by simp)
      simp only [List.getD_cons_zero] at h0
      subst h0
      congr 1
      refine ih ys (by simpa using hl) ?_
      intro i hi
      have := h (i + 1) (by simp only [List.length_cons]; omega)
      simpa only [List.getD_cons_succ] using this

/-- C17: over exact (rational) coordinates `vectorCompare1By1` is the
lexicographic order on coordinate sequences, a vector that is a proper prefix of
another being the smaller.  It returns LESS (-1) if at the first index below the
shorter length where the vectors differ the first vector's coordinate is smaller,
GREATER (1) if it is larger; when there is no such index it returns LESS if the
first vector is shorter, GREATER if it is longer, and EQUAL (0) otherwise; and it
returns EQUAL exactly when the lengths and all the coordinates are equal. -/
theorem vectorCompare_lexicographic (a b : List ℚ) :
    (∀ i, i < min a.length b.length → (∀ j, j < i → a.getD j 0 = b.getD j 0) →
      a.getD i 0 < b.getD i 0 → vectorCompare1By1 a b = LESS) ∧
    (∀ i, i < min a.length b.length → (∀ j, j < i → a.getD j 0 = b.getD j 0) →
      b.getD i 0 < a.getD i 0 → vectorCompare1By1 a b = GREATER) ∧
    ((∀ i, i < min a.length b.length → a.getD i 0 = b.getD i 0) →
      vectorCompare1By1 a b =
        if a.length < b.length then LESS else if a.length > b.length then GREATER else EQUAL) ∧
    (vectorCompare1By1 a b = EQUAL ↔ a = b) ∧
    LESS = -1 ∧ EQUAL = 0 ∧ GREATER = 1 := by
  refine ⟨?_, ?_, ?_, ?_, rfl, rfl, rfl⟩
  · intro i hi heq hlt
    simp [vectorCompare1By1, vectorCompareLoop_less a b i hi heq hlt]
  · intro i hi heq hgt
    simp [vectorCompare1By1, vectorCompareLoop_greater a b i hi heq hgt]
  · intro h
    simp [vectorCompare1By1, (vectorCompareLoop_none_iff a b).2 h]
  · constructor
    · intro h
      unfold vectorCompare1By1 at h
      cases hl : vectorCompareLoop a b with
      | some res =>
        rw [hl] at h
        simp only at h
        rcases vectorCompareLoop_values a b res hl with h1 | h1 <;> rw [h1] at h <;> cases h
      | none =>
        rw [hl] at h
        simp only at h
        have hall := (vectorCompareLoop_none_iff a b).1 hl
        split_ifs at h with h1 h2
        · cases h
        · cases h
        · exact eq_of_getD_eq a b (by omega) hall
    · rintro rfl
      have hn : vectorCompareLoop a a = none :=
        (vectorCompareLoop_none_iff a a).2 (fun _ _ => rfl)
      simp [vectorCompare1By1, hn]

end Claims7

section LoopSteps

/-- The loop of `blackMAndC` is the iteration of `loopStep`. -/
theorem blackMAndCLoop_step (fuel : Nat) (side : LeftOrRightChild) (P : Node α)
    (rest : Path α) :
    blackMAndCLoop (fuel + 1) side P rest =
      match loopStep side P rest with
      | none => none
      | some (StepResult.returned root) => some root
      | some (StepResult.continues side2 P2 rest2) => blackMAndCLoop fuel side2 P2 rest2 := by
  cases side with
  | ROOT => cases P <;> simp [blackMAndCLoop, loopStep, whichCase, siblingOf]
  | LEFT =>
    rcases P with _ | ⟨pc, C, pd, S⟩
    · simp [blackMAndCLoop, loopStep, whichCase, siblingOf]
    rcases S with _ | ⟨_ | _, sl, sd, sr⟩
    · simp [blackMAndCLoop, loopStep, whichCase, siblingOf]
    · simp [blackMAndCLoop, loopStep, whichCase, siblingOf, caseC, turnLeft]
    · rcases sl with _ | ⟨_ | _, a1, a2, a3⟩ <;> rcases sr with _ | ⟨_ | _, b1, b2, b3⟩ <;>
        cases pc <;> rcases rest with _ | ⟨⟨gc, gd, gr⟩ | ⟨gc, gl, gd⟩, up⟩ <;>
        simp [blackMAndCLoop, loopStep, whichCase, siblingOf, hasTwoBlackKids, howManyKIds,
          redScBlackSf, caseB, caseD, caseE, up1, blackSRedSf, blackSAndSfRedSc, turnLeft,
          turnRight]
  | RIGHT =>
    rcases P with _ | ⟨pc, S, pd, C⟩
    · simp [blackMAndCLoop, loopStep, whichCase, siblingOf]
    rcases S with _ | ⟨_ | _, sl, sd, sr⟩
    · simp [blackMAndCLoop, loopStep, whichCase, siblingOf]
    · simp [blackMAndCLoop, loopStep, whichCase, siblingOf, caseC, turnRight]
    · rcases sl with _ | ⟨_ | _, a1, a2, a3⟩ <;> rcases sr with _ | ⟨_ | _, b1, b2, b3⟩ <;>
        cases pc <;> rcases rest with _ | ⟨⟨gc, gd, gr⟩ | ⟨gc, gl, gd⟩, up⟩ <;>
        simp [blackMAndCLoop, loopStep, whichCase, siblingOf, hasTwoBlackKids, howManyKIds,
          redScBlackSf, caseB, caseD, caseE, up1, blackSRedSf, blackSAndSfRedSc, turnLeft,
          turnRight]

end LoopSteps

section LoopFacts

/-- More fuel does not change a result already reached. -/
theorem blackMAndCLoop_mono (fuel : Nat) (side : LeftOrRightChild) (P : Node α) (rest : Path α)
    (t : Node α) (h : blackMAndCLoop fuel side P rest = some t) (k : Nat) :
    blackMAndCLoop (fuel + k) side P rest = some t := by
  induction fuel generalizing side P rest with
  | zero => simp [blackMAndCLoop] at h
  | succ n ih =>
    rw [show n + 1 + k = (n + k) + 1 by omega, blackMAndCLoop_step]
    rw [blackMAndCLoop_step] at h
    cases hs : loopStep side P rest with
    | none => rw [hs] at h; cases h
    | some res =>
      rw [hs] at h
      cases res with
      | returned root => exact h
      | continues side2 P2 rest2 => exact ih _ _ _ h

theorem step_e_left (pc : Color) (C : Node α) (pd : α) (sl : Node α) (sd : α)
    (fl : Node α) (fd : α) (fr : Node α) (rest : Path α) :
    whichCase LeftOrRightChild.LEFT
        (Node.mk pc C pd (Node.mk Color.BLACK sl sd (Node.mk Color.RED fl fd fr))) =
      some FixCase.e ∧
    loopStep LeftOrRightChild.LEFT
        (Node.mk pc C pd (Node.mk Color.BLACK sl sd (Node.mk Color.RED fl fd fr))) rest =
      some (StepResult.returned
        (fill (Node.mk pc (Node.mk Color.BLACK C pd sl) sd (Node.mk Color.BLACK fl fd fr))
          rest)) := by
  rcases sl with _ | ⟨_ | _, nl, nd, nr⟩ <;>
  simp [loopStep, whichCase, siblingOf, hasTwoBlackKids, howManyKIds, redScBlackSf, caseE,
    blackSRedSf, turnLeft]

theorem step_e_right (pc : Color) (C : Node α) (pd : α) (sr : Node α) (sd : α)
    (fl : Node α) (fd : α) (fr : Node α) (rest : Path α) :
    whichCase LeftOrRightChild.RIGHT
        (Node.mk pc (Node.mk Color.BLACK (Node.mk Color.RED fl fd fr) sd sr) pd C) =
      some FixCase.e ∧
    loopStep LeftOrRightChild.RIGHT
        (Node.mk pc (Node.mk Color.BLACK (Node.mk Color.RED fl fd fr) sd sr) pd C) rest =
      some (StepResult.returned
        (fill (Node.mk pc (Node.mk Color.BLACK fl fd fr) sd (Node.mk Color.BLACK sr pd C))
          rest)) := by
  rcases sr with _ | ⟨_ | _, nl, nd, nr⟩ <;>
  simp [loopStep, whichCase, siblingOf, hasTwoBlackKids, howManyKIds, redScBlackSf, caseE,
    blackSRedSf, turnRight]

theorem step_d_left (pc : Color) (C : Node α) (pd : α) (nl : Node α) (nd : α)
    (nr : Node α) (sd : α) (sr : Node α) (rest : Path α) (hf : colorOf sr = Color.BLACK) :
    whichCase LeftOrRightChild.LEFT
        (Node.mk pc C pd (Node.mk Color.BLACK (Node.mk Color.RED nl nd nr) sd sr)) =
      some FixCase.d ∧
    loopStep LeftOrRightChild.LEFT
        (Node.mk pc C pd (Node.mk Color.BLACK (Node.mk Color.RED nl nd nr) sd sr)) rest =
      some (StepResult.continues LeftOrRightChild.LEFT
        (Node.mk pc C pd (Node.mk Color.BLACK nl nd (Node.mk Color.RED nr sd sr))) rest) := by
  rcases sr with _ | ⟨_ | _, fl, fd, fr⟩ <;>
  simp_all [loopStep, whichCase, siblingOf, hasTwoBlackKids, howManyKIds, redScBlackSf, caseD,
    blackSAndSfRedSc, turnRight, colorOf]

theorem step_d_right (pc : Color) (C : Node α) (pd : α) (nl : Node α) (nd : α)
    (nr : Node α) (sd : α) (sl : Node α) (rest : Path α) (hf : colorOf sl = Color.BLACK) :
    whichCase LeftOrRightChild.RIGHT
        (Node.mk pc (Node.mk Color.BLACK sl sd (Node.mk Color.RED nl nd nr)) pd C) =
      some FixCase.d ∧
    loopStep LeftOrRightChild.RIGHT
        (Node.mk pc (Node.mk Color.BLACK sl sd (Node.mk Color.RED nl nd nr)) pd C) rest =
      some (StepResult.continues LeftOrRightChild.RIGHT
        (Node.mk pc (Node.mk Color.BLACK (Node.mk Color.RED sl sd nl) nd nr) pd C) rest) := by
  rcases sl with _ | ⟨_ | _, fl, fd, fr⟩ <;>
  simp_all [loopStep, whichCase, siblingOf, hasTwoBlackKids, howManyKIds, redScBlackSf, caseD,
    blackSAndSfRedSc, turnLeft, colorOf]

theorem step_c_left (pc : Color) (C : Node α) (pd : α) (sl : Node α) (sd : α)
    (sr : Node α) (rest : Path α) :
    whichCase LeftOrRightChild.LEFT (Node.mk pc C pd (Node.mk Color.RED sl sd sr)) =
      some FixCase.c ∧
    loopStep LeftOrRightChild.LEFT (Node.mk pc C pd (Node.mk Color.RED sl sd sr)) rest =
      some (StepResult.continues LeftOrRightChild.LEFT (Node.mk Color.RED C pd sl)
        (Frame.left pc sd sr :: rest)) := by
  simp [loopStep, whichCase, siblingOf, caseC, turnLeft]

theorem step_c_right (pc : Color) (C : Node α) (pd : α) (sl : Node α) (sd : α)
    (sr : Node α) (rest : Path α) :
    whichCase LeftOrRightChild.RIGHT (Node.mk pc (Node.mk Color.RED sl sd sr) pd C) =
      some FixCase.c ∧
    loopStep LeftOrRightChild.RIGHT (Node.mk pc (Node.mk Color.RED sl sd sr) pd C) rest =
      some (StepResult.continues LeftOrRightChild.RIGHT (Node.mk Color.RED sr pd C)
        (Frame.right pc sl sd :: rest)) := by
  simp [loopStep, whichCase, siblingOf, caseC, turnRight]

theorem step_b_left (pc : Color) (C : Node α) (pd : α) (sl : Node α) (sd : α)
    (sr : Node α) (rest : Path α)
    (h : hasTwoBlackKids (Node.mk Color.BLACK sl sd sr) = some true) :
    whichCase LeftOrRightChild.LEFT (Node.mk pc C pd (Node.mk Color.BLACK sl sd sr)) =
      some FixCase.b ∧
    loopStep LeftOrRightChild.LEFT (Node.mk pc C pd (Node.mk Color.BLACK sl sd sr)) rest =
      match pc, rest with
      | Color.RED, _ =>
        some (StepResult.returned (fill (Node.mk Color.BLACK C pd (Node.mk Color.RED sl sd sr))
          rest))
      | Color.BLACK, [] =>
        some (StepResult.returned (Node.mk Color.BLACK C pd (Node.mk Color.RED sl sd sr)))
      | Color.BLACK, f :: up =>
        some (StepResult.continues
          (up1 (Node.mk Color.BLACK C pd (Node.mk Color.RED sl sd sr)) f).1
          (up1 (Node.mk Color.BLACK C pd (Node.mk Color.RED sl sd sr)) f).2 up) := by
  cases pc <;> cases rest <;> simp [loopStep, whichCase, siblingOf, h, caseB]

theorem step_b_right (pc : Color) (C : Node α) (pd : α) (sl : Node α) (sd : α)
    (sr : Node α) (rest : Path α)
    (h : hasTwoBlackKids (Node.mk Color.BLACK sl sd sr) = some true) :
    whichCase LeftOrRightChild.RIGHT (Node.mk pc (Node.mk Color.BLACK sl sd sr) pd C) =
      some FixCase.b ∧
    loopStep LeftOrRightChild.RIGHT (Node.mk pc (Node.mk Color.BLACK sl sd sr) pd C) rest =
      match pc, rest with
      | Color.RED, _ =>
        some (StepResult.returned (fill (Node.mk Color.BLACK (Node.mk Color.RED sl sd sr) pd C)
          rest))
      | Color.BLACK, [] =>
        some (StepResult.returned (Node.mk Color.BLACK (Node.mk Color.RED sl sd sr) pd C))
      | Color.BLACK, f :: up =>
        some (StepResult.continues
          (up1 (Node.mk Color.BLACK (Node.mk Color.RED sl sd sr) pd C) f).1
          (up1 (Node.mk Color.BLACK (Node.mk Color.RED sl sd sr) pd C) f).2 up) := by
  cases pc <;> cases rest <;> simp [loopStep, whichCase, siblingOf, h, caseB]

/-- With a BLACK sibling present the iteration is not a case-c iteration. -/
theorem whichCase_black_left (pc : Color) (C : Node α) (pd : α) (sl : Node α) (sd : α)
    (sr : Node α) :
    ∃ k, whichCase LeftOrRightChild.LEFT (Node.mk pc C pd (Node.mk Color.BLACK sl sd sr)) =
      some k ∧ k ≠ FixCase.c := by
  rcases sl with _ | ⟨_ | _, a1, a2, a3⟩ <;> rcases sr with _ | ⟨_ | _, b1, b2, b3⟩ <;>
  simp [whichCase, siblingOf, hasTwoBlackKids, howManyKIds, redScBlackSf]

theorem whichCase_black_right (pc : Color) (C : Node α) (pd : α) (sl : Node α) (sd : α)
    (sr : Node α) :
    ∃ k, whichCase LeftOrRightChild.RIGHT (Node.mk pc (Node.mk Color.BLACK sl sd sr) pd C) =
      some k ∧ k ≠ FixCase.c := by
  rcases sl with _ | ⟨_ | _, a1, a2, a3⟩ <;> rcases sr with _ | ⟨_ | _, b1, b2, b3⟩ <;>
  simp [whichCase, siblingOf, hasTwoBlackKids, howManyKIds, redScBlackSf]

end LoopFacts

section LoopTermination

/-- What one iteration does in a state of the loop on a valid tree, by the branch
it takes. -/
theorem loopStep_deficit (side : LeftOrRightChild) (P : Node α) (rest : Path α)
    (hd : deficit side P rest) :
    ∃ k, whichCase side P = some k ∧
      (k = FixCase.b →
        ((colorOf P = Color.RED ∨ rest = []) →
          ∃ root, loopStep side P rest = some (StepResult.returned root)) ∧
        (colorOf P = Color.BLACK → ∀ f up, rest = f :: up →
          ∃ side2 P2, loopStep side P rest = some (StepResult.continues side2 P2 up) ∧
            deficit side2 P2 up)) ∧
      (k = FixCase.c →
        ∃ P2 f, loopStep side P rest = some (StepResult.continues side P2 (f :: rest)) ∧
          deficit side P2 (f :: rest) ∧ ∃ k2, whichCase side P2 = some k2 ∧ k2 ≠ FixCase.c) ∧
      (k = FixCase.d →
        ∃ P2, loopStep side P rest = some (StepResult.continues side P2 rest) ∧
          deficit side P2 rest ∧ whichCase side P2 = some FixCase.e) ∧
      (k = FixCase.e → ∃ root, loopStep side P rest = some (StepResult.returned root)) := by
  cases side with
  | ROOT => cases P <;> simp [deficit] at hd
  | LEFT =>
    rcases P with _ | ⟨pc, C, pd, S⟩
    · simp [deficit] at hd
    have hd2 := hd
    simp only [deficit] at hd2
    obtain ⟨h1, h2, h3, h4, h5, h6⟩ := hd2
    rcases S with _ | ⟨_ | _, sl, sd, sr⟩
    · simp [blackHeight] at h4
    · -- c
      have hpc : pc = Color.BLACK := by
        rcases color_cases pc with h | h
        · simp [h, colorOf] at h5
        · exact h
      subst hpc
      refine ⟨FixCase.c, (step_c_left _ _ _ _ _ _ rest).1, (fun h => nomatch h), ?_,
        (fun h => nomatch h), (fun h => nomatch h)⟩
      intro _
      refine ⟨_, _, (step_c_left _ _ _ _ _ _ rest).2, ?_, ?_⟩
      · simp_all [deficit, wf, colorOf, blackHeight, blk, pathWf]
      · rcases sl with _ | ⟨_ | _, a1, a2, a3⟩
        · simp [wf, blackHeight, blk] at h3 h4
        · simp [wf, colorOf] at h3
        · exact whichCase_black_left _ _ _ _ _ _
    · by_cases hfar : colorOf sr = Color.RED
      · -- e
        rcases sr with _ | ⟨_ | _, fl, fd, fr⟩
        · simp [colorOf] at hfar
        · refine ⟨FixCase.e, (step_e_left _ _ _ _ _ _ _ _ rest).1, (fun h => nomatch h),
            (fun h => nomatch h), (fun h => nomatch h), fun _ => ⟨_, (step_e_left _ _ _ _ _ _ _ _ rest).2⟩⟩
        · simp [colorOf] at hfar
      · have hfb := colorOf_black_of_not_red hfar
        by_cases hnear : colorOf sl = Color.RED
        · -- d
          rcases sl with _ | ⟨_ | _, nl, nd, nr⟩
          · simp [colorOf] at hnear
          · refine ⟨FixCase.d, (step_d_left _ _ _ _ _ _ _ _ rest hfb).1, (fun h => nomatch h),
              (fun h => nomatch h), ?_, (fun h => nomatch h)⟩
            intro _
            refine ⟨_, (step_d_left _ _ _ _ _ _ _ _ rest hfb).2, ?_,
              (step_e_left _ _ _ _ _ _ _ _ rest).1⟩
            simp_all [deficit, wf, colorOf, blackHeight, blk]
          · simp [colorOf] at hnear
        · -- b
          have hnb := colorOf_black_of_not_red hnear
          have hk := hasTwoBlackKids_of_black sl sd sr hnb hfb
            (by simp only [wf] at h3; exact h3.2.2.1)
          have hstep := step_b_left pc C pd sl sd sr rest hk
          refine ⟨FixCase.b, hstep.1, ?_, (fun h => nomatch h), (fun h => nomatch h),
            (fun h => nomatch h)⟩
          intro _
          constructor
          · intro hret
            cases pc with
            | RED => exact ⟨_, hstep.2⟩
            | BLACK =>
              rcases hret with hret | hret
              · simp [colorOf] at hret
              · subst hret; exact ⟨_, hstep.2⟩
          · intro hpc f up hrest
            simp only [colorOf] at hpc
            subst hpc
            subst hrest
            refine ⟨_, _, hstep.2, ?_⟩
            have hP : wf (Node.mk Color.BLACK C pd (Node.mk Color.RED sl sd sr)) ∧
                blackHeight (Node.mk Color.BLACK C pd (Node.mk Color.RED sl sd sr)) =
                  blackHeight C + 1 := by
              simp_all [wf, colorOf, blackHeight, blk]
            exact deficit_up1 _ _ _ _ hP.1 rfl hP.2 (by simpa [blk] using h6)
  | RIGHT =>
    rcases P with _ | ⟨pc, S, pd, C⟩
    · simp [deficit] at hd
    have hd2 := hd
    simp only [deficit] at hd2
    obtain ⟨h1, h2, h3, h4, h5, h6⟩ := hd2
    rcases S with _ | ⟨_ | _, sl, sd, sr⟩
    · simp [blackHeight] at h4
    · -- c
      have hpc : pc = Color.BLACK := by
        rcases color_cases pc with h | h
        · simp [h, colorOf] at h5
        · exact h
      subst hpc
      refine ⟨FixCase.c, (step_c_right _ _ _ _ _ _ rest).1, (fun h => nomatch h), ?_,
        (fun h => nomatch h), (fun h => nomatch h)⟩
      intro _
      refine ⟨_, _, (step_c_right _ _ _ _ _ _ rest).2, ?_, ?_⟩
      · simp_all [deficit, wf, colorOf, blackHeight, blk, pathWf]
      · rcases sr with _ | ⟨_ | _, a1, a2, a3⟩
        · simp [wf, blackHeight, blk] at h3 h4; omega
        · simp [wf, colorOf] at h3
        · exact whichCase_black_right _ _ _ _ _ _
    · by_cases hfar : colorOf sl = Color.RED
      · -- e
        rcases sl with _ | ⟨_ | _, fl, fd, fr⟩
        · simp [colorOf] at hfar
        · refine ⟨FixCase.e, (step_e_right _ _ _ _ _ _ _ _ rest).1, (fun h => nomatch h),
            (fun h => nomatch h), (fun h => nomatch h), fun _ => ⟨_, (step_e_right _ _ _ _ _ _ _ _ rest).2⟩⟩
        · simp [colorOf] at hfar
      · have hfb := colorOf_black_of_not_red hfar
        by_cases hnear : colorOf sr = Color.RED
        · -- d
          rcases sr with _ | ⟨_ | _, nl, nd, nr⟩
          · simp [colorOf] at hnear
          · refine ⟨FixCase.d, (step_d_right _ _ _ _ _ _ _ _ rest hfb).1, (fun h => nomatch h),
              (fun h => nomatch h), ?_, (fun h => nomatch h)⟩
            intro _
            refine ⟨_, (step_d_right _ _ _ _ _ _ _ _ rest hfb).2, ?_,
              (step_e_right _ _ _ _ _ _ _ _ rest).1⟩
            simp_all [deficit, wf, colorOf, blackHeight, blk]
          · simp [colorOf] at hnear
        · -- b
          have hnb := colorOf_black_of_not_red hnear
          have hk := hasTwoBlackKids_of_black sl sd sr hfb hnb
            (by simp only [wf] at h3; exact h3.2.2.1)
          have hstep := step_b_right pc C pd sl sd sr rest hk
          refine ⟨FixCase.b, hstep.1, ?_, (fun h => nomatch h), (fun h => nomatch h),
            (fun h => nomatch h)⟩
          intro _
          constructor
          · intro hret
            cases pc with
            | RED => exact ⟨_, hstep.2⟩
            | BLACK =>
              rcases hret with hret | hret
              · simp [colorOf] at hret
              · subst hret; exact ⟨_, hstep.2⟩
          · intro hpc f up hrest
            simp only [colorOf] at hpc
            subst hpc
            subst hrest
            refine ⟨_, _, hstep.2, ?_⟩
            have hP : wf (Node.mk Color.BLACK (Node.mk Color.RED sl sd sr) pd C) ∧
                blackHeight (Node.mk Color.BLACK (Node.mk Color.RED sl sd sr) pd C) =
                  blackHeight C + 1 := by
              simp_all [wf, colorOf, blackHeight, blk]
            exact deficit_up1 _ _ _ _ hP.1 rfl hP.2 (by simpa [blk] using h6)

/-- C18: the delete fix-up loop of `blackMAndC` terminates on every valid
red-black tree.  For a BLACK node `M` without RED child that is not the root of a
tree satisfying the colour invariants with a BLACK root, `blackMAndC` enters the
loop in a state satisfying the loop invariant `deficit` and returns the same tree
for every supply of iterations of at least three more than the number of proper
ancestors of `M`'s parent.  In every state satisfying the invariant the iteration
is one of the cases b, c, d, e: a case-b iteration returns under a RED parent or
at the root and otherwise continues, the invariant kept, with the deficit one
level closer to the root; a case-c iteration continues, the invariant kept, and
the next iteration is not a case-c one (the sibling is BLACK); a case-d iteration
continues, the invariant kept, and the next iteration is a case-e one; a case-e
iteration returns. -/
theorem blackMAndC_terminates (ml : Node α) (md : α) (mr : Node α) (f : Frame α)
    (rest : Path α)
    (hw : wf (fill (Node.mk Color.BLACK ml md mr) (f :: rest)))
    (hroot : colorOf (fill (Node.mk Color.BLACK ml md mr) (f :: rest)) = Color.BLACK)
    (hl : colorOf ml = Color.BLACK) (hr : colorOf mr = Color.BLACK) :
    ∃ C t, setC (Node.mk Color.BLACK ml md mr) = some C ∧
      deficit (up1 C f).1 (up1 C f).2 rest ∧
      (∀ fuel, blackMAndC fuel (Node.mk Color.BLACK ml md mr) (f :: rest) =
        blackMAndCLoop fuel (up1 C f).1 (up1 C f).2 rest) ∧
      (∀ fuel, rest.length + 3 ≤ fuel →
        blackMAndC fuel (Node.mk Color.BLACK ml md mr) (f :: rest) = some t) ∧
      ∀ (side : LeftOrRightChild) (P : Node α) (path : Path α), deficit side P path →
        ∃ k, whichCase side P = some k ∧
          (k = FixCase.b →
            ((colorOf P = Color.RED ∨ path = []) →
              ∃ root, loopStep side P path = some (StepResult.returned root)) ∧
            (colorOf P = Color.BLACK → ∀ g up, path = g :: up →
              ∃ side2 P2, loopStep side P path = some (StepResult.continues side2 P2 up) ∧
                deficit side2 P2 up)) ∧
          (k = FixCase.c →
            ∃ P2 g, loopStep side P path = some (StepResult.continues side P2 (g :: path)) ∧
              deficit side P2 (g :: path) ∧
              ∃ k2, whichCase side P2 = some k2 ∧ k2 ≠ FixCase.c) ∧
          (k = FixCase.d →
            ∃ P2, loopStep side P path = some (StepResult.continues side P2 path) ∧
              deficit side P2 path ∧ whichCase side P2 = some FixCase.e) ∧
          (k = FixCase.e → ∃ root, loopStep side P path = some (StepResult.returned root)) := by
  obtain ⟨hwM, hp⟩ := (fill_wf _ _).1 ⟨hw, hroot⟩
  simp only [wf] at hwM
  obtain ⟨hwl, hwr, hbh, -⟩ := hwM
  simp only [colorOf, blackHeight, blk] at hp
  have hC : ∃ C, setC (Node.mk Color.BLACK ml md mr) = some C ∧ wf C ∧
      colorOf C = Color.BLACK ∧ blackHeight C = blackHeight ml := by
    rcases mr with _ | ⟨rc, rl, rd, rr⟩
    · exact ⟨ml, rfl, hwl, hl, rfl⟩
    · exact ⟨_, rfl, hwr, hr, hbh.symm⟩
  obtain ⟨C, hset, hwC, hcC, hbC⟩ := hC
  have hdef : deficit (up1 C f).1 (up1 C f).2 rest :=
    deficit_up1 C f rest (blackHeight ml) hwC hcC hbC hp
  have heq : ∀ fuel, blackMAndC fuel (Node.mk Color.BLACK ml md mr) (f :: rest) =
      blackMAndCLoop fuel (up1 C f).1 (up1 C f).2 rest := by
    intro fuel
    cases f <;> simp [blackMAndC, hset, up1]
  obtain ⟨t, ht, -, -⟩ := blackMAndCLoop_wf (rest.length + 3) _ _ _ hdef (le_refl _)
  refine ⟨C, t, hset, hdef, heq, ?_, loopStep_deficit⟩
  intro fuel hfuel
  rw [heq]
  have := blackMAndCLoop_mono _ _ _ _ _ ht (fuel - (rest.length + 3))
  rwa [show rest.length + 3 + (fuel - (rest.length + 3)) = fuel by omega] at this

theorem blackMAndC_terminates_witness :
    wf (fill (Node.mk Color.BLACK Node.NULL (4 : Int) Node.NULL)
      [Frame.left Color.BLACK 8 (Node.mk Color.BLACK Node.NULL 9 Node.NULL)]) ∧
    colorOf (fill (Node.mk Color.BLACK Node.NULL (4 : Int) Node.NULL)
      [Frame.left Color.BLACK 8 (Node.mk Color.BLACK Node.NULL 9 Node.NULL)]) = Color.BLACK ∧
    ∃ t, ∀ fuel, 3 ≤ fuel →
      blackMAndC fuel (Node.mk Color.BLACK Node.NULL (4 : Int) Node.NULL)
        [Frame.left Color.BLACK 8 (Node.mk Color.BLACK Node.NULL 9 Node.NULL)] = some t :=
  ⟨by simp [fill, wf, blackHeight, blk], rfl,
    (blackMAndC_terminates Node.NULL (4 : Int) Node.NULL
      (Frame.left Color.BLACK 8 (Node.mk Color.BLACK Node.NULL 9 Node.NULL)) []
      (by simp [fill, wf, blackHeight, blk]) rfl rfl rfl).elim
      fun _ h => h.elim fun t h => ⟨t, h.2.2.2.1⟩⟩

end LoopTermination

section NephewCases

/-- C19: the nephew tie-break of the delete fix-up.  For a BLACK sibling `S` with
a RED nephew, on either side of the deficit, the iteration of `blackMAndC` is a
case-d iteration, running `blackSAndSfRedSc` and continuing, if and only if the
near nephew (on the deficit's side) is RED and the far nephew is BLACK or absent;
otherwise it is a case-e iteration, running `blackSRedSf` and returning, and the
far nephew is RED; in particular with both nephews RED it is a case-e iteration,
no case-d rotation being made. -/
theorem nephew_tie_break (pc : Color) (C : Node α) (pd : α) (sl : Node α) (sd : α)
    (sr : Node α) (hred : colorOf sl = Color.RED ∨ colorOf sr = Color.RED) :
    -- deficit on the left: `sl` is the near nephew, `sr` the far one
    ((whichCase LeftOrRightChild.LEFT (Node.mk pc C pd (Node.mk Color.BLACK sl sd sr)) =
          some FixCase.d ↔ (colorOf sl = Color.RED ∧ colorOf sr = Color.BLACK)) ∧
      ((colorOf sl = Color.RED ∧ colorOf sr = Color.BLACK) → ∀ fuel rest,
        blackMAndCLoop (fuel + 1) LeftOrRightChild.LEFT
            (Node.mk pc C pd (Node.mk Color.BLACK sl sd sr)) rest =
          (blackSAndSfRedSc (Node.mk Color.BLACK sl sd sr) LeftOrRightChild.LEFT).bind
            fun S2 => blackMAndCLoop fuel LeftOrRightChild.LEFT (Node.mk pc C pd S2) rest) ∧
      (¬ (colorOf sl = Color.RED ∧ colorOf sr = Color.BLACK) →
        whichCase LeftOrRightChild.LEFT (Node.mk pc C pd (Node.mk Color.BLACK sl sd sr)) =
          some FixCase.e ∧ colorOf sr = Color.RED ∧ ∀ fuel rest,
        blackMAndCLoop (fuel + 1) LeftOrRightChild.LEFT
            (Node.mk pc C pd (Node.mk Color.BLACK sl sd sr)) rest =
          (blackSRedSf (Node.mk pc C pd (Node.mk Color.BLACK sl sd sr))
            LeftOrRightChild.LEFT).map fun top => fill top rest)) ∧
    -- deficit on the right: `sr` is the near nephew, `sl` the far one
    ((whichCase LeftOrRightChild.RIGHT (Node.mk pc (Node.mk Color.BLACK sl sd sr) pd C) =
          some FixCase.d ↔ (colorOf sr = Color.RED ∧ colorOf sl = Color.BLACK)) ∧
      ((colorOf sr = Color.RED ∧ colorOf sl = Color.BLACK) → ∀ fuel rest,
        blackMAndCLoop (fuel + 1) LeftOrRightChild.RIGHT
            (Node.mk pc (Node.mk Color.BLACK sl sd sr) pd C) rest =
          (blackSAndSfRedSc (Node.mk Color.BLACK sl sd sr) LeftOrRightChild.RIGHT).bind
            fun S2 => blackMAndCLoop fuel LeftOrRightChild.RIGHT (Node.mk pc S2 pd C) rest) ∧
      (¬ (colorOf sr = Color.RED ∧ colorOf sl = Color.BLACK) →
        whichCase LeftOrRightChild.RIGHT (Node.mk pc (Node.mk Color.BLACK sl sd sr) pd C) =
          some FixCase.e ∧ colorOf sl = Color.RED ∧ ∀ fuel rest,
        blackMAndCLoop (fuel + 1) LeftOrRightChild.RIGHT
            (Node.mk pc (Node.mk Color.BLACK sl sd sr) pd C) rest =
          (blackSRedSf (Node.mk pc (Node.mk Color.BLACK sl sd sr) pd C)
            LeftOrRightChild.RIGHT).map fun top => fill top rest)) := by
  rcases sl with _ | ⟨_ | _, a1, a2, a3⟩ <;> rcases sr with _ | ⟨_ | _, b1, b2, b3⟩ <;>
  simp [colorOf] at hred <;>
  simp [whichCase, siblingOf, hasTwoBlackKids, howManyKIds, redScBlackSf, colorOf,
    blackMAndCLoop, blackSAndSfRedSc, blackSRedSf, turnLeft, turnRight]

theorem nephew_tie_break_witness :
    (colorOf (Node.mk Color.RED Node.NULL (1 : Int) Node.NULL) = Color.RED ∨
      colorOf (Node.mk Color.RED Node.NULL (3 : Int) Node.NULL) = Color.RED) ∧
    whichCase LeftOrRightChild.LEFT (Node.mk Color.BLACK Node.NULL (0 : Int)
        (Node.mk Color.BLACK (Node.mk Color.RED Node.NULL 1 Node.NULL) 2
          (Node.mk Color.RED Node.NULL 3 Node.NULL))) = some FixCase.e :=
  ⟨Or.inl rfl,
    ((nephew_tie_break Color.BLACK Node.NULL (0 : Int) (Node.mk Color.RED Node.NULL 1 Node.NULL)
      2 (Node.mk Color.RED Node.NULL 3 Node.NULL) (Or.inl rfl)).1.2.2
        (by simp [colorOf])).1⟩

/-- C20, as amended: `hasTwoBlackKids(S)` returns TRUE if and only if `S` has no
child or has two children that are both BLACK, and FALSE for a node with exactly
one child, whatever that child's colour.  For a node whose two subtrees have the
same BLACK height, as every node of a valid red-black tree has, this is the same
as: each of the two child slots is absent or holds a BLACK node. -/
theorem hasTwoBlackKids_iff (c : Color) (l : Node α) (d : α) (r : Node α) :
    (hasTwoBlackKids (Node.mk c l d r) = some true ↔
      ((l = Node.NULL ∧ r = Node.NULL) ∨
        (l ≠ Node.NULL ∧ r ≠ Node.NULL ∧ colorOf l = Color.BLACK ∧ colorOf r = Color.BLACK))) ∧
    (hasTwoBlackKids (Node.mk c l d r) = some true ∨
      hasTwoBlackKids (Node.mk c l d r) = some false) ∧
    (blackHeight l = blackHeight r →
      (hasTwoBlackKids (Node.mk c l d r) = some true ↔
        (colorOf l = Color.BLACK ∧ colorOf r = Color.BLACK))) := by
  rcases l with _ | ⟨_ | _, a1, a2, a3⟩ <;> rcases r with _ | ⟨_ | _, b1, b2, b3⟩ <;>
  simp [hasTwoBlackKids, howManyKIds, colorOf, blackHeight, blk]

/-- C20 as stated fails on a node with exactly one child, a BLACK one: both child
slots are absent or BLACK, yet `hasTwoBlackKids` returns FALSE. -/
theorem hasTwoBlackKids_counterexample :
    colorOf (Node.mk Color.BLACK Node.NULL (1 : Int) Node.NULL) = Color.BLACK ∧
    colorOf (Node.NULL : Node Int) = Color.BLACK ∧
    hasTwoBlackKids (Node.mk Color.BLACK (Node.mk Color.BLACK Node.NULL (1 : Int) Node.NULL) 2
      Node.NULL) = some false ∧
    ¬ (hasTwoBlackKids (Node.mk Color.BLACK (Node.mk Color.BLACK Node.NULL (1 : Int) Node.NULL) 2
        Node.NULL) = some true ↔
      (colorOf (Node.mk Color.BLACK Node.NULL (1 : Int) Node.NULL) = Color.BLACK ∧
        colorOf (Node.NULL : Node Int) = Color.BLACK)) := by
  simp [hasTwoBlackKids, howManyKIds, colorOf]

end NephewCases

section Rotations

theorem nodeList_fill_congr {s t : Node α} (h : nodeList s = nodeList t) (path : Path α) :
    nodeList (fill s path) = nodeList (fill t path) := by
  induction path generalizing s t with
  | nil => exact h
  | cons f rest ih => cases f <;> exact ih (by simp [nodeList, h])

/-- C21: rotations are purely structural.  For a node `X` with a right child `Y`
anywhere in a tree, `turnLeft(tree, X)` returns, puts `Y`, with its colour and
payload, where `X` was (under the same ancestors, or as the root of the tree when
`X` was the root) with `X`, its colour and payload kept, as the left child of
`Y`, and leaves the in-order payload sequence, the in-order sequence of colours
and payloads, `size` and the record of disposed payloads unchanged;
symmetrically for `turnRight` and a node with a left child.  Without the child to
rotate up the rotation reads through `NULL`. -/
theorem rotations_structural (path : Path α) (size : Nat) (freed : List α)
    (xc : Color) (a : Node α) (xd : α) (yc : Color) (b : Node α) (yd : α) (c : Node α) :
    (∃ t2, turnLeftAt { root := fill (Node.mk xc a xd (Node.mk yc b yd c)) path,
                        size := size, freed := freed }
          (Node.mk xc a xd (Node.mk yc b yd c)) path = some t2 ∧
      t2.root = fill (Node.mk yc (Node.mk xc a xd b) yd c) path ∧
      (path = [] → t2.root = Node.mk yc (Node.mk xc a xd b) yd c) ∧
      toList t2.root = toList (fill (Node.mk xc a xd (Node.mk yc b yd c)) path) ∧
      nodeList t2.root = nodeList (fill (Node.mk xc a xd (Node.mk yc b yd c)) path) ∧
      t2.size = size ∧ t2.freed = freed) ∧
    (∃ t2, turnRightAt { root := fill (Node.mk xc (Node.mk yc a yd b) xd c) path,
                         size := size, freed := freed }
          (Node.mk xc (Node.mk yc a yd b) xd c) path = some t2 ∧
      t2.root = fill (Node.mk yc a yd (Node.mk xc b xd c)) path ∧
      (path = [] → t2.root = Node.mk yc a yd (Node.mk xc b xd c)) ∧
      toList t2.root = toList (fill (Node.mk xc (Node.mk yc a yd b) xd c) path) ∧
      nodeList t2.root = nodeList (fill (Node.mk xc (Node.mk yc a yd b) xd c) path) ∧
      t2.size = size ∧ t2.freed = freed) ∧
    turnLeft (Node.mk xc a xd Node.NULL) = none ∧
    turnRight (Node.mk xc Node.NULL xd c) = none := by
  refine ⟨⟨_, rfl, rfl, ?_, ?_, ?_, rfl, rfl⟩, ⟨_, rfl, rfl, ?_, ?_, ?_, rfl, rfl⟩, rfl, rfl⟩
  · rintro rfl; rfl
  · simp [toList]
  · exact nodeList_fill_congr (by simp [nodeList]) path
  · rintro rfl; rfl
  · simp [toList]
  · exact nodeList_fill_congr (by simp [nodeList]) path

/-- C22: the root is always BLACK.  After any sequence of `insertToRBTree` and
`deleteFromRBTree` calls on the empty tree, every call has returned and the root,
when the tree is not empty, is a BLACK node.  Deletion relies on it: unlinking a
RED node never updates `tree->root`, so deleting a RED root leaf leaves the
record without a defined root. -/
theorem root_always_black (cmp : α → α → Int) (ops : List (Op α)) :
    (∃ t, runOps cmp ops newRBTree = some t ∧ colorOf t.root = Color.BLACK ∧
      (t.root ≠ Node.NULL → ∃ l d r, t.root = Node.mk Color.BLACK l d r)) ∧
    ∀ (tree : RBTree α) (d : α), tree.root = Node.mk Color.RED Node.NULL d Node.NULL →
      cmp d d = 0 → deleteFromRBTree cmp tree (some d) = none := by
  constructor
  · obtain ⟨t, ht, -, hc, -⟩ := runOps_inv cmp ops newRBTree trivial rfl rfl
    refine ⟨t, ht, hc, ?_⟩
    intro hne
    rcases hr : t.root with _ | ⟨c, l, d, r⟩
    · exact absurd hr hne
    · rw [hr] at hc
      simp only [colorOf] at hc
      subst hc
      exact ⟨l, d, r, rfl⟩
  · intro tree d hroot hdd
    simp [deleteFromRBTree, hroot, findNode, whereToGo, hdd, pickM, howManyKIds, setC]

end Rotations

section InsertReads

/-- Every iteration of `fixingAlg` on a valid tree starts at a RED node whose
ancestors are those of a valid tree. -/
theorem fixVisits_inv (t0 : Node α) (p0 : Path α) (t : Node α) (p : Path α)
    (hv : FixVisits t0 p0 t p) (hn : wf t0) (hc : colorOf t0 = Color.RED)
    (hp : pathWf p0 Color.BLACK (blackHeight t0)) :
    wf t ∧ colorOf t = Color.RED ∧ pathWf p Color.BLACK (blackHeight t) := by
  induction hv with
  | start toFix path => exact ⟨hn, hc, hp⟩
  | @next toFix g toFix2 dad grandad rest path2 ul ud ur hd hu hg _ ih =>
    rw [pathWf_cons] at hp
    obtain ⟨h1, h2, h3, h4⟩ := hp
    rw [hd] at h4
    have hgc := pathWf_red_top h4
    rw [pathWf_cons] at h4
    obtain ⟨h5, h6, -, h8⟩ := h4
    obtain ⟨sub, hsub, hw, hcol, hbh⟩ := redDadRedUncle_wf toFix dad grandad hn hc hd
      (by rw [hu]; rfl) h1 h5 h2 (by simpa [blk] using h6) (h3 hd).2
    rw [hg] at hsub
    cases hsub
    apply ih hw hcol
    rw [hbh]
    simpa [hgc, blk] using h8

/-- The rotations of `redDadBlackUncle`: at most one at the parent, to turn a
triangle into a line, then exactly one at the grandparent, each on a node that
has the child rotated up. -/
theorem redDadBlackUncle_rotations (nc : Color) (nl : Node α) (nd : α) (nr : Node α)
    (dad grandad : Frame α) :
    ∃ dsub top sub,
      (dad.side = grandad.side → dsub = fill (Node.mk nc nl nd nr) [dad]) ∧
      (dad.side = LeftOrRightChild.RIGHT → grandad.side = LeftOrRightChild.LEFT →
        turnLeft (fill (Node.mk nc nl nd nr) [dad]) = some dsub) ∧
      (dad.side = LeftOrRightChild.LEFT → grandad.side = LeftOrRightChild.RIGHT →
        turnRight (fill (Node.mk nc nl nd nr) [dad]) = some dsub) ∧
      (grandad.side = LeftOrRightChild.LEFT → turnRight (fill dsub [grandad]) = some top) ∧
      (grandad.side = LeftOrRightChild.RIGHT → turnLeft (fill dsub [grandad]) = some top) ∧
      paintDadAndGrandad grandad.side top = some sub ∧
      redDadBlackUncle (Node.mk nc nl nd nr) dad grandad = some sub := by
  obtain ⟨dc, dd, dr⟩ | ⟨dc, dl, dd⟩ := dad <;>
  obtain ⟨gc, gd, gu⟩ | ⟨gc, gu, gd⟩ := grandad
  · exact ⟨Node.mk dc (Node.mk nc nl nd nr) dd dr,
      Node.mk dc (Node.mk nc nl nd nr) dd (Node.mk gc dr gd gu),
      Node.mk Color.BLACK (Node.mk nc nl nd nr) dd (Node.mk Color.RED dr gd gu),
      by simp [fill], by simp [Frame.side], by simp [Frame.side], by simp [fill, turnRight],
      by simp [Frame.side], rfl, rfl⟩
  · exact ⟨Node.mk nc nl nd (Node.mk dc nr dd dr),
      Node.mk nc (Node.mk gc gu gd nl) nd (Node.mk dc nr dd dr),
      Node.mk Color.BLACK (Node.mk Color.RED gu gd nl) nd (Node.mk dc nr dd dr),
      by simp [Frame.side], by simp [Frame.side], by simp [fill, turnRight],
      by simp [Frame.side], by simp [fill, turnLeft], rfl, rfl⟩
  · exact ⟨Node.mk nc (Node.mk dc dl dd nl) nd nr,
      Node.mk nc (Node.mk dc dl dd nl) nd (Node.mk gc nr gd gu),
      Node.mk Color.BLACK (Node.mk dc dl dd nl) nd (Node.mk Color.RED nr gd gu),
      by simp [Frame.side], by simp [fill, turnLeft], by simp [Frame.side],
      by simp [fill, turnRight], by simp [Frame.side], rfl, rfl⟩
  · exact ⟨Node.mk dc dl dd (Node.mk nc nl nd nr),
      Node.mk dc (Node.mk gc gu gd dl) dd (Node.mk nc nl nd nr),
      Node.mk Color.BLACK (Node.mk Color.RED gu gd dl) dd (Node.mk nc nl nd nr),
      by simp [fill], by simp [Frame.side], by simp [Frame.side], by simp [Frame.side],
      by simp [fill, turnLeft], rfl, rfl⟩

/-- C24: the insert fix-up never dereferences an absent node.  On a tree
satisfying the colour invariants with a BLACK root, after `insertRegular` has
linked the new RED node, every iteration of `fixingAlg` starts at a present node
and `fixingAlg` returns; whenever the parent of the current node is RED the
grandparent is present; with a RED uncle the uncle is present and
`redDadRedUncle` is defined; with a BLACK or absent uncle `redDadBlackUncle` is
defined and makes at most one rotation at the parent (for a triangle), then
exactly one rotation at the grandparent, each on a node that has the child being
rotated up, followed by the recolouring. -/
theorem fixingAlg_reads_present (cmp : α → α → Int) (tree : RBTree α) (x : α)
    (path : Path α) (hroot : colorOf tree.root = Color.BLACK) (hred : noRedRed tree.root)
    (hblack : sameBlackCount tree.root) (hins : insertRegular cmp tree x = some path) :
    ∀ t p, FixVisits (Node.mk Color.RED Node.NULL x Node.NULL) path t p →
      t ≠ Node.NULL ∧ (∃ root, fixingAlg t p = some root) ∧
      ∀ dad rest1, p = dad :: rest1 → dad.color = Color.RED →
        ∃ grandad rest2, rest1 = grandad :: rest2 ∧
          (colorOf grandad.brother = Color.RED →
            grandad.brother ≠ Node.NULL ∧ ∃ g, redDadRedUncle t dad grandad = some g) ∧
          (colorOf grandad.brother = Color.BLACK →
            ∃ dsub top sub,
              (dad.side = grandad.side → dsub = fill t [dad]) ∧
              (dad.side = LeftOrRightChild.RIGHT → grandad.side = LeftOrRightChild.LEFT →
                turnLeft (fill t [dad]) = some dsub) ∧
              (dad.side = LeftOrRightChild.LEFT → grandad.side = LeftOrRightChild.RIGHT →
                turnRight (fill t [dad]) = some dsub) ∧
              (grandad.side = LeftOrRightChild.LEFT →
                turnRight (fill dsub [grandad]) = some top) ∧
              (grandad.side = LeftOrRightChild.RIGHT →
                turnLeft (fill dsub [grandad]) = some top) ∧
              paintDadAndGrandad grandad.side top = some sub ∧
              redDadBlackUncle t dad grandad = some sub) := by
  intro t p hv
  have hw := (wf_iff _).2 ⟨hred, hblack⟩
  have hfill := insertRegularLoop_fill x _ _ _ hins
  simp only [fill] at hfill
  have hpw : pathWf path Color.BLACK 0 := by
    have := (fill_wf Node.NULL path).1 (by rw [hfill]; exact ⟨hw, hroot⟩)
    simpa [colorOf, blackHeight] using this.2
  obtain ⟨h1, h2, h3⟩ := fixVisits_inv _ _ _ _ hv (by simp [wf, blackHeight, colorOf]) rfl
    (by simpa [blackHeight, blk] using hpw)
  have hne : t ≠ Node.NULL := by
    rintro rfl
    simp [colorOf] at h2
  refine ⟨hne, ?_, ?_⟩
  · obtain ⟨root, hr, -⟩ := fixingAlg_wf t p h1 h2 h3
    exact ⟨root, hr⟩
  · intro dad rest1 hp hd
    subst hp
    rw [pathWf_cons] at h3
    obtain ⟨h4, h5, h6, h7⟩ := h3
    rw [hd] at h7
    cases rest1 with
    | nil => simp [pathWf] at h7
    | cons grandad rest2 =>
      refine ⟨grandad, rest2, rfl, ?_, ?_⟩
      · intro hu
        have hgc := pathWf_red_top h7
        rw [pathWf_cons] at h7
        obtain ⟨h8, h9, -, -⟩ := h7
        obtain ⟨g, hg, -⟩ := redDadRedUncle_wf t dad grandad h1 h2 hd hu h4 h8 h5
          (by simpa [blk] using h9) (h6 hd).2
        refine ⟨?_, g, hg⟩
        intro hnull
        rw [hnull] at hu
        simp [colorOf] at hu
      · intro _
        rcases t with _ | ⟨nc, nl, nd, nr⟩
        · exact absurd rfl hne
        · exact redDadBlackUncle_rotations nc nl nd nr dad grandad

theorem fixingAlg_reads_present_witness :
    colorOf sampleTree.root = Color.BLACK ∧ noRedRed sampleTree.root ∧
    sameBlackCount sampleTree.root ∧
    insertRegular intCmp sampleTree 2 =
      some [Frame.right Color.RED Node.NULL 1,
        Frame.left Color.BLACK 3 (Node.mk Color.RED Node.NULL 4 Node.NULL),
        Frame.left Color.BLACK 5 (Node.mk Color.BLACK (Node.mk Color.RED Node.NULL 7 Node.NULL) 8
          (Node.mk Color.RED Node.NULL 9 Node.NULL))] ∧
    ∃ root, fixingAlg (Node.mk Color.RED Node.NULL (2 : Int) Node.NULL)
      [Frame.right Color.RED Node.NULL 1,
        Frame.left Color.BLACK 3 (Node.mk Color.RED Node.NULL 4 Node.NULL),
        Frame.left Color.BLACK 5 (Node.mk Color.BLACK (Node.mk Color.RED Node.NULL 7 Node.NULL) 8
          (Node.mk Color.RED Node.NULL 9 Node.NULL))] = some root :=
  ⟨sampleTree_valid.rootBlack, sampleTree_valid.noRedRed, sampleTree_valid.sameBlackCount,
    by decide,
    (fixingAlg_reads_present intCmp sampleTree 2 _ sampleTree_valid.rootBlack
      sampleTree_valid.noRedRed sampleTree_valid.sameBlackCount (by decide) _ _
      (FixVisits.start _ _)).2.1⟩

end InsertReads

section DeleteReads

theorem blackSRedSf_left (pc : Color) (C : Node α) (pd : α) (sc : Color) (sl : Node α) (sd : α)
    (fc : Color) (fl : Node α) (fd : α) (fr : Node α) :
    blackSRedSf (Node.mk pc C pd (Node.mk sc sl sd (Node.mk fc fl fd fr)))
        LeftOrRightChild.LEFT =
      some (Node.mk pc (Node.mk sc C pd sl) sd (Node.mk Color.BLACK fl fd fr)) := by
  simp [blackSRedSf, turnLeft]

theorem blackSRedSf_right (pc : Color) (C : Node α) (pd : α) (sc : Color) (sr : Node α) (sd : α)
    (fc : Color) (fl : Node α) (fd : α) (fr : Node α) :
    blackSRedSf (Node.mk pc (Node.mk sc (Node.mk fc fl fd fr) sd sr) pd C)
        LeftOrRightChild.RIGHT =
      some (Node.mk pc (Node.mk Color.BLACK fl fd fr) sd (Node.mk sc sr pd C)) := by
  simp [blackSRedSf, turnRight]

/-- A continuing iteration keeps the loop state that of a valid tree. -/
theorem loopStep_continues_deficit (side : LeftOrRightChild) (P : Node α) (rest : Path α)
    (side1 : LeftOrRightChild) (P1 : Node α) (rest1 : Path α) (hd : deficit side P rest)
    (hs : loopStep side P rest = some (StepResult.continues side1 P1 rest1)) :
    deficit side1 P1 rest1 := by
  obtain ⟨k, -, hb, hc, hdd, he⟩ := loopStep_deficit side P rest hd
  cases k with
  | b =>
    obtain ⟨h1, h2⟩ := hb rfl
    rcases color_cases (colorOf P) with hcol | hcol
    · obtain ⟨root, hr⟩ := h1 (Or.inl hcol)
      rw [hr] at hs
      cases hs
    · cases rest with
      | nil =>
        obtain ⟨root, hr⟩ := h1 (Or.inr rfl)
        rw [hr] at hs
        cases hs
      | cons g up =>
        obtain ⟨side2, P2, hr, hdef⟩ := h2 hcol g up rfl
        rw [hr] at hs
        cases hs
        exact hdef
  | c =>
    obtain ⟨P2, g, hr, hdef, -⟩ := hc rfl
    rw [hr] at hs
    cases hs
    exact hdef
  | d =>
    obtain ⟨P2, hr, hdef, -⟩ := hdd rfl
    rw [hr] at hs
    cases hs
    exact hdef
  | e =>
    obtain ⟨root, hr⟩ := he rfl
    rw [hr] at hs
    cases hs

/-- Every iteration of the loop of `blackMAndC` on a valid tree starts in a state
satisfying the loop invariant. -/
theorem loopVisits_deficit (side : LeftOrRightChild) (P : Node α) (rest : Path α)
    (side2 : LeftOrRightChild) (P2 : Node α) (rest2 : Path α)
    (hv : LoopVisits side P rest side2 P2 rest2) (hd : deficit side P rest) :
    deficit side2 P2 rest2 := by
  induction hv with
  | start s Q r => exact hd
  | next hs _ ih => exact ih (loopStep_continues_deficit _ _ _ _ _ _ hd hs)

/-- What an iteration reads in a state of the loop on a valid tree. -/
theorem deficit_reads (side : LeftOrRightChild) (P : Node α) (rest : Path α)
    (hd : deficit side P rest) :
    ∃ k S, whichCase side P = some k ∧ siblingOf side P = some S ∧ S ≠ Node.NULL ∧
      (∃ res, loopStep side P rest = some res) ∧
      (k = FixCase.c → ∃ near, nearNephew side S = some near ∧ near ≠ Node.NULL) ∧
      (k = FixCase.d → ∃ near S2, nearNephew side S = some near ∧ near ≠ Node.NULL ∧
        blackSAndSfRedSc S side = some S2) ∧
      (k = FixCase.e → ∃ far top, farNephew side S = some far ∧ far ≠ Node.NULL ∧
        blackSRedSf P side = some top) := by
  obtain ⟨k, hk, hb, hc, hdd, he⟩ := loopStep_deficit side P rest hd
  have hres : ∃ res, loopStep side P rest = some res := by
    cases k with
    | b =>
      obtain ⟨h1, h2⟩ := hb rfl
      rcases color_cases (colorOf P) with hcol | hcol
      · obtain ⟨root, hr⟩ := h1 (Or.inl hcol); exact ⟨_, hr⟩
      · cases rest with
        | nil => obtain ⟨root, hr⟩ := h1 (Or.inr rfl); exact ⟨_, hr⟩
        | cons g up => obtain ⟨side2, P2, hr, -⟩ := h2 hcol g up rfl; exact ⟨_, hr⟩
    | c => obtain ⟨P2, g, hr, -⟩ := hc rfl; exact ⟨_, hr⟩
    | d => obtain ⟨P2, hr, -⟩ := hdd rfl; exact ⟨_, hr⟩
    | e => obtain ⟨root, hr⟩ := he rfl; exact ⟨_, hr⟩
  cases side with
  | ROOT => cases P <;> simp [deficit] at hd
  | LEFT =>
    rcases P with _ | ⟨pc, C, pd, S⟩
    · simp [deficit] at hd
    have hd2 := hd
    simp only [deficit] at hd2
    obtain ⟨h1, h2, h3, h4, h5, h6⟩ := hd2
    rcases S with _ | ⟨sc, sl, sd, sr⟩
    · simp [blackHeight] at h4
    refine ⟨k, _, hk, rfl, by simp, hres, ?_, ?_, ?_⟩
    · rintro rfl
      rcases sc with _ | _
      · rcases sl with _ | ⟨nc, a1, a2, a3⟩
        · simp [wf, blackHeight, blk] at h3 h4
        · exact ⟨_, rfl, by simp⟩
      · obtain ⟨k2, hk2, hne⟩ := whichCase_black_left pc C pd sl sd sr
        rw [hk] at hk2
        cases hk2
        exact absurd rfl hne
    · rintro rfl
      rcases sc with _ | _
      · simp [whichCase, siblingOf] at hk
      · rcases sl with _ | ⟨_ | _, a1, a2, a3⟩ <;> rcases sr with _ | ⟨_ | _, b1, b2, b3⟩ <;>
          simp [whichCase, siblingOf, hasTwoBlackKids, howManyKIds, redScBlackSf] at hk <;>
          exact ⟨_, _, rfl, by simp, rfl⟩
    · rintro rfl
      rcases sc with _ | _
      · simp [whichCase, siblingOf] at hk
      · rcases sl with _ | ⟨_ | _, a1, a2, a3⟩ <;> rcases sr with _ | ⟨_ | _, b1, b2, b3⟩ <;>
          simp [whichCase, siblingOf, hasTwoBlackKids, howManyKIds, redScBlackSf] at hk <;>
          first
            | exact ⟨_, _, rfl, by simp, blackSRedSf_left _ _ _ _ _ _ _ _ _ _⟩
            | (simp [wf, blackHeight, blk] at h3)
  | RIGHT =>
    rcases P with _ | ⟨pc, S, pd, C⟩
    · simp [deficit] at hd
    have hd2 := hd
    simp only [deficit] at hd2
    obtain ⟨h1, h2, h3, h4, h5, h6⟩ := hd2
    rcases S with _ | ⟨sc, sl, sd, sr⟩
    · simp [blackHeight] at h4
    refine ⟨k, _, hk, rfl, by simp, hres, ?_, ?_, ?_⟩
    · rintro rfl
      rcases sc with _ | _
      · rcases sr with _ | ⟨nc, a1, a2, a3⟩
        · simp [wf, blackHeight, blk] at h3 h4
          omega
        · exact ⟨_, rfl, by simp⟩
      · obtain ⟨k2, hk2, hne⟩ := whichCase_black_right pc C pd sl sd sr
        rw [hk] at hk2
        cases hk2
        exact absurd rfl hne
    · rintro rfl
      rcases sc with _ | _
      · simp [whichCase, siblingOf] at hk
      · rcases sl with _ | ⟨_ | _, a1, a2, a3⟩ <;> rcases sr with _ | ⟨_ | _, b1, b2, b3⟩ <;>
          simp [whichCase, siblingOf, hasTwoBlackKids, howManyKIds, redScBlackSf] at hk <;>
          exact ⟨_, _, rfl, by simp, rfl⟩
    · rintro rfl
      rcases sc with _ | _
      · simp [whichCase, siblingOf] at hk
      · rcases sl with _ | ⟨_ | _, a1, a2, a3⟩ <;> rcases sr with _ | ⟨_ | _, b1, b2, b3⟩ <;>
          simp [whichCase, siblingOf, hasTwoBlackKids, howManyKIds, redScBlackSf] at hk <;>
          first
            | exact ⟨_, _, rfl, by simp, blackSRedSf_right _ _ _ _ _ _ _ _ _ _⟩
            | (simp [wf, blackHeight, blk] at h3)

/-- Entering the loop of `blackMAndC` at a BLACK node without RED child that is
not the root of a valid tree. -/
theorem blackMAndC_enters (ml : Node α) (md : α) (mr : Node α) (f : Frame α) (rest : Path α)
    (hw : wf (fill (Node.mk Color.BLACK ml md mr) (f :: rest)))
    (hroot : colorOf (fill (Node.mk Color.BLACK ml md mr) (f :: rest)) = Color.BLACK)
    (hl : colorOf ml = Color.BLACK) (hr : colorOf mr = Color.BLACK) :
    ∃ C, setC (Node.mk Color.BLACK ml md mr) = some C ∧
      deficit (up1 C f).1 (up1 C f).2 rest ∧
      ∀ fuel, blackMAndC fuel (Node.mk Color.BLACK ml md mr) (f :: rest) =
        blackMAndCLoop fuel (up1 C f).1 (up1 C f).2 rest := by
  obtain ⟨hwM, hp⟩ := (fill_wf _ _).1 ⟨hw, hroot⟩
  simp only [wf] at hwM
  obtain ⟨hwl, hwr, hbh, -⟩ := hwM
  simp only [colorOf, blackHeight, blk] at hp
  have hC : ∃ C, setC (Node.mk Color.BLACK ml md mr) = some C ∧ wf C ∧
      colorOf C = Color.BLACK ∧ blackHeight C = blackHeight ml := by
    rcases mr with _ | ⟨rc, rl, rd, rr⟩
    · exact ⟨ml, rfl, hwl, hl, rfl⟩
    · exact ⟨_, rfl, hwr, hr, hbh.symm⟩
  obtain ⟨C, hset, hwC, hcC, hbC⟩ := hC
  refine ⟨C, hset, deficit_up1 C f rest (blackHeight ml) hwC hcC hbC hp, ?_⟩
  intro fuel
  cases f <;> simp [blackMAndC, hset, up1]

/-- C23: the delete fix-up never dereferences an absent node.  On a tree
satisfying the colour invariants with a BLACK root, for a BLACK node `M` without
RED child that is not the root (a deletion that reaches `blackMAndC` past its
root test), `blackMAndC` enters its loop, and at the start of every iteration
the sibling `S` is present and the iteration is defined, every node it reads
through and every rotation's child being present: in the red-sibling case the
near nephew taken as the new sibling is present; in case d the near nephew
recoloured and rotated up by `blackSAndSfRedSc` is present; in case e the far
nephew recoloured by `blackSRedSf` is present, and `S`, rotated up, is the
present child of `P`. -/
theorem blackMAndC_reads_present (ml : Node α) (md : α) (mr : Node α) (f : Frame α)
    (rest : Path α)
    (hroot : colorOf (fill (Node.mk Color.BLACK ml md mr) (f :: rest)) = Color.BLACK)
    (hred : noRedRed (fill (Node.mk Color.BLACK ml md mr) (f :: rest)))
    (hblack : sameBlackCount (fill (Node.mk Color.BLACK ml md mr) (f :: rest)))
    (hl : colorOf ml = Color.BLACK) (hr : colorOf mr = Color.BLACK) :
    ∃ C, setC (Node.mk Color.BLACK ml md mr) = some C ∧
      (∀ fuel, blackMAndC fuel (Node.mk Color.BLACK ml md mr) (f :: rest) =
        blackMAndCLoop fuel (up1 C f).1 (up1 C f).2 rest) ∧
      ∀ (side : LeftOrRightChild) (P : Node α) (path : Path α),
        LoopVisits (up1 C f).1 (up1 C f).2 rest side P path →
        ∃ k S, whichCase side P = some k ∧ siblingOf side P = some S ∧ S ≠ Node.NULL ∧
          (∃ res, loopStep side P path = some res) ∧
          (k = FixCase.c → ∃ near, nearNephew side S = some near ∧ near ≠ Node.NULL) ∧
          (k = FixCase.d → ∃ near S2, nearNephew side S = some near ∧ near ≠ Node.NULL ∧
            blackSAndSfRedSc S side = some S2) ∧
          (k = FixCase.e → ∃ far top, farNephew side S = some far ∧ far ≠ Node.NULL ∧
            blackSRedSf P side = some top) := by
  obtain ⟨C, hset, hdef, heq⟩ := blackMAndC_enters ml md mr f rest
    ((wf_iff _).2 ⟨hred, hblack⟩) hroot hl hr
  refine ⟨C, hset, heq, ?_⟩
  intro side P path hv
  exact deficit_reads side P path (loopVisits_deficit _ _ _ _ _ _ hv hdef)

theorem blackMAndC_reads_present_witness :
    colorOf (fill (Node.mk Color.BLACK Node.NULL (4 : Int) Node.NULL)
      [Frame.left Color.BLACK 8 (Node.mk Color.BLACK Node.NULL 9 Node.NULL)]) = Color.BLACK ∧
    noRedRed (fill (Node.mk Color.BLACK Node.NULL (4 : Int) Node.NULL)
      [Frame.left Color.BLACK 8 (Node.mk Color.BLACK Node.NULL 9 Node.NULL)]) ∧
    sameBlackCount (fill (Node.mk Color.BLACK Node.NULL (4 : Int) Node.NULL)
      [Frame.left Color.BLACK 8 (Node.mk Color.BLACK Node.NULL 9 Node.NULL)]) ∧
    ∃ C, setC (Node.mk Color.BLACK Node.NULL (4 : Int) Node.NULL) = some C ∧
      ∀ fuel, blackMAndC fuel (Node.mk Color.BLACK Node.NULL (4 : Int) Node.NULL)
          [Frame.left Color.BLACK 8 (Node.mk Color.BLACK Node.NULL 9 Node.NULL)] =
        blackMAndCLoop fuel
          (up1 C (Frame.left Color.BLACK 8 (Node.mk Color.BLACK Node.NULL 9 Node.NULL))).1
          (up1 C (Frame.left Color.BLACK 8 (Node.mk Color.BLACK Node.NULL 9 Node.NULL))).2 [] :=
  ⟨rfl, by simp [fill, noRedRed, colorOf], by simp [fill, sameBlackCount, blackCounts, blk],
    (blackMAndC_reads_present Node.NULL (4 : Int) Node.NULL
      (Frame.left Color.BLACK 8 (Node.mk Color.BLACK Node.NULL 9 Node.NULL)) [] rfl
      (by simp [fill, noRedRed, colorOf]) (by simp [fill, sameBlackCount, blackCounts, blk])
      rfl rfl).elim fun C h => ⟨C, h.1, h.2.1⟩⟩

end DeleteReads

end RB
